import Mathlib

/-!
Shallow embedding of the format-preserving structured-text editing engine of
the TrendRadar configuration editor (`docs/assets/script.js`): the
indentation-aware navigation and patching primitives for the scheduling
document, the day-plan list mutations, and the frequency rule
parser/builder, together with proofs about them.

Strings are modelled as Lean `String` (in this toolchain a wrapper around
`List Char`).  The JavaScript string primitives the source relies on
(`split('\n')`, `trim()`, `startsWith`, `search(/\S/)`, and a handful of
fixed regular expressions) are implemented below by structural recursion on
the character list, mirroring the JavaScript semantics on the character sets
these documents use.
-/

/- ----- string primitives ----- -/

/-- whitespace test mirroring the JavaScript `\s` class on the characters
that occur in these documents. -/
def isWsChar (c : Char) : Bool :=
  c = ' ' || c = '\t' || c = '\n' || c = '\r' || c = '\x0b' || c = '\x0c'

/-- drop leading and trailing whitespace from a character list;
this is JavaScript `String.prototype.trim`. -/
def trimList (l : List Char) : List Char :=
  ((l.dropWhile isWsChar).reverse.dropWhile isWsChar).reverse

/-- JavaScript `s.trim()`. -/
def jsTrim (s : String) : String := ⟨trimList s.data⟩

/-- boolean list-prefix test (pattern first). -/
def listPrefix : List Char → List Char → Bool
  | [], _ => true
  | _ :: _, [] => false
  | p :: ps, c :: cs => p = c && listPrefix ps cs

/-- JavaScript `s.startsWith(pre)`. -/
def strStartsWith (s pre : String) : Bool := listPrefix pre.data s.data

/-- JavaScript `s.endsWith(suf)`. -/
def strEndsWith (s suf : String) : Bool := listPrefix suf.data.reverse s.data.reverse

/-- split a character list at every `sep` character; JavaScript
`String.prototype.split` with a single-character separator. -/
def splitCharAux (sep : Char) : List Char → List Char → List (List Char)
  | [], acc => [acc.reverse]
  | c :: cs, acc =>
    if c = sep then acc.reverse :: splitCharAux sep cs [] else splitCharAux sep cs (c :: acc)

/-- JavaScript `s.split(sep)` for a single-character separator. -/
def jsSplitChar (sep : Char) (s : String) : List String :=
  (splitCharAux sep s.data []).map String.mk

/-- JavaScript `text.split('\n')`: the line sequence of a document. -/
def jsSplitLines (s : String) : List String := jsSplitChar '\n' s

/-- join character lists with a separator list; JavaScript
`Array.prototype.join`. -/
def joinWithList (sep : List Char) : List (List Char) → List Char
  | [] => []
  | [x] => x
  | x :: xs => x ++ sep ++ joinWithList sep xs

/-- JavaScript `lines.join('\n')`. -/
def jsJoinLines (ls : List String) : String :=
  ⟨joinWithList ['\n'] (ls.map String.data)⟩

/-- JavaScript `items.join(', ')`. -/
def joinCommaSp (items : List String) : String :=
  ⟨joinWithList [',', ' '] (items.map String.data)⟩

/-- JavaScript `line.search(/\S/)`: index of the first non-whitespace
character, `-1` when the line is blank. -/
def jsSearch (s : String) : Int :=
  if s.data.dropWhile isWsChar = [] then -1 else ((s.data.takeWhile isWsChar).length : Int)

/-- index of the last `':'` in a character list, if any. -/
def lastIdxColon : List Char → Option Nat
  | [] => none
  | c :: cs =>
    match lastIdxColon cs with
    | some j => some (j + 1)
    | none => if c = ':' then some 0 else none

/-- decomposition of a line by the regular expression `^(\s*)(\S+):\s*`
used throughout the patching code (with backtracking, `(\S+)` captures the
part of the first non-whitespace run that precedes its last colon).
Returns `(leadingWs, keyToken, wsAfterColon, rest)`. -/
def keyRunSplit (l : List Char) : Option (List Char × List Char × List Char × List Char) :=
  let ws := l.takeWhile isWsChar
  let rest := l.drop ws.length
  let run := rest.takeWhile (fun c => !isWsChar c)
  match lastIdxColon run with
  | none => none
  | some k =>
    if k = 0 then none
    else
      let keyTok := run.take k
      let after := rest.drop (k + 1)
      let sp := after.takeWhile isWsChar
      some (ws, keyTok, sp, after.drop sp.length)

/-- the match of `^(\s*\S+:\s*)(.*)$` (`replaceLineValue`'s line shape):
`(prefix, restOfLine)` where `prefix` keeps the key, the colon and the
spacing after it. -/
def keyColonLineSplit (s : String) : Option (String × String) :=
  match keyRunSplit s.data with
  | none => none
  | some (ws, keyTok, sp, rest) => some (⟨ws ++ keyTok ++ [':'] ++ sp⟩, ⟨rest⟩)

/-- the key token captured by `^\s*(\S+):\s*`, used by `findChildKey`. -/
def keyTokOf (s : String) : Option String :=
  match keyRunSplit s.data with
  | none => none
  | some (_, keyTok, _, _) => some (⟨keyTok⟩ : String)

/-- split `rest` into value text and trailing comment following the source's
`rest.match(/(\s*#.*)$/)`: the comment starts at the whitespace run
immediately preceding the first `'#'`; when there is no `'#'` the comment is
empty. -/
def commentSplit (rest : String) : String × String :=
  match rest.data.findIdx? (fun c => c = '#') with
  | none => (rest, "")
  | some h =>
    let before := rest.data.take h
    let wsLen := (before.reverse.takeWhile isWsChar).length
    let p := h - wsLen
    (⟨rest.data.take p⟩, ⟨rest.data.drop p⟩)

/- ----- scalar patcher ----- -/

/-- a JavaScript value passed to the patching functions: boolean, string or
number (the documents only use integral numbers). -/
inductive JsValue where
  | bool (b : Bool)
  | str (s : String)
  | num (n : Int)
deriving DecidableEq, Repr

/-- string rendering of a `JsValue` the way `replaceLineValue` formats it,
given the quoting decision for strings. -/
def quoteWrap (s : String) : String := "\"" ++ s ++ "\""

/-- whether a previous value text was quoted (`"…"` or `'…'`), as tested by
`replaceLineValue`. -/
def isQuotedVal (valPart : String) : Bool :=
  (strStartsWith valPart "\"" && strEndsWith valPart "\"") ||
  (strStartsWith valPart "'" && strEndsWith valPart "'")

/-- the quoting condition of `replaceLineValue` for a string value: the
previous value was quoted, or the new value contains a colon, a hash or a
space. -/
def needsQuote (valPart : String) (s : String) : Bool :=
  isQuotedVal valPart || s.data.contains ':' || s.data.contains '#' || s.data.contains ' '

/-- `replaceLineValue(lines, idx, value)` (script.js 4402-4430): replaces the
value part of the `key: value` line at `idx`, keeping the key, the spacing
and the trailing comment; lines that do not match `^(\s*\S+:\s*)(.*)$` are
left untouched.  (When `idx` is out of range the JavaScript code would fault
on `undefined`; the callers only pass indices returned by `findChildKey`,
which are in range, and the model returns the lines unchanged.) -/
def replaceLineValue (lines : List String) (idx : Nat) (value : JsValue) : List String :=
  match lines.get? idx with
  | none => lines
  | some original =>
    match keyColonLineSplit original with
    | none => lines
    | some (pre, rest) =>
      let pc := commentSplit rest
      let formatted : String :=
        match value with
        | .bool b => if b then "true" else "false"
        | .str s => if needsQuote (jsTrim pc.1) s then quoteWrap s else s
        | .num n => toString n
      lines.set idx (pre ++ formatted ++ pc.2)

/- ----- indentation tree navigator ----- -/

/-- a line is skipped by every scan: blank, or a comment after trimming. -/
def isSkipLine (l : String) : Bool := jsTrim l = "" || strStartsWith (jsTrim l) "#"

/-- test of `/^\S/`. -/
def nonWsFirst (l : String) : Bool :=
  match l.data with
  | [] => false
  | c :: _ => !isWsChar c

/-- scan loop of `findChildKey` (script.js 4372-4384) from index `i`; the
second argument is a structural-recursion bound on the remaining loop
iterations (`findChildKey` passes one more than the loop can take, so the
bound is never the reason the scan stops).  Out-of-range reads model
`lines[i]` as `""`; the callers always pass `e ≤ lines.length` so the loop
stays in range. -/
def findChildKeyAux (lines : List String) (e : Nat) (p : Int) (key : String) :
    Nat → Nat → Int
  | _, 0 => -1
  | i, fuel + 1 =>
    if i < e then
      if isSkipLine (lines.getD i "") then findChildKeyAux lines e p key (i + 1) fuel
      else if jsSearch (lines.getD i "") ≤ p then -1
      else
        match keyTokOf (lines.getD i "") with
        | some k =>
          if k = key ∧ jsSearch (lines.getD i "") = p + 2 then (i : Int)
          else findChildKeyAux lines e p key (i + 1) fuel
        | none => findChildKeyAux lines e p key (i + 1) fuel
    else -1

/-- `findChildKey(lines, start, end, parentIndent, key)` (script.js
4372-4384): scans the lines strictly between `start` and `e`, skipping blank
and comment lines; returns `-1` upon meeting a non-blank non-comment line
whose indentation is at most `p`; returns the first index whose key token
equals `key` and whose indentation is exactly `p + 2`. -/
def findChildKey (lines : List String) (start e : Nat) (p : Int) (key : String) : Int :=
  findChildKeyAux lines e p key (start + 1) (e - start)

/-- scan loop of `findBlockEnd` (script.js 4389-4397) from index `i`, with
the same structural iteration bound as `findChildKeyAux`. -/
def findBlockEndAux (lines : List String) (indent : Int) (maxEnd : Nat) : Nat → Nat → Nat
  | _, 0 => maxEnd
  | i, fuel + 1 =>
    if i < maxEnd then
      if isSkipLine (lines.getD i "") then findBlockEndAux lines indent maxEnd (i + 1) fuel
      else if jsSearch (lines.getD i "") ≤ indent then i
      else findBlockEndAux lines indent maxEnd (i + 1) fuel
    else maxEnd

/-- `findBlockEnd(lines, start, indent, maxEnd)` (script.js 4389-4397):
index of the first non-blank non-comment line after `start` with indentation
at most `indent`, or `maxEnd`. -/
def findBlockEnd (lines : List String) (start : Nat) (indent : Int) (maxEnd : Nat) : Nat :=
  findBlockEndAux lines indent maxEnd (start + 1) (maxEnd - start)

/-- a line that makes `findChildKey` stop scanning: non-blank, non-comment,
indentation at most the parent indentation. -/
def isStopLine (p : Int) (l : String) : Bool :=
  !isSkipLine l && decide (jsSearch l ≤ p)

/-- a line `findChildKey` returns: non-blank, non-comment, indentation
exactly `p + 2`, key token equal to `key`. -/
def isMatchLine (p : Int) (key : String) (l : String) : Bool :=
  !isSkipLine l && decide (jsSearch l = p + 2) && decide (keyTokOf l = some key)

/-- the match of `^(\s+)(\S+):\s*` used by the preset scans: leading
whitespace width (at least one) and the key token. -/
def indentKeyMatch (s : String) : Option (Int × String) :=
  match keyRunSplit s.data with
  | none => none
  | some (ws, keyTok, _, _) => if ws = [] then none else some ((ws.length : Int), (⟨keyTok⟩ : String))

/-- scan for the line of a named preset under the top-level `presets:` key
(script.js 4278-4298 and, identically, 5172-5182). -/
def presetScanAux (presetName : String) : List String → Nat → Bool → Option (Nat × Int)
  | [], _, _ => none
  | l :: rest, i, inP =>
    if strStartsWith l "presets:" then presetScanAux presetName rest (i + 1) true
    else if inP && nonWsFirst l && !strStartsWith l "#" then none
    else if inP then
      match indentKeyMatch l with
      | some (w, key) =>
        if key = presetName then some (i, w) else presetScanAux presetName rest (i + 1) inP
      | none => presetScanAux presetName rest (i + 1) inP
    else presetScanAux presetName rest (i + 1) inP

/-- scan for the top-level `custom:` line (`/^custom:\s*/`, script.js
4269-4277 and 5168-5171). -/
def customScanAux : List String → Nat → Option (Nat × Int)
  | [], _ => none
  | l :: rest, i => if strStartsWith l "custom:" then some (i, 0) else customScanAux rest (i + 1)

/-- the section-start scan shared by `updateTimelineField` (inline, script.js
4264-4301) and `findPresetSection` (script.js 5163-5185): returns the start
line and indentation of the named preset (or of `custom:`). -/
def findPresetStart (lines : List String) (presetName : String) : Option (Nat × Int) :=
  if presetName = "custom" then customScanAux lines 0 else presetScanAux presetName lines 0 false

/-- `findPresetSection(lines, presetName)` (script.js 5163-5196):
`(start, end, indent)` of the preset's span, the end scan being
`findBlockEnd` up to `lines.length`. -/
def findPresetSection (lines : List String) (presetName : String) : Option (Nat × Nat × Int) :=
  match findPresetStart lines presetName with
  | none => none
  | some (start, indent) => some (start, findBlockEnd lines start indent lines.length, indent)

/- ----- scalar insertion ----- -/

/-- JavaScript `lines.splice(pos, 0, …xs)`. -/
def spliceInsert (lines : List String) (pos : Nat) (xs : List String) : List String :=
  lines.take pos ++ xs ++ lines.drop pos

/-- JavaScript `lines.splice(start, count)` (deletion). -/
def spliceDelete (lines : List String) (start count : Nat) : List String :=
  lines.take start ++ lines.drop (start + count)

/-- value formatting of `insertTimelineField` (script.js 4438-4441): strings
are quoted only when they contain a colon. -/
def insertFmtValue (value : JsValue) : String :=
  match value with
  | .bool b => if b then "true" else "false"
  | .str s => if s.data.contains ':' then quoteWrap s else s
  | .num n => toString n

/-- `insertTimelineField(lines, targetStart, targetEnd, targetIndent, field,
value, fieldParts)` (script.js 4435-4462): appends a well-indented
`key: value` line at the end of the target block, or a nested
`parent:`/`child: value` pair when the field path has two segments. -/
def insertTimelineField (lines : List String) (targetStart targetEnd : Nat) (targetIndent : Int)
    (field : String) (value : JsValue) (fieldParts : List String) : List String :=
  let indent : String := ⟨List.replicate (targetIndent + 2).toNat ' '⟩
  let formatted := insertFmtValue value
  if fieldParts.length = 1 then
    spliceInsert lines targetEnd [indent ++ field ++ ": " ++ formatted]
  else
    let parentLine := findChildKey lines targetStart targetEnd targetIndent (fieldParts.headD "")
    if parentLine ≥ 0 then
      let parentIndent := jsSearch (lines.getD parentLine.toNat "")
      let parentEnd := findBlockEnd lines parentLine.toNat parentIndent targetEnd
      let childIndent : String := ⟨List.replicate (parentIndent + 2).toNat ' '⟩
      spliceInsert lines parentEnd [childIndent ++ fieldParts.getD 1 "" ++ ": " ++ formatted]
    else
      spliceInsert lines targetEnd
        [indent ++ fieldParts.headD "" ++ ":", indent ++ "  " ++ fieldParts.getD 1 "" ++ ": " ++ formatted]

/-- `updateTimelineField(presetName, periodKey, field, value)` (script.js
4259-4367) acting on the editor text: locates the preset section, the period
(or `default`) block and the field line, then replaces the value in place or
inserts the missing field; on any failed lookup it returns the text
unchanged (the early `return`s happen before the editor is written). -/
def updateTimelineField (yaml presetName periodKey field : String) (value : JsValue) : String :=
  let lines := jsSplitLines yaml
  match findPresetStart lines presetName with
  | none => yaml
  | some (sectionStart, sectionIndent) =>
    let sectionEnd := findBlockEnd lines sectionStart sectionIndent lines.length
    let fieldParts := jsSplitChar '.' field
    let target? : Option Int :=
      if periodKey = "default" then
        some (findChildKey lines sectionStart sectionEnd sectionIndent "default")
      else
        let periodsLine := findChildKey lines sectionStart sectionEnd sectionIndent "periods"
        if periodsLine < 0 then none
        else
          let periodsIndent := jsSearch (lines.getD periodsLine.toNat "")
          let periodsEnd := findBlockEnd lines periodsLine.toNat periodsIndent sectionEnd
          some (findChildKey lines periodsLine.toNat periodsEnd periodsIndent periodKey)
    match target? with
    | none => yaml
    | some t =>
      if t < 0 then yaml
      else
        let ts := t.toNat
        let targetIndent := jsSearch (lines.getD ts "")
        let targetEnd := findBlockEnd lines ts targetIndent sectionEnd
        let lineIdx : Int :=
          if fieldParts.length = 1 then
            findChildKey lines ts targetEnd targetIndent (fieldParts.headD "")
          else
            let parentLine := findChildKey lines ts targetEnd targetIndent (fieldParts.headD "")
            if parentLine ≥ 0 then
              let parentIndent := jsSearch (lines.getD parentLine.toNat "")
              let parentEnd := findBlockEnd lines parentLine.toNat parentIndent targetEnd
              findChildKey lines parentLine.toNat parentEnd parentIndent (fieldParts.getD 1 "")
            else -1
        let lines' :=
          if lineIdx < 0 then
            insertTimelineField lines ts targetEnd targetIndent field value fieldParts
          else replaceLineValue lines lineIdx.toNat value
        jsJoinLines lines'

/- ----- day-plan list mutations ----- -/

/-- the match of `^(\s*)-\s*(\S+)\s*$` (a block-list item line):
`(leadingWs, item)`. -/
def blockItemMatch (l : String) : Option (List Char × String) :=
  let d := l.data
  let ws := d.takeWhile isWsChar
  match d.drop ws.length with
  | c :: rest =>
    if c = '-' then
      let rest2 := rest.dropWhile isWsChar
      let item := rest2.takeWhile (fun c => !isWsChar c)
      if item ≠ [] ∧ (rest2.drop item.length).dropWhile isWsChar = [] then
        some (ws, (⟨item⟩ : String))
      else none
    else none
  | [] => none

/-- the match of `^(\s*periods:\s*)\[([^\]]*)\]` (an inline bracketed
`periods` list): `(prefix, innerText)`. -/
def inlinePeriodsMatch (l : String) : Option (String × String) :=
  let d := l.data
  let ws := d.takeWhile isWsChar
  let r1 := d.drop ws.length
  if listPrefix "periods:".data r1 then
    let r2 := r1.drop 8
    let sp := r2.takeWhile isWsChar
    let r3 := r2.drop sp.length
    match r3 with
    | c :: r4 =>
      if c = '[' then
        let inner := r4.takeWhile (fun x => !(x = ']'))
        if r4.drop inner.length = [] then none
        else some ((⟨ws ++ "periods:".data ++ sp⟩ : String), (⟨inner⟩ : String))
      else none
    | [] => none
  else none

/-- JavaScript `s.replace(/^["']|["']$/g, '')`: drop one leading and one
trailing quote character. -/
def stripQuotesOnce (s : String) : String :=
  let d1 :=
    match s.data with
    | c :: rest => if c = '"' || c = '\'' then rest else s.data
    | [] => []
  let d2 :=
    match d1.getLast? with
    | some c => if c = '"' || c = '\'' then d1.dropLast else d1
    | none => d1
  (⟨d2⟩ : String)

/-- whether a line is a block-list item referencing `periodKey`
(the splice condition `listMatch && listMatch[2] === periodKey`). -/
def isBlockRefLine (periodKey : String) (l : String) : Bool :=
  match blockItemMatch l with
  | some (_, it) => it = periodKey
  | none => false

/-- the item filter of `removePeriodFromDayPlans` (script.js 5220-5223):
keep an inline item when its unquoted form is nonempty and differs from the
period key. -/
def keepInlineItem (periodKey : String) (s : String) : Bool :=
  stripQuotesOnce s ≠ "" && stripQuotesOnce s ≠ periodKey

/-- whether an inline `periods: […]` line still references `periodKey`
(one of its comma-separated items unquotes to the key). -/
def inlineHasRef (periodKey : String) (l : String) : Bool :=
  match inlinePeriodsMatch l with
  | some (_, inner) =>
    ((jsSplitChar ',' inner).map jsTrim).any (fun s => stripQuotesOnce s = periodKey)
  | none => false

/-- scan loop of `removePeriodFromDayPlans` (script.js 5209-5228), with a
structural iteration bound: removes every block-list item line equal to
`- periodKey` (the splice with `i--` re-examines the same position) and
filters `periodKey` out of every inline `periods: […]` line; the loop runs
to the pre-computed `dpEnd` index even when removals have shifted later
lines into the window.  (When a removal makes the window reach past the end
of the shortened array the JavaScript code would fault on `undefined`; the
model stops there.) -/
def removePeriodLoop (periodKey : String) : List String → Nat → Nat → Nat → List String
  | lines, _, _, 0 => lines
  | lines, i, dpEnd, fuel + 1 =>
    if i < dpEnd then
      match lines.get? i with
      | none => lines
      | some line =>
        if isSkipLine line then removePeriodLoop periodKey lines (i + 1) dpEnd fuel
        else if isBlockRefLine periodKey line then
          removePeriodLoop periodKey (lines.eraseIdx i) i dpEnd fuel
        else
          match inlinePeriodsMatch line with
          | some (pre, inner) =>
            let items := ((jsSplitChar ',' inner).map jsTrim).filter (keepInlineItem periodKey)
            let newLine :=
              if items.length > 0 then pre ++ "[" ++ joinCommaSp items ++ "]" else pre ++ "[]"
            removePeriodLoop periodKey (lines.set i newLine) (i + 1) dpEnd fuel
          | none => removePeriodLoop periodKey lines (i + 1) dpEnd fuel
    else lines

/-- `removePeriodFromDayPlans(lines, sectionInfo, periodKey)` (script.js
5201-5229): removes every reference to `periodKey` from the `day_plans`
block of the located preset section `info = (start, end, indent)`. -/
def removePeriodFromDayPlans (lines : List String) (info : Nat × Nat × Int)
    (periodKey : String) : List String :=
  let dayPlansLine := findChildKey lines info.1 info.2.1 info.2.2 "day_plans"
  if dayPlansLine < 0 then lines
  else
    let dpIndent := jsSearch (lines.getD dayPlansLine.toNat "")
    let sectionEnd := findBlockEnd lines info.1 info.2.2 lines.length
    let dpEnd := findBlockEnd lines dayPlansLine.toNat dpIndent sectionEnd
    removePeriodLoop periodKey lines (dayPlansLine.toNat + 1) dpEnd (lines.length + dpEnd)

/-- the line-sequence core of `deleteTlPeriod(presetName, periodKey)`
(script.js 4803-4850), after the user confirms: deletes the period's block
from the preset's `periods` section and, when the external full-document
reader found day-plan references (`hasRefs`), cascades
`removePeriodFromDayPlans` over the updated section. -/
def deleteTlPeriodCore (yaml presetName periodKey : String) (hasRefs : Bool) : String :=
  let lines := jsSplitLines yaml
  match findPresetSection lines presetName with
  | none => yaml
  | some info =>
    let lines1 :=
      (let periodsLine := findChildKey lines info.1 info.2.1 info.2.2 "periods"
       if periodsLine < 0 then lines
       else
         let periodsIndent := jsSearch (lines.getD periodsLine.toNat "")
         let periodsEnd := findBlockEnd lines periodsLine.toNat periodsIndent info.2.1
         let periodLine := findChildKey lines periodsLine.toNat periodsEnd periodsIndent periodKey
         if periodLine < 0 then lines
         else
           let periodIndent := jsSearch (lines.getD periodLine.toNat "")
           let periodEnd := findBlockEnd lines periodLine.toNat periodIndent periodsEnd
           spliceDelete lines periodLine.toNat (periodEnd - periodLine.toNat))
    let lines2 :=
      if hasRefs then
        match findPresetSection lines1 presetName with
        | none => lines1
        | some info2 => removePeriodFromDayPlans lines1 info2 periodKey
      else lines1
    jsJoinLines lines2

/-- `addPeriodToDayPlan(presetName, planKey, periodKey)` (script.js
5058-5104) acting on the editor text: appends `periodKey` to the named
day-plan's `periods` list, converting an empty inline list to block form,
extending an inline list in place (re-joined with `", "`), or splicing a new
`- item` line at the end of a block list. -/
def addPeriodToDayPlan (yaml presetName planKey periodKey : String) : String :=
  let lines := jsSplitLines yaml
  match findPresetSection lines presetName with
  | none => yaml
  | some info =>
    let dayPlansLine := findChildKey lines info.1 info.2.1 info.2.2 "day_plans"
    if dayPlansLine < 0 then yaml
    else
      let dpIndent := jsSearch (lines.getD dayPlansLine.toNat "")
      let dpEnd := findBlockEnd lines dayPlansLine.toNat dpIndent info.2.1
      let planLine := findChildKey lines dayPlansLine.toNat dpEnd dpIndent planKey
      if planLine < 0 then yaml
      else
        let planIndent := jsSearch (lines.getD planLine.toNat "")
        let planEnd := findBlockEnd lines planLine.toNat planIndent dpEnd
        let periodsLine := findChildKey lines planLine.toNat planEnd planIndent "periods"
        if periodsLine < 0 then yaml
        else
          let pl := periodsLine.toNat
          let periodsContent := jsTrim (lines.getD pl "")
          let lines' :=
            if periodsContent = "periods: []" ∨ periodsContent = "periods:[]" then
              let pIndent : String := ⟨List.replicate (jsSearch (lines.getD pl "")).toNat ' '⟩
              spliceInsert (lines.set pl (pIndent ++ "periods:")) (pl + 1)
                [pIndent ++ "  - " ++ periodKey]
            else
              match inlinePeriodsMatch (lines.getD pl "") with
              | some (pre, inner) =>
                let existing := ((jsSplitChar ',' inner).map jsTrim).filter (fun s => s ≠ "")
                let hasQuotes := existing.length > 0 && strStartsWith (existing.headD "") "\""
                let items := existing ++ [if hasQuotes then quoteWrap periodKey else periodKey]
                lines.set pl (pre ++ "[" ++ joinCommaSp items ++ "]")
              | none =>
                let pIndent : String := ⟨List.replicate ((jsSearch (lines.getD pl "")).toNat + 2) ' '⟩
                let listEnd := findBlockEnd lines pl (jsSearch (lines.getD pl "")) planEnd
                spliceInsert lines listEnd [pIndent ++ "- " ++ periodKey]
          jsJoinLines lines'

/- ──────────── frequency-words engine (script.js 1285-1609) ──────────── -/

/-- group type tags of the frequency parser (the `type` field of the
word-group objects built by `parseFrequencyText`: `'group-name'`, `'alias'`,
`'alias-group'`, `'plain'`; script.js 1369/1401/1417). -/
inductive GroupType
  | groupName
  | alias1
  | aliasGroup
  | plain
deriving DecidableEq, Repr

/-- one `{ keyword, alias }` entry of an alias group (script.js 1392). -/
structure AliasItem where
  keyword : String
  aliasName : String
deriving DecidableEq, Repr

/-- a word group as built by `parseFrequencyText`.  Fields absent on a
given JavaScript object variant are modelled by their defaults (`""`, `[]`,
`false`, `none`). -/
structure WordGroup where
  gtype : GroupType
  name : String := ""
  keywords : List String := []
  items : List AliasItem := []
  startLine : Nat := 0
  precedingComments : List String := []
  isRelatedGroup : Bool := false
  relatedGroupIndex : Option Nat := none
  relatedGroupTotal : Option Nat := none
deriving DecidableEq, Repr

/-- the `currentSection` variable of the parser: `null`, `'global'` or
`'groups'` (script.js 1293). -/
inductive FreqSection
  | noSect
  | globalSect
  | groupsSect
deriving DecidableEq, Repr

/-- the result object of `parseFrequencyText` (script.js 1286-1291). -/
structure FreqResult where
  globalFilter : List String
  wordGroups : List WordGroup
  originalText : String
deriving DecidableEq, Repr

/-- the mutable state of the `parseFrequencyText` line loop (script.js
1292-1297 and the loop counter `i`). -/
structure ParseSt where
  globalFilter : List String
  wordGroups : List WordGroup
  currentSection : FreqSection
  currentGroup : Option WordGroup
  lastLineWasAlias : Bool
  buffer : List WordGroup
  pending : List String
  lineNo : Nat
deriving DecidableEq, Repr

/-- inner text of a `[...]` label: the regex `^\[([^\]]+)\]$` (script.js
1360) requires the text after `[` to consist of non-`]` characters followed
by a single final `]`; this helper returns those characters. -/
def labelInner : List Char → Option (List Char)
  | [] => none
  | [c] => if c = ']' then some [] else none
  | c :: d :: rest =>
    if c = ']' then none else (labelInner (d :: rest)).map (fun xs => c :: xs)

/-- `trimmed.match(/^\[([^\]]+)\]$/)` (script.js 1360): the whole line is
`[name]` with a non-empty `name` containing no `]`. -/
def labelMatch (t : String) : Option String :=
  match t.data with
  | [] => none
  | c :: rest =>
    if c = '[' then
      match labelInner rest with
      | some mid => if mid = [] then none else some ⟨mid⟩
      | none => none
    else none

/-- does the character list begin with the two-character arrow `=>`?  If so,
return what follows it. -/
def isArrowAt : List Char → Option (List Char)
  | a :: b :: tail => if a = '=' then if b = '>' then some tail else none else none
  | _ => none

/-- backtracking semantics of `/^(.+?)\s*=>\s*(.*)$/` (script.js 1380): find
the least non-empty prefix after which skipping whitespace lands on `=>`
(inside a whitespace run no shorter skip can expose `=`, so the greedy
`\s*` is equivalent); return that prefix (capture 1) and the text after the
arrow with its leading whitespace skipped (capture 2 after the greedy
second `\s*`).  `acc` holds the prefix consumed so far. -/
def aliasSplit (acc : List Char) : List Char → Option (List Char × List Char)
  | [] => none
  | c :: rest =>
    match isArrowAt (rest.dropWhile isWsChar) with
    | some tail => some (acc ++ [c], tail.dropWhile isWsChar)
    | none => aliasSplit (acc ++ [c]) rest

/-- `trimmed.match(/^(.+?)\s*=>\s*(.*)$/)` (script.js 1380) as the pair of
its capture groups. -/
def aliasMatch (t : String) : Option (String × String) :=
  match aliasSplit [] t.data with
  | some (g1, g2) => some (⟨g1⟩, ⟨g2⟩)
  | none => none

/-- the marking pass of `flushRelatedGroups` (script.js 1303-1307): give
each group of the buffered run its index and the run's total, and set the
related flag. -/
def setFlags (total : Nat) : Nat → List WordGroup → List WordGroup
  | _, [] => []
  | idx, g :: gs =>
    { g with
      isRelatedGroup := true
      relatedGroupIndex := some idx
      relatedGroupTotal := some total } :: setFlags total (idx + 1) gs

/-- mark a buffered run: runs of two or more groups are flagged as related
(script.js 1301-1308); a single group is left unmarked. -/
def markRun (gs : List WordGroup) : List WordGroup :=
  if gs.length > 1 then setFlags gs.length 0 gs else gs

/-- `flushRelatedGroups` (script.js 1300-1313): append the marked buffer to
the result's word groups and clear the buffer.  (The JavaScript guards the
whole body with `length > 0`; on an empty buffer both versions do
nothing.) -/
def flushBuf (st : ParseSt) : ParseSt :=
  { st with wordGroups := st.wordGroups ++ markRun st.buffer, buffer := [] }

/-- push the current group, if any, onto the related-groups buffer (the
`if (currentGroup) relatedGroupsBuffer.push(currentGroup)` pattern). -/
def pushCur (st : ParseSt) : ParseSt :=
  match st.currentGroup with
  | some g => { st with buffer := st.buffer ++ [g], currentGroup := none }
  | none => st

/-- the alias / plain-keyword handling of the groups-section branch
(script.js 1379-1427), reached when the line is not a usable group label. -/
def freqStepAP (st : ParseSt) (trimmed : String) : ParseSt :=
  match aliasMatch trimmed with
  | some (g1, g2) =>
    let keyword := jsTrim g1
    let aliasV := jsTrim g2
    match st.currentGroup with
    | some g =>
      if st.lastLineWasAlias ∧
          (g.gtype = GroupType.alias1 ∨ g.gtype = GroupType.aliasGroup) then
        let ng : WordGroup := { g with
          gtype := if g.gtype = GroupType.alias1 then GroupType.aliasGroup else g.gtype
          items := g.items ++ [⟨keyword, aliasV⟩] }
        { st with
          currentGroup := some ng
          lastLineWasAlias := true
          lineNo := st.lineNo + 1 }
      else
        let st1 := pushCur st
        let ng : WordGroup := { gtype := GroupType.alias1
                                items := [⟨keyword, aliasV⟩]
                                startLine := st.lineNo
                                precedingComments := st.pending }
        { st1 with
          currentGroup := some ng
          pending := []
          lastLineWasAlias := true
          lineNo := st.lineNo + 1 }
    | none =>
      let ng : WordGroup := { gtype := GroupType.alias1
                              items := [⟨keyword, aliasV⟩]
                              startLine := st.lineNo
                              precedingComments := st.pending }
      { st with
        currentGroup := some ng
        pending := []
        lastLineWasAlias := true
        lineNo := st.lineNo + 1 }
  | none =>
    let needNew : Bool :=
      match st.currentGroup with
      | none => true
      | some g => g.gtype == GroupType.alias1 || g.gtype == GroupType.aliasGroup
    if needNew then
      let st1 := pushCur st
      let ng : WordGroup := { gtype := GroupType.plain
                              keywords := [trimmed]
                              startLine := st.lineNo
                              precedingComments := st.pending }
      { st1 with
        currentGroup := some ng
        pending := []
        lastLineWasAlias := false
        lineNo := st.lineNo + 1 }
    else
      match st.currentGroup with
      | some g =>
        { st with
          currentGroup := some { g with keywords := g.keywords ++ [trimmed] }
          lastLineWasAlias := false
          lineNo := st.lineNo + 1 }
      | none => { st with lastLineWasAlias := false, lineNo := st.lineNo + 1 }

/-- one iteration of the `parseFrequencyText` line loop (script.js
1315-1427). -/
def freqStep (st : ParseSt) (line : String) : ParseSt :=
  let trimmed := jsTrim line
  if strStartsWith trimmed "#" then
    if st.currentSection = FreqSection.groupsSect then
      { st with pending := st.pending ++ [line], lineNo := st.lineNo + 1 }
    else { st with lineNo := st.lineNo + 1 }
  else if trimmed = "" then
    let st1 := flushBuf (pushCur st)
    if st1.currentSection = FreqSection.groupsSect then
      { st1 with
        lastLineWasAlias := false
        pending := st1.pending ++ [""]
        lineNo := st1.lineNo + 1 }
    else { st1 with lastLineWasAlias := false, lineNo := st1.lineNo + 1 }
  else if trimmed = "[GLOBAL_FILTER]" then
    { st with currentSection := FreqSection.globalSect, lineNo := st.lineNo + 1 }
  else if trimmed = "[WORD_GROUPS]" then
    { st with currentSection := FreqSection.groupsSect, lineNo := st.lineNo + 1 }
  else if st.currentSection = FreqSection.globalSect then
    { st with globalFilter := st.globalFilter ++ [trimmed], lineNo := st.lineNo + 1 }
  else if st.currentSection = FreqSection.groupsSect then
    match labelMatch trimmed with
    | some nm =>
      if nm ≠ "GLOBAL_FILTER" ∧ nm ≠ "WORD_GROUPS" then
        let st1 := flushBuf (pushCur st)
        let ng : WordGroup := { gtype := GroupType.groupName
                                name := nm
                                startLine := st.lineNo
                                precedingComments := st.pending }
        { st1 with
          currentGroup := some ng
          pending := []
          lastLineWasAlias := false
          lineNo := st.lineNo + 1 }
      else freqStepAP st trimmed
    | none => freqStepAP st trimmed
  else { st with lineNo := st.lineNo + 1 }

/-- the initial parser state (script.js 1286-1297). -/
def initParseSt : ParseSt :=
  ⟨[], [], FreqSection.noSect, none, false, [], [], 0⟩

/-- `parseFrequencyText(text)` (script.js 1285-1438): fold the line loop
over the split text, then push the last open group and flush. -/
def parseFrequencyText (text : String) : FreqResult :=
  let stF := (jsSplitLines text).foldl freqStep initParseSt
  let stG := flushBuf (pushCur stF)
  ⟨stG.globalFilter, stG.wordGroups, text⟩

/-- the body lines a word group contributes to the rebuilt text (script.js
1505-1524 / 1572-1589): label and keywords for `group-name`, one
`keyword => alias` line per item for alias types, keywords for `plain`. -/
def emitGroupBody (g : WordGroup) : List String :=
  match g.gtype with
  | GroupType.groupName =>
    (if g.name ≠ "" then ["[" ++ g.name ++ "]"] else []) ++ g.keywords
  | GroupType.alias1 => g.items.map (fun it => it.keyword ++ " => " ++ it.aliasName)
  | GroupType.aliasGroup => g.items.map (fun it => it.keyword ++ " => " ++ it.aliasName)
  | GroupType.plain => g.keywords

/-- blank-line decision after a group (script.js 1526-1547): nothing
between two related groups, nothing when the next group carries preceding
comments, a blank line otherwise, and a blank line after the last group. -/
def sepAfter (g : WordGroup) : Option WordGroup → List String
  | none => [""]
  | some g2 =>
    if g.isRelatedGroup ∧ g2.isRelatedGroup then []
    else if g2.precedingComments ≠ [] then []
    else [""]

/-- the `[WORD_GROUPS]` body of the rebuild (script.js 1498-1548): each
group's preceding comments, its body lines, then the separator decision
against the next group. -/
def emitGroups : List WordGroup → List String
  | [] => []
  | g :: gs => g.precedingComments ++ emitGroupBody g ++ sepAfter g gs.head? ++ emitGroups gs

/-- is the line kept by the skeleton phases of the rebuild: a comment or a
blank line (script.js 1467/1487). -/
def isCommentOrBlank (l : String) : Bool :=
  strStartsWith (jsTrim l) "#" || jsTrim l = ""

/-- concatenate lines with a newline after each (the `text += line + '\n'`
pattern of the template branch, script.js 1553-1604). -/
def concatNl : List String → String
  | [] => ""
  | l :: ls => l ++ "\n" ++ concatNl ls

/-- the fixed banner of the template branch (script.js 1553-1555). -/
def tmplBanner : String :=
  "# " ++ ⟨List.replicate 63 '═'⟩ ++ "\n" ++
  "#                    TrendRadar 频率词配置文件\n" ++
  "# " ++ ⟨List.replicate 63 '═'⟩ ++ "\n\n"

/-- `buildFrequencyText(data)` (script.js 1440-1609).  With an original
text, the skeleton branch keeps the header lines before `[GLOBAL_FILTER]`,
re-emits that marker, keeps the comments and blanks that followed it,
inserts the global filter entries, keeps the remaining comments and blanks
up to `[WORD_GROUPS]`, re-emits that marker and emits the word groups.
Without one, the fixed template is used. -/
def buildFrequencyText (data : FreqResult) : String :=
  if data.originalText ≠ "" then
    let lines := jsSplitLines data.originalText
    let part1 := lines.takeWhile (fun l => decide (jsTrim l ≠ "[GLOBAL_FILTER]"))
    let rest2 := (lines.dropWhile (fun l => decide (jsTrim l ≠ "[GLOBAL_FILTER]"))).drop 1
    let part2 := rest2.takeWhile isCommentOrBlank
    let rest3 := rest2.dropWhile isCommentOrBlank
    let part3 := (rest3.takeWhile (fun l => decide (jsTrim l ≠ "[WORD_GROUPS]"))).filter
      isCommentOrBlank
    jsJoinLines (part1 ++ ["[GLOBAL_FILTER]"] ++ part2 ++ data.globalFilter ++
      part3 ++ ["[WORD_GROUPS]"] ++ emitGroups data.wordGroups)
  else
    tmplBanner ++ "[GLOBAL_FILTER]\n" ++ concatNl data.globalFilter ++
      "\n\n[WORD_GROUPS]\n\n" ++ concatNl (emitGroups data.wordGroups)

/-- the structural content of a word group compared by the round-trip law:
type, label name, keywords, alias items, and the related flag. -/
def groupKey (g : WordGroup) : GroupType × String × List String × List AliasItem × Bool :=
  (g.gtype, g.name, g.keywords, g.items, g.isRelatedGroup)

/-- a word group that has not (or not yet) been marked by
`flushRelatedGroups`: flag unset, no index, no total. -/
def FreshG (g : WordGroup) : Prop :=
  g.isRelatedGroup = false ∧ g.relatedGroupIndex = none ∧ g.relatedGroupTotal = none

/-- a decomposition of an emitted word-group list into the flush-time runs:
every run is non-empty and consists of unmarked groups. -/
def RunsOK (runs : List (List WordGroup)) : Prop :=
  ∀ r ∈ runs, r ≠ [] ∧ ∀ g ∈ r, FreshG g

/-- parser-state invariant for the related-group marking: the emitted
groups decompose into marked runs, and the buffer and the open group are
still unmarked. -/
def StFresh (st : ParseSt) : Prop :=
  (∃ runs : List (List WordGroup), RunsOK runs ∧
    st.wordGroups = (runs.map markRun).join) ∧
  (∀ g ∈ st.buffer, FreshG g) ∧
  (∀ g : WordGroup, st.currentGroup = some g → FreshG g)

/-- the singleton-or-empty list view of the open group. -/
def curList : Option WordGroup → List WordGroup
  | some g => [g]
  | none => []

/-- a line that may sit in `pendingComments`: a comment line or the empty
line recorded for a blank. -/
def CommentOK (c : String) : Prop :=
  strStartsWith (jsTrim c) "#" = true ∨ c = ""

/-- shape of an entry of `globalFilter`: a trimmed, non-empty, non-comment,
non-marker token (what the global branch of the parser stores). -/
def GfOK (w : String) : Prop :=
  jsTrim w = w ∧ w ≠ "" ∧ strStartsWith w "#" = false ∧
  w ≠ "[GLOBAL_FILTER]" ∧ w ≠ "[WORD_GROUPS]"

/-- shape of a stored keyword: a trimmed, non-empty, non-comment,
non-marker line on which both the label regex and the alias regex fail
(that is exactly the branch that stores a plain keyword). -/
def KWOK (w : String) : Prop :=
  jsTrim w = w ∧ w ≠ "" ∧ strStartsWith w "#" = false ∧
  w ≠ "[GLOBAL_FILTER]" ∧ w ≠ "[WORD_GROUPS]" ∧
  labelMatch w = none ∧ aliasMatch w = none

/-- shape of a stored alias item: both parts are trimmed, and the line the
builder will emit for it (`keyword => alias`) re-parses — after the
parser's own trim — as an alias line recovering exactly this item. -/
def AIOK (it : AliasItem) : Prop :=
  jsTrim it.keyword = it.keyword ∧ jsTrim it.aliasName = it.aliasName ∧
  jsTrim (it.keyword ++ " => " ++ it.aliasName) ≠ "" ∧
  strStartsWith (jsTrim (it.keyword ++ " => " ++ it.aliasName)) "#" = false ∧
  jsTrim (it.keyword ++ " => " ++ it.aliasName) ≠ "[GLOBAL_FILTER]" ∧
  jsTrim (it.keyword ++ " => " ++ it.aliasName) ≠ "[WORD_GROUPS]" ∧
  labelMatch (jsTrim (it.keyword ++ " => " ++ it.aliasName)) = none ∧
  aliasMatch (jsTrim (it.keyword ++ " => " ++ it.aliasName)) =
    some (it.keyword, it.aliasName)

/-- shape of a stored group-label name: non-empty, bracket-free (so the
label regex recovers it), and not one of the two section-marker names. -/
def NameOK (nm : String) : Prop :=
  nm ≠ "" ∧ ']' ∉ nm.data ∧ nm ≠ "GLOBAL_FILTER" ∧ nm ≠ "WORD_GROUPS"

/-- well-formedness of one parsed word group, by type. -/
def GroupWF (g : WordGroup) : Prop :=
  (∀ c ∈ g.precedingComments, CommentOK c) ∧
  ((g.gtype = GroupType.groupName ∧ NameOK g.name ∧
      (∀ w ∈ g.keywords, KWOK w) ∧ g.items = []) ∨
   (g.gtype = GroupType.plain ∧ g.keywords ≠ [] ∧
      (∀ w ∈ g.keywords, KWOK w) ∧ g.items = [] ∧ g.name = "") ∨
   (g.gtype = GroupType.alias1 ∧ g.items.length = 1 ∧
      (∀ it ∈ g.items, AIOK it) ∧ g.keywords = [] ∧ g.name = "") ∨
   (g.gtype = GroupType.aliasGroup ∧ 2 ≤ g.items.length ∧
      (∀ it ∈ g.items, AIOK it) ∧ g.keywords = [] ∧ g.name = ""))

/-- the group is of one of the two alias types. -/
def aliasish (g : WordGroup) : Prop :=
  g.gtype = GroupType.alias1 ∨ g.gtype = GroupType.aliasGroup

/-- which group types can directly follow which inside one buffered run
(without a blank line): an alias group can open after a plain or label
group, a plain group can open after an alias group; all other adjacencies
merge into the previous group instead. -/
def ChainPair (a b : WordGroup) : Prop :=
  (aliasish b ∧ (a.gtype = GroupType.plain ∨ a.gtype = GroupType.groupName)) ∨
  (b.gtype = GroupType.plain ∧ aliasish a)

/-- a group sitting in the middle of a run: not a label group (labels
always flush) and its preceding comments are true comment lines (a blank
would have flushed). -/
def MidOK (b : WordGroup) : Prop :=
  b.gtype ≠ GroupType.groupName ∧
  ∀ c ∈ b.precedingComments, strStartsWith (jsTrim c) "#" = true

/-- the run continues from `a` through the remaining groups. -/
def ChainedFrom (a : WordGroup) : List WordGroup → Prop
  | [] => True
  | b :: rest => ChainPair a b ∧ MidOK b ∧ ChainedFrom b rest

/-- a complete buffered run: non-empty, all groups well-formed and unmarked,
chained. -/
def RunWF : List WordGroup → Prop
  | [] => False
  | g :: rest => (∀ x ∈ g :: rest, GroupWF x ∧ FreshG x) ∧ ChainedFrom g rest

/-- what guarantees a flush before this group when the built text is parsed
again: it is a label group (the label line flushes) or its preceding
comments contain the recorded blank line. -/
def BoundHead (g : WordGroup) : Prop :=
  g.gtype = GroupType.groupName ∨ "" ∈ g.precedingComments

/-- the first group of the run satisfies `BoundHead`. -/
def headBound : List WordGroup → Prop
  | [] => False
  | g :: _ => BoundHead g

/-- the run decomposition of an emitted group list is well-formed: every
run is well-formed and every run after the first opens with a flush
guarantee. -/
def RunsGood (runs : List (List WordGroup)) : Prop :=
  (∀ r ∈ runs, RunWF r) ∧ (∀ r ∈ runs.drop 1, headBound r)

/-- chain/boundary facts for the partial run sitting in the buffer and the
open group (`runsNE` records whether a completed run precedes it). -/
def PartGood (runsNE : Prop) : List WordGroup → Prop
  | [] => True
  | h :: t => ChainedFrom h t ∧ (runsNE → BoundHead h)

/-- the groups-section parser invariant, relative to the fixed global
filter `G0`. -/
def GInv (G0 : List String) (st : ParseSt) : Prop :=
  st.currentSection = FreqSection.groupsSect ∧
  st.globalFilter = G0 ∧
  (∀ c ∈ st.pending, CommentOK c) ∧
  ("" ∈ st.pending → st.currentGroup = none) ∧
  (st.currentGroup = none → st.buffer = []) ∧
  (∀ g, st.currentGroup = some g → aliasish g → st.lastLineWasAlias = true) ∧
  ∃ runs : List (List WordGroup), RunsGood runs ∧
    st.wordGroups = (runs.map markRun).join ∧
    (st.currentGroup = none ∧ runs ≠ [] → "" ∈ st.pending) ∧
    (∀ x ∈ st.buffer ++ curList st.currentGroup, GroupWF x ∧ FreshG x) ∧
    PartGood (runs ≠ []) (st.buffer ++ curList st.currentGroup)

/-- structural similarity of two groups: equal on everything the round-trip
law compares except the marking flags (which the flush pass adds). -/
def SimG (a b : WordGroup) : Prop :=
  a.gtype = b.gtype ∧ a.name = b.name ∧ a.keywords = b.keywords ∧ a.items = b.items

/-- a valid rule-file text: its line sequence has a (first)
`[GLOBAL_FILTER]` marker line, later a `[WORD_GROUPS]` marker line, and no
other line anywhere whose trim equals either marker. -/
def ValidRuleText (T : String) : Prop :=
  ∃ pre gfL gbody wgL wbody,
    jsSplitLines T = pre ++ [gfL] ++ gbody ++ [wgL] ++ wbody ∧
    jsTrim gfL = "[GLOBAL_FILTER]" ∧ jsTrim wgL = "[WORD_GROUPS]" ∧
    (∀ l ∈ pre ++ gbody ++ wbody,
      jsTrim l ≠ "[GLOBAL_FILTER]" ∧ jsTrim l ≠ "[WORD_GROUPS]")

/-- no arrow point strictly inside the keyword: dropping any non-zero
prefix and skipping whitespace never lands on `=>`. -/
def innerArrowFree (kwD : List Char) : Prop :=
  ∀ j : Nat, j + 1 < kwD.length →
    ∀ r : List Char, (kwD.drop (j + 1)).dropWhile isWsChar ≠ '=' :: '>' :: r

/-- two groups interchangeable for chain and boundary bookkeeping: same
type classes and the same preceding comments. -/
def SameKind (g ng : WordGroup) : Prop :=
  (aliasish g ↔ aliasish ng) ∧
  (g.gtype = GroupType.plain ↔ ng.gtype = GroupType.plain) ∧
  (g.gtype = GroupType.groupName ↔ ng.gtype = GroupType.groupName) ∧
  g.precedingComments = ng.precedingComments

/-- the content of a word group compared before marking: type, name,
keywords and alias items. -/
def projG (g : WordGroup) : GroupType × String × List String × List AliasItem :=
  (g.gtype, g.name, g.keywords, g.items)

/-- lines of one run as emitted by `emitGroups`, with the lookahead group of
the following run. -/
def emitRunLines : List WordGroup → Option WordGroup → List String
  | [], _ => []
  | [g], next => g.precedingComments ++ emitGroupBody g ++ sepAfter g next
  | g :: g2 :: t, next =>
      g.precedingComments ++ emitGroupBody g ++ sepAfter g (some g2) ++
        emitRunLines (g2 :: t) next

/-- the flagged copy of a group produced by the marking pass. -/
def flagG (g : WordGroup) (i t : Nat) : WordGroup :=
  { g with isRelatedGroup := true
           relatedGroupIndex := some i
           relatedGroupTotal := some t }

/-- the string contains no newline character. -/
def NoNl (s : String) : Prop := '\n' ∉ s.data

/-- every string stored in the word group is newline-free. -/
def NlG (g : WordGroup) : Prop :=
  NoNl g.name ∧ (∀ w ∈ g.keywords, NoNl w) ∧
  (∀ it ∈ g.items, NoNl it.keyword ∧ NoNl it.aliasName) ∧
  (∀ c ∈ g.precedingComments, NoNl c)

/-- every string stored in the parser state is newline-free. -/
def NlSt (st : ParseSt) : Prop :=
  (∀ w ∈ st.globalFilter, NoNl w) ∧ (∀ g ∈ st.wordGroups, NlG g) ∧
  (∀ g ∈ st.buffer, NlG g) ∧ (∀ g : WordGroup, st.currentGroup = some g → NlG g) ∧
  (∀ c ∈ st.pending, NoNl c)

/- ----- theorems ----- -/

theorem dropWhile_head_not {α : Type} (p : α → Bool) :
    ∀ (l : List α) (c : α) (t : List α), l.dropWhile p = c :: t → p c = false := by
  intro l
  induction l with
  | nil => intro c t h; cases h
  | cons a as IH =>
    intro c t h
    rw [List.dropWhile_cons] at h
    by_cases ha : p a = true
    · rw [if_pos ha] at h; exact IH c t h
    · rw [if_neg ha] at h
      cases h
      exact Bool.not_eq_true _ |>.mp ha

theorem drop_length_takeWhile (p : Char → Bool) (l : List Char) :
    l.drop (l.takeWhile p).length = l.dropWhile p := by
  induction l with
  | nil => rfl
  | cons a as IH =>
    rw [List.takeWhile_cons, List.dropWhile_cons]
    by_cases ha : p a = true
    · rw [if_pos ha, if_pos ha, List.length_cons, List.drop_succ_cons, IH]
    · rw [if_neg ha, if_neg ha, List.length_nil, List.drop_zero]

theorem trimList_prefix_dropWhile (d : List Char) :
    trimList d <+: d.dropWhile isWsChar := by
  unfold trimList
  have h : ((d.dropWhile isWsChar).reverse.dropWhile isWsChar) <:+
      (d.dropWhile isWsChar).reverse :=
    List.dropWhile_suffix isWsChar
  have h2 := List.reverse_prefix.mpr h
  rwa [List.reverse_reverse] at h2

theorem prefix_cons_shape {α : Type} {c : α} {t l₂ : List α} (h : c :: t <+: l₂) :
    ∃ t', l₂ = c :: t' := by
  rcases h with ⟨r, hr⟩
  exact ⟨t ++ r, by rw [← hr]; simp⟩

/-- helper: if `dropWhile p l = []` then every element of `l` satisfies `p`. -/
theorem all_of_dropWhile_nil {α : Type} (p : α → Bool) :
    ∀ (l : List α), l.dropWhile p = [] → ∀ x ∈ l, p x = true := by
  intro l
  induction l with
  | nil => intro _ x hx; cases hx
  | cons a as IH =>
    intro h x hx
    rw [List.dropWhile_cons] at h
    by_cases ha : p a = true
    · rw [if_pos ha] at h
      rcases List.mem_cons.mp hx with rfl | hx2
      · exact ha
      · exact IH h x hx2
    · rw [if_neg ha] at h; cases h

theorem trimList_nil_dropWhile (d : List Char) (h : trimList d = []) :
    d.dropWhile isWsChar = [] := by
  cases hu : d.dropWhile isWsChar with
  | nil => rfl
  | cons c t =>
    exfalso
    have hc : isWsChar c = false := dropWhile_head_not _ d c t hu
    unfold trimList at h
    rw [hu] at h
    have h2 : (c :: t).reverse.dropWhile isWsChar = [] := by
      have := List.reverse_eq_nil_iff.mp h
      exact this
    have hall := all_of_dropWhile_nil isWsChar _ h2 c (by simp)
    rw [hc] at hall
    cases hall

theorem replaceLineValue_cases (lines : List String) (idx : Nat) (value : JsValue) :
    replaceLineValue lines idx value = lines ∨
      ∃ nl, replaceLineValue lines idx value = lines.set idx nl := by
  unfold replaceLineValue
  split
  · exact .inl rfl
  · split
    · exact .inl rfl
    · exact .inr ⟨_, rfl⟩

theorem replaceLineValue_frame (lines : List String) (idx : Nat) (value : JsValue) :
    (replaceLineValue lines idx value).length = lines.length ∧
      ∀ j : Nat, j ≠ idx → (replaceLineValue lines idx value)[j]? = lines[j]? := by
  rcases replaceLineValue_cases lines idx value with h | ⟨nl, h⟩
  · rw [h]; exact ⟨rfl, fun _ _ => rfl⟩
  · rw [h]
    exact ⟨List.length_set .., fun j hj => List.getElem?_set_ne (fun h => hj h.symm)⟩

example : replaceLineValue ["key: 5  # keep me"] 0 (.num 7) = ["key: 7  # keep me"] := by decide

example : replaceLineValue ["name: \"Alice\""] 0 (.str "Bob") = ["name: \"Bob\""] := by decide

example : replaceLineValue ["name: Alice"] 0 (.str "A:B") = ["name: \"A:B\""] := by decide

example : replaceLineValue ["name: Alice"] 0 (.str "") = ["name: "] := by decide

theorem findChildKeyAux_ret (lines : List String) (e : Nat) (p : Int) (key : String) :
    ∀ fuel i, ∀ n : Nat, findChildKeyAux lines e p key i fuel = (n : Int) →
      i ≤ n ∧ n < e ∧ isSkipLine (lines.getD n "") = false ∧
        jsSearch (lines.getD n "") = p + 2 ∧ keyTokOf (lines.getD n "") = some key := by
  intro fuel
  induction fuel with
  | zero =>
    intro i n hn
    rw [findChildKeyAux] at hn
    exact absurd hn (by omega)
  | succ fuel IH =>
    intro i n hn
    rw [findChildKeyAux] at hn
    by_cases hie : i < e
    · rw [if_pos hie] at hn
      by_cases hskip : isSkipLine (lines.getD i "") = true
      · rw [if_pos hskip] at hn
        have := IH (i + 1) n hn
        exact ⟨by omega, this.2⟩
      · rw [if_neg hskip] at hn
        by_cases hstop : jsSearch (lines.getD i "") ≤ p
        · rw [if_pos hstop] at hn
          exact absurd hn (by omega)
        · rw [if_neg hstop] at hn
          cases hk : keyTokOf (lines.getD i "") with
          | some k =>
            rw [hk] at hn
            by_cases hcond : k = key ∧ jsSearch (lines.getD i "") = p + 2
            · simp only [if_pos hcond] at hn
              have hin : i = n := by omega
              subst hin
              refine ⟨le_refl _, hie, by simpa using hskip, hcond.2, ?_⟩
              rw [hk, hcond.1]
            · simp only [if_neg hcond] at hn
              have := IH (i + 1) n hn
              exact ⟨by omega, this.2⟩
          | none =>
            rw [hk] at hn
            have := IH (i + 1) n hn
            exact ⟨by omega, this.2⟩
    · rw [if_neg hie] at hn
      exact absurd hn (by omega)

theorem findChildKeyAux_stop (lines : List String) (e : Nat) (p : Int) (key : String)
    (j : Nat) (hje : j < e) (hjskip : isSkipLine (lines.getD j "") = false)
    (hjstop : jsSearch (lines.getD j "") ≤ p) :
    ∀ fuel i, i ≤ j → e ≤ i + fuel →
      (∀ m : Nat, i ≤ m → m < j →
        isStopLine p (lines.getD m "") = false ∧ isMatchLine p key (lines.getD m "") = false) →
      findChildKeyAux lines e p key i fuel = -1 := by
  intro fuel
  induction fuel with
  | zero =>
    intro i hij hfuel hbefore
    omega
  | succ fuel IH =>
    intro i hij hfuel hbefore
    have hie : i < e := by omega
    rw [findChildKeyAux, if_pos hie]
    by_cases hskip : isSkipLine (lines.getD i "") = true
    · rw [if_pos hskip]
      have hinej : i ≠ j := fun h => by rw [h, hjskip] at hskip; cases hskip
      exact IH (i + 1) (by omega) (by omega) (fun m hm1 hm2 => hbefore m (by omega) hm2)
    · rw [if_neg hskip]
      by_cases hstop : jsSearch (lines.getD i "") ≤ p
      · rw [if_pos hstop]
      · rw [if_neg hstop]
        have hinej : i ≠ j := fun h => by rw [h] at hstop; exact hstop hjstop
        cases hk : keyTokOf (lines.getD i "") with
        | some k =>
          by_cases hcond : k = key ∧ jsSearch (lines.getD i "") = p + 2
          · have hmatch : isMatchLine p key (lines.getD i "") = true := by
              simp only [isMatchLine, Bool.and_eq_true, decide_eq_true_eq]
              refine ⟨⟨by simpa using hskip, hcond.2⟩, ?_⟩
              rw [hk, hcond.1]
            have := (hbefore i (le_refl _) (by omega)).2
            rw [this] at hmatch
            cases hmatch
          · simp only [if_neg hcond]
            exact IH (i + 1) (by omega) (by omega) (fun m hm1 hm2 => hbefore m (by omega) hm2)
        | none =>
          exact IH (i + 1) (by omega) (by omega) (fun m hm1 hm2 => hbefore m (by omega) hm2)

theorem findChildKeyAux_find (lines : List String) (e : Nat) (p : Int) (key : String)
    (j : Nat) (hje : j < e) (hjmatch : isMatchLine p key (lines.getD j "") = true) :
    ∀ fuel i, i ≤ j → e ≤ i + fuel →
      (∀ m : Nat, i ≤ m → m < j →
        isStopLine p (lines.getD m "") = false ∧ isMatchLine p key (lines.getD m "") = false) →
      findChildKeyAux lines e p key i fuel = (j : Int) := by
  have hj3 : isSkipLine (lines.getD j "") = false ∧
      jsSearch (lines.getD j "") = p + 2 ∧ keyTokOf (lines.getD j "") = some key := by
    simpa only [isMatchLine, Bool.and_eq_true, decide_eq_true_eq, Bool.not_eq_true',
      and_assoc] using hjmatch
  intro fuel
  induction fuel with
  | zero =>
    intro i hij hfuel hbefore
    omega
  | succ fuel IH =>
    intro i hij hfuel hbefore
    have hie : i < e := by omega
    rw [findChildKeyAux, if_pos hie]
    by_cases hskip : isSkipLine (lines.getD i "") = true
    · rw [if_pos hskip]
      have hinej : i ≠ j := fun h => by rw [h, hj3.1] at hskip; cases hskip
      exact IH (i + 1) (by omega) (by omega) (fun m hm1 hm2 => hbefore m (by omega) hm2)
    · rw [if_neg hskip]
      by_cases hstop : jsSearch (lines.getD i "") ≤ p
      · have hinej : i ≠ j := fun h => by rw [h, hj3.2.1] at hstop; omega
        have hstopx : isStopLine p (lines.getD i "") = true := by
          simp only [isStopLine, Bool.and_eq_true, decide_eq_true_eq, Bool.not_eq_true']
          exact ⟨by simpa using hskip, hstop⟩
        have := (hbefore i (le_refl _) (by omega)).1
        rw [this] at hstopx
        cases hstopx
      · rw [if_neg hstop]
        rcases Nat.eq_or_lt_of_le hij with heq | hlt
        · subst heq
          simp only [hj3.2.2, eq_self_iff_true, true_and, if_pos hj3.2.1]
        · cases hk : keyTokOf (lines.getD i "") with
          | some k =>
            by_cases hcond : k = key ∧ jsSearch (lines.getD i "") = p + 2
            · have hmatch : isMatchLine p key (lines.getD i "") = true := by
                simp only [isMatchLine, Bool.and_eq_true, decide_eq_true_eq]
                refine ⟨⟨by simpa using hskip, hcond.2⟩, ?_⟩
                rw [hk, hcond.1]
              have := (hbefore i (le_refl _) hlt).2
              rw [this] at hmatch
              cases hmatch
            · simp only [if_neg hcond]
              exact IH (i + 1) (by omega) (by omega) (fun m hm1 hm2 => hbefore m (by omega) hm2)
          | none =>
            exact IH (i + 1) (by omega) (by omega) (fun m hm1 hm2 => hbefore m (by omega) hm2)

/-- Claim C4: `findChildKey` scans only the lines strictly between `start`
and `e`, skipping blank and comment lines; it returns the sentinel `-1` as
soon as it meets a non-blank non-comment line whose indentation is at most
`p`; and it returns an index only for the first line whose indentation is
exactly `p + 2` and whose key token equals `key`. -/
theorem claim_C4_findChildKey_contract (lines : List String) (start e : Nat) (p : Int)
    (key : String) :
    (∀ n : Nat, findChildKey lines start e p key = (n : Int) →
       start < n ∧ n < e ∧ isSkipLine (lines.getD n "") = false ∧
         jsSearch (lines.getD n "") = p + 2 ∧ keyTokOf (lines.getD n "") = some key) ∧
    (∀ j : Nat, start < j → j < e → isSkipLine (lines.getD j "") = false →
       jsSearch (lines.getD j "") ≤ p →
       (∀ m : Nat, start < m → m < j →
         isStopLine p (lines.getD m "") = false ∧ isMatchLine p key (lines.getD m "") = false) →
       findChildKey lines start e p key = -1) ∧
    (∀ j : Nat, start < j → j < e → isMatchLine p key (lines.getD j "") = true →
       (∀ m : Nat, start < m → m < j →
         isStopLine p (lines.getD m "") = false ∧ isMatchLine p key (lines.getD m "") = false) →
       findChildKey lines start e p key = (j : Int)) := by
  refine ⟨?_, ?_, ?_⟩
  · intro n hn
    have := findChildKeyAux_ret lines e p key (e - start) (start + 1) n hn
    exact ⟨by omega, this.2⟩
  · intro j hj1 hj2 hskip hstop hbefore
    exact findChildKeyAux_stop lines e p key j hj2 hskip hstop (e - start) (start + 1)
      (by omega) (by omega) (fun m hm1 hm2 => hbefore m (by omega) hm2)
  · intro j hj1 hj2 hmatch hbefore
    exact findChildKeyAux_find lines e p key j hj2 hmatch (e - start) (start + 1)
      (by omega) (by omega) (fun m hm1 hm2 => hbefore m (by omega) hm2)

/-- concrete instantiation of the `findChildKey` contract: the child is
found at indentation `p + 2`, and a line that leaves the parent's scope
stops the scan even though a matching line follows it. -/
theorem claim_C4_witness :
    findChildKey ["a:", "  b: 1", "x: 0"] 0 3 0 "b" = 1 ∧
      findChildKey ["a:", "x: 0", "  b: 1"] 0 3 0 "b" = -1 := by
  constructor
  · exact (claim_C4_findChildKey_contract ["a:", "  b: 1", "x: 0"] 0 3 0 "b").2.2 1
      (by decide) (by decide) (by decide) (fun m hm1 hm2 => absurd hm2 (by omega))
  · exact (claim_C4_findChildKey_contract ["a:", "x: 0", "  b: 1"] 0 3 0 "b").2.1 1
      (by decide) (by decide) (by decide) (by decide) (fun m hm1 hm2 => absurd hm2 (by omega))

/-- Claim C2, counterexample to the claimed quoting rule: the code quotes a
new string value only when the previous value was quoted or the new value
contains a colon, a hash or a space; a new value that is empty, or contains
a double quote, is emitted bare, contradicting the claimed "quote, space, or
is empty" clauses. -/
theorem claim_C2_counterexample :
    replaceLineValue ["name: Alice"] 0 (.str "") = ["name: "] ∧
      replaceLineValue ["name: Alice"] 0 (.str "a\"b") = ["name: a\"b"] ∧
      ("name: " : String) ≠ "name: \"\"" ∧
      ("name: a\"b" : String) ≠ "name: \"a\"b\"" := by
  exact ⟨by decide, by decide, by decide, by decide⟩

/-- Claim C2 (amended): `replaceLineValue` renders booleans bare, and wraps
a string value in double quotes if and only if the previous value was quoted
or the new value contains a colon, hash or space (`needsQuote`); in
particular quoting is preserved for `name: "Alice" ← Bob` and added for
`name: Alice ← A:B`. -/
theorem claim_C2_quoting_rule :
    (∀ (lines : List String) (idx : Nat) (orig pre rest s : String),
       lines.get? idx = some orig → keyColonLineSplit orig = some (pre, rest) →
       replaceLineValue lines idx (.str s) =
         lines.set idx
           (pre ++ (if needsQuote (jsTrim (commentSplit rest).1) s then quoteWrap s else s) ++
             (commentSplit rest).2)) ∧
    (∀ (lines : List String) (idx : Nat) (orig pre rest : String) (b : Bool),
       lines.get? idx = some orig → keyColonLineSplit orig = some (pre, rest) →
       replaceLineValue lines idx (.bool b) =
         lines.set idx (pre ++ (if b then "true" else "false") ++ (commentSplit rest).2)) ∧
    replaceLineValue ["name: \"Alice\""] 0 (.str "Bob") = ["name: \"Bob\""] ∧
    replaceLineValue ["name: Alice"] 0 (.str "A:B") = ["name: \"A:B\""] := by
  refine ⟨?_, ?_, by decide, by decide⟩
  · intro lines idx orig pre rest s h1 h2
    unfold replaceLineValue
    rw [h1]
    simp only [h2]
  · intro lines idx orig pre rest b h1 h2
    unfold replaceLineValue
    rw [h1]
    simp only [h2]

/-- concrete instantiation of the amended quoting rule. -/
theorem claim_C2_witness :
    replaceLineValue ["port: 80"] 0 (.str "localhost:8080") =
      ["port: 80"].set 0
        ("port: " ++
          (if needsQuote (jsTrim (commentSplit "80").1) "localhost:8080" then
            quoteWrap "localhost:8080" else "localhost:8080") ++ (commentSplit "80").2) :=
  claim_C2_quoting_rule.1 ["port: 80"] 0 "port: 80" "port: " "80" "localhost:8080"
    (by decide) (by decide)

/-- Claim C10: a call on a line that does not have the `key:` shape (blank
line, comment line, list item) returns without mutating anything; the three
sample shapes indeed fail the `key:` match. -/
theorem claim_C10_non_matching_noop :
    (∀ (lines : List String) (idx : Nat) (orig : String) (value : JsValue),
       lines.get? idx = some orig → keyColonLineSplit orig = none →
       replaceLineValue lines idx value = lines) ∧
    keyColonLineSplit "" = none ∧
    keyColonLineSplit "   # note" = none ∧
    keyColonLineSplit "  - item" = none := by
  refine ⟨?_, by decide, by decide, by decide⟩
  intro lines idx orig value h1 h2
  unfold replaceLineValue
  rw [h1]
  simp only [h2]

/-- concrete instantiation of the non-matching no-op. -/
theorem claim_C10_witness : replaceLineValue ["# note", "x"] 0 (.num 1) = ["# note", "x"] :=
  claim_C10_non_matching_noop.1 ["# note", "x"] 0 "# note" (.num 1) (by decide) (by decide)

/-- Claim C8: `replaceLineValue` mutates at most the targeted index — the
length is unchanged and every other line is byte-identical — and on
`key: 5  # keep me` the trailing comment and its spacing are preserved. -/
theorem claim_C8_single_line_locality :
    (∀ (lines : List String) (idx : Nat) (value : JsValue) (orig : String),
       lines.get? idx = some orig → (keyColonLineSplit orig).isSome = true →
       (replaceLineValue lines idx value).length = lines.length ∧
         ∀ j : Nat, j ≠ idx → (replaceLineValue lines idx value)[j]? = lines[j]?) ∧
    replaceLineValue ["key: 5  # keep me"] 0 (.num 7) = ["key: 7  # keep me"] := by
  exact ⟨fun lines idx value orig _ _ => replaceLineValue_frame lines idx value, by decide⟩

/-- concrete instantiation of single-line locality. -/
theorem claim_C8_witness :
    (replaceLineValue ["a: 1", "b: 2"] 0 (.num 3)).length = 2 ∧
      (replaceLineValue ["a: 1", "b: 2"] 0 (.num 3))[1]? = some "b: 2" := by
  have h := claim_C8_single_line_locality.1 ["a: 1", "b: 2"] 0 (.num 3) "a: 1"
    (by decide) (by decide)
  exact ⟨h.1, h.2 1 (by decide)⟩

/-- Claim C3, counterexample: when the preset and period exist but the
targeted field path does not, `updateTimelineField` does not leave the
document unchanged — it inserts the missing field line. -/
theorem claim_C3_counterexample :
    updateTimelineField "presets:\n  work:\n    periods:\n      morning:\n        name: A\n    default: x"
        "work" "morning" "foo" (.str "x") =
      "presets:\n  work:\n    periods:\n      morning:\n        name: A\n        foo: x\n    default: x" ∧
    updateTimelineField "presets:\n  work:\n    periods:\n      morning:\n        name: A\n    default: x"
        "work" "morning" "foo" (.str "x") ≠
      "presets:\n  work:\n    periods:\n      morning:\n        name: A\n    default: x" := by
  exact ⟨by decide, by decide⟩

/-- Claim C3 (amended): `updateTimelineField` is a byte-identical no-op when
the named preset section is absent, when the `periods` block or the named
period is absent, or when the `default` block is absent; when the targeted
field path is merely missing inside an existing period the function inserts
it instead (see the counterexample). -/
theorem claim_C3_missing_target_noop :
    (∀ (yaml presetName periodKey field : String) (v : JsValue),
       findPresetStart (jsSplitLines yaml) presetName = none →
       updateTimelineField yaml presetName periodKey field v = yaml) ∧
    (∀ (yaml presetName periodKey field : String) (v : JsValue) (s : Nat) (ind : Int),
       findPresetStart (jsSplitLines yaml) presetName = some (s, ind) →
       periodKey ≠ "default" →
       findChildKey (jsSplitLines yaml) s
           (findBlockEnd (jsSplitLines yaml) s ind (jsSplitLines yaml).length) ind "periods" < 0 →
       updateTimelineField yaml presetName periodKey field v = yaml) ∧
    (∀ (yaml presetName periodKey field : String) (v : JsValue) (s : Nat) (ind pl : Int),
       findPresetStart (jsSplitLines yaml) presetName = some (s, ind) →
       periodKey ≠ "default" →
       findChildKey (jsSplitLines yaml) s
           (findBlockEnd (jsSplitLines yaml) s ind (jsSplitLines yaml).length) ind "periods" = pl →
       ¬ pl < 0 →
       findChildKey (jsSplitLines yaml) pl.toNat
           (findBlockEnd (jsSplitLines yaml) pl.toNat
             (jsSearch ((jsSplitLines yaml).getD pl.toNat ""))
             (findBlockEnd (jsSplitLines yaml) s ind (jsSplitLines yaml).length))
           (jsSearch ((jsSplitLines yaml).getD pl.toNat "")) periodKey < 0 →
       updateTimelineField yaml presetName periodKey field v = yaml) ∧
    (∀ (yaml presetName field : String) (v : JsValue) (s : Nat) (ind : Int),
       findPresetStart (jsSplitLines yaml) presetName = some (s, ind) →
       findChildKey (jsSplitLines yaml) s
           (findBlockEnd (jsSplitLines yaml) s ind (jsSplitLines yaml).length) ind "default" < 0 →
       updateTimelineField yaml presetName "default" field v = yaml) := by
  refine ⟨?_, ?_, ?_, ?_⟩
  · intro yaml presetName periodKey field v hnone
    simp only [updateTimelineField, hnone]
  · intro yaml presetName periodKey field v s ind hsome hdef hpl
    simp only [updateTimelineField, hsome, if_neg hdef, if_pos hpl]
  · intro yaml presetName periodKey field v s ind pl hsome hdef hpl hplpos hperiod
    simp only [updateTimelineField, hsome, if_neg hdef, hpl, if_neg hplpos, if_pos hperiod]
  · intro yaml presetName field v s ind hsome hdefault
    simp only [updateTimelineField, hsome, eq_self_iff_true, if_true, if_pos hdefault]

/-- concrete instantiation of the missing-target no-op: the document has no
`presets:`/`custom:` entry for the requested preset. -/
theorem claim_C3_witness : updateTimelineField "x: 1" "work" "m" "f" (.num 1) = "x: 1" :=
  claim_C3_missing_target_noop.1 "x: 1" "work" "m" "f" (.num 1) (by decide)

theorem isSkipLine_dropWhile_struct (l : String) (h : isSkipLine l = true) :
    l.data.dropWhile isWsChar = [] ∨ ∃ t, l.data.dropWhile isWsChar = '#' :: t := by
  unfold isSkipLine at h
  rcases Bool.or_eq_true_iff.mp h with h1 | h2
  · left
    have hdat : trimList l.data = [] := congrArg String.data (of_decide_eq_true h1)
    exact trimList_nil_dropWhile _ hdat
  · right
    unfold strStartsWith jsTrim at h2
    cases htr : trimList l.data with
    | nil => rw [htr] at h2; cases h2
    | cons c t =>
      rw [htr] at h2
      have hc : c = '#' := by
        have : listPrefix ['#'] (c :: t) = true := h2
        unfold listPrefix at this
        rcases Bool.and_eq_true_iff.mp this with ⟨hcc, _⟩
        exact (of_decide_eq_true hcc).symm
      subst hc
      have hpre : trimList l.data <+: l.data.dropWhile isWsChar := trimList_prefix_dropWhile _
      rw [htr] at hpre
      exact prefix_cons_shape hpre

theorem blockItemMatch_skip (l : String) (h : isSkipLine l = true) : blockItemMatch l = none := by
  rcases isSkipLine_dropWhile_struct l h with hd | ⟨t, hd⟩ <;>
    simp only [blockItemMatch, drop_length_takeWhile, hd] <;> rfl

theorem inlinePeriodsMatch_skip (l : String) (h : isSkipLine l = true) :
    inlinePeriodsMatch l = none := by
  rcases isSkipLine_dropWhile_struct l h with hd | ⟨t, hd⟩ <;>
    simp only [inlinePeriodsMatch, drop_length_takeWhile, hd] <;> rfl

theorem splitCharAux_nosep (sep : Char) :
    ∀ (xs acc : List Char), sep ∉ xs → splitCharAux sep xs acc = [acc.reverse ++ xs] := by
  intro xs
  induction xs with
  | nil => intro acc _; simp [splitCharAux]
  | cons c cs IH =>
    intro acc h
    have hc : ¬ c = sep := fun hcc => h (hcc ▸ List.mem_cons_self c cs)
    rw [splitCharAux, if_neg hc, IH (c :: acc) (fun hm => h (List.mem_cons_of_mem c hm))]
    simp

theorem splitCharAux_append_nosep (sep : Char) :
    ∀ (xs ys acc : List Char), sep ∉ xs →
      splitCharAux sep (xs ++ ys) acc = splitCharAux sep ys (xs.reverse ++ acc) := by
  intro xs
  induction xs with
  | nil => intro ys acc _; simp
  | cons c cs IH =>
    intro ys acc h
    have hc : ¬ c = sep := fun hcc => h (hcc ▸ List.mem_cons_self c cs)
    rw [List.cons_append, splitCharAux, if_neg hc,
      IH ys (c :: acc) (fun hm => h (List.mem_cons_of_mem c hm))]
    simp

theorem splitCharAux_sep_cons (sep : Char) (ys acc : List Char) :
    splitCharAux sep (sep :: ys) acc = acc.reverse :: splitCharAux sep ys [] := by
  rw [splitCharAux, if_pos rfl]

theorem splitCharAux_chars (sep : Char) :
    ∀ (xs acc x : List Char), x ∈ splitCharAux sep xs acc → ∀ c ∈ x, c ∈ xs ∨ c ∈ acc := by
  intro xs
  induction xs with
  | nil =>
    intro acc x hx c hc
    rw [splitCharAux] at hx
    rcases List.mem_singleton.mp hx with rfl
    right; exact List.mem_reverse.mp hc
  | cons a as IH =>
    intro acc x hx c hc
    rw [splitCharAux] at hx
    by_cases ha : a = sep
    · rw [if_pos ha] at hx
      rcases List.mem_cons.mp hx with rfl | hx2
      · right; exact List.mem_reverse.mp hc
      · rcases IH [] x hx2 c hc with h1 | h2
        · left; exact List.mem_cons_of_mem a h1
        · cases h2
    · rw [if_neg ha] at hx
      rcases IH (a :: acc) x hx c hc with h1 | h2
      · left; exact List.mem_cons_of_mem a h1
      · rcases List.mem_cons.mp h2 with rfl | h3
        · left; exact List.mem_cons_self _ _
        · right; exact h3

theorem splitCharAux_no_sep_mem (sep : Char) :
    ∀ (xs acc x : List Char), sep ∉ acc → x ∈ splitCharAux sep xs acc → sep ∉ x := by
  intro xs
  induction xs with
  | nil =>
    intro acc x hacc hx
    rw [splitCharAux] at hx
    rcases List.mem_singleton.mp hx with rfl
    intro hm; exact hacc (List.mem_reverse.mp hm)
  | cons a as IH =>
    intro acc x hacc hx
    rw [splitCharAux] at hx
    by_cases ha : a = sep
    · rw [if_pos ha] at hx
      rcases List.mem_cons.mp hx with rfl | hx2
      · intro hm; exact hacc (List.mem_reverse.mp hm)
      · exact IH [] x (by simp) hx2
    · rw [if_neg ha] at hx
      refine IH (a :: acc) x ?_ hx
      intro hm
      rcases List.mem_cons.mp hm with h1 | h2
      · exact ha h1.symm
      · exact hacc h2

theorem trimList_ws_append (pre d : List Char) (h : ∀ c ∈ pre, isWsChar c = true) :
    trimList (pre ++ d) = trimList d := by
  unfold trimList
  rw [List.dropWhile_append_of_pos h]

theorem jsTrim_ws_append (pre : List Char) (s : String) (h : ∀ c ∈ pre, isWsChar c = true) :
    jsTrim ⟨pre ++ s.data⟩ = jsTrim s := by
  unfold jsTrim
  rw [show (⟨pre ++ s.data⟩ : String).data = pre ++ s.data from rfl, trimList_ws_append pre s.data h]

theorem resplit_aux :
    ∀ (items : List String) (pre : List Char), items ≠ [] →
      (∀ c ∈ pre, isWsChar c = true) →
      (∀ s ∈ items, jsTrim s = s ∧ ',' ∉ s.data) →
      (splitCharAux ',' (pre ++ joinWithList [',', ' '] (items.map String.data)) []).map
        (fun d => jsTrim (⟨d⟩ : String)) = items := by
  intro items
  induction items with
  | nil => intro pre hne _ _; exact absurd rfl hne
  | cons s rest IH =>
    intro pre _ hpre hwf
    have hwfs := hwf s (List.mem_cons_self s rest)
    have hpre' : ',' ∉ pre := fun hm => by
      have := hpre ',' hm
      simp [isWsChar] at this
    have hnosep : ',' ∉ pre ++ s.data := by
      intro hm
      rcases List.mem_append.mp hm with h1 | h2
      · exact hpre' h1
      · exact hwfs.2 h2
    cases rest with
    | nil =>
      show (splitCharAux ',' (pre ++ joinWithList [',', ' '] [s.data]) []).map _ = [s]
      rw [show joinWithList [',', ' '] [s.data] = s.data from rfl]
      rw [splitCharAux_nosep ',' (pre ++ s.data) [] hnosep]
      simp only [List.map_cons, List.map_nil, List.reverse_nil, List.nil_append]
      rw [jsTrim_ws_append pre s hpre, hwfs.1]
    | cons s2 rest2 =>
      have hjoin : joinWithList [',', ' '] ((s :: s2 :: rest2).map String.data) =
          (pre ++ joinWithList [',', ' '] ((s :: s2 :: rest2).map String.data)).drop pre.length := by
        rw [List.drop_left]
      have hshape : pre ++ joinWithList [',', ' '] ((s :: s2 :: rest2).map String.data) =
          (pre ++ s.data) ++ ',' :: (' ' :: joinWithList [',', ' '] ((s2 :: rest2).map String.data)) := by
        show pre ++ (s.data ++ [',', ' '] ++ joinWithList [',', ' '] ((s2 :: rest2).map String.data)) = _
        simp
      rw [hshape, splitCharAux_append_nosep ',' (pre ++ s.data) _ [] hnosep,
        splitCharAux_sep_cons]
      simp only [List.map_cons]
      rw [List.append_nil, List.reverse_reverse, jsTrim_ws_append pre s hpre, hwfs.1]
      have := IH [' '] (by simp) (by intro c hc; rcases List.mem_singleton.mp hc with rfl; rfl)
        (fun t ht => hwf t (List.mem_cons_of_mem s ht))
      simpa using this

theorem map_trim_split_join (items : List String) (hne : items ≠ [])
    (hwf : ∀ s ∈ items, jsTrim s = s ∧ ',' ∉ s.data) :
    (jsSplitChar ',' (joinCommaSp items)).map jsTrim = items := by
  unfold jsSplitChar joinCommaSp
  rw [List.map_map]
  have := resplit_aux items [] hne (by intro c hc; cases hc) hwf
  rw [List.nil_append] at this
  exact this

theorem takeWhile_append_cons {p : Char → Bool} (a : List Char) (c : Char) (t : List Char)
    (ha : ∀ x ∈ a, p x = true) (hc : p c = false) :
    (a ++ c :: t).takeWhile p = a := by
  rw [List.takeWhile_append_of_pos ha, List.takeWhile_cons, if_neg (by rw [hc]; exact Bool.false_ne_true)]
  simp

theorem drop_append_cons {α : Type} (a : List α) (r : List α) :
    (a ++ r).drop a.length = r := List.drop_left a r

theorem listPrefix_append_self (a b : List Char) : listPrefix a (a ++ b) = true := by
  induction a with
  | nil => rfl
  | cons c cs IH => simpa [listPrefix] using IH

theorem trimList_head_not_ws (d : List Char) (c : Char) (t : List Char)
    (h : trimList d = c :: t) : isWsChar c = false := by
  have hp := trimList_prefix_dropWhile d
  rw [h] at hp
  rcases prefix_cons_shape hp with ⟨t', ht'⟩
  exact dropWhile_head_not isWsChar d c t' ht'

theorem dropWhile_eq_self_cons (p : Char → Bool) (c : Char) (t : List Char) (h : p c = false) :
    (c :: t).dropWhile p = c :: t := by
  rw [List.dropWhile_cons, if_neg (by rw [h]; exact Bool.false_ne_true)]

theorem trimList_idem (d : List Char) : trimList (trimList d) = trimList d := by
  cases hw : trimList d with
  | nil => rfl
  | cons c t =>
    have hc : isWsChar c = false := trimList_head_not_ws d c t hw
    show ((((c :: t).dropWhile isWsChar).reverse.dropWhile isWsChar)).reverse = c :: t
    rw [dropWhile_eq_self_cons _ _ _ hc]
    have hv : (c :: t).reverse = (d.dropWhile isWsChar).reverse.dropWhile isWsChar := by
      rw [← hw]
      unfold trimList
      rw [List.reverse_reverse]
    rw [hv]
    cases hvv : (d.dropWhile isWsChar).reverse.dropWhile isWsChar with
    | nil => rw [hvv] at hv; simp at hv
    | cons a b =>
      have ha := dropWhile_head_not isWsChar _ a b hvv
      rw [dropWhile_eq_self_cons _ _ _ ha, ← hvv, ← hv, List.reverse_reverse]

theorem jsTrim_idem (s : String) : jsTrim (jsTrim s) = jsTrim s :=
  congrArg String.mk (trimList_idem s.data)

theorem trimList_subset (d : List Char) : ∀ c ∈ trimList d, c ∈ d := fun c hc =>
  (List.dropWhile_sublist isWsChar).subset ((trimList_prefix_dropWhile d).subset hc)

theorem inlinePeriodsMatch_build (ws sp X tail : List Char)
    (hws : ∀ c ∈ ws, isWsChar c = true) (hsp : ∀ c ∈ sp, isWsChar c = true)
    (hX : ']' ∉ X) :
    inlinePeriodsMatch ⟨ws ++ ("periods:".data ++ (sp ++ ('[' :: (X ++ (']' :: tail)))))⟩ =
      some (⟨ws ++ "periods:".data ++ sp⟩, ⟨X⟩) := by
  have hper : "periods:".data ++ (sp ++ ('[' :: (X ++ (']' :: tail)))) =
      'p' :: ("eriods:".data ++ (sp ++ ('[' :: (X ++ (']' :: tail))))) := rfl
  have h1 : (ws ++ ("periods:".data ++ (sp ++ ('[' :: (X ++ (']' :: tail)))))).takeWhile isWsChar
      = ws := by
    rw [hper]
    exact takeWhile_append_cons ws 'p' _ hws (by decide)
  have h2 : (ws ++ ("periods:".data ++ (sp ++ ('[' :: (X ++ (']' :: tail)))))).drop ws.length
      = "periods:".data ++ (sp ++ ('[' :: (X ++ (']' :: tail)))) := drop_append_cons ws _
  have h3 : (sp ++ ('[' :: (X ++ (']' :: tail)))).takeWhile isWsChar = sp :=
    takeWhile_append_cons sp '[' _ hsp (by decide)
  have h4 : X.takeWhile (fun x => !(x = ']')) = X := by
    rw [List.takeWhile_eq_self_iff]
    intro x hx
    simp only [Bool.not_eq_true']
    exact decide_eq_false (fun hxx => hX (hxx ▸ hx))
  simp only [inlinePeriodsMatch, h1, h2]
  rw [listPrefix_append_self "periods:".data _]
  simp only [if_true]
  rw [show ("periods:".data ++ (sp ++ ('[' :: (X ++ (']' :: tail))))).drop 8 =
      sp ++ ('[' :: (X ++ (']' :: tail))) from
    List.drop_left' (by decide), h3, drop_append_cons]
  simp only [if_pos rfl]
  rw [takeWhile_append_cons X ']' tail (fun x hx => by
    simp only [Bool.not_eq_true']
    exact decide_eq_false (fun hxx => hX (hxx ▸ hx))) (by decide)]
  rw [drop_append_cons]
  simp

theorem inlinePeriodsMatch_some_struct (l pre inner : String)
    (h : inlinePeriodsMatch l = some (pre, inner)) :
    ∃ ws sp, (∀ c ∈ ws, isWsChar c = true) ∧ (∀ c ∈ sp, isWsChar c = true) ∧
      pre.data = ws ++ "periods:".data ++ sp ∧ ']' ∉ inner.data := by
  simp only [inlinePeriodsMatch] at h
  split at h
  case isFalse => cases h
  case isTrue hlp =>
    split at h
    case h_2 => cases h
    case h_1 c r4 hr3 =>
      split at h
      case isFalse => cases h
      case isTrue hc =>
        split at h
        case isTrue => cases h
        case isFalse hdrop =>
          rcases Option.some.inj h with h2
          rcases Prod.mk.injEq .. ▸ h2 with ⟨hpre, hinner⟩
          refine ⟨l.data.takeWhile isWsChar,
            ((l.data.drop (l.data.takeWhile isWsChar).length).drop 8).takeWhile isWsChar,
            fun c hc => List.mem_takeWhile_imp hc,
            fun c hc => List.mem_takeWhile_imp hc, ?_, ?_⟩
          · rw [← hpre]
          · intro hm
            rw [← hinner] at hm
            have := List.mem_takeWhile_imp hm
            simp at this

theorem blockItemMatch_build_p (ws rest : List Char) (hws : ∀ c ∈ ws, isWsChar c = true) :
    blockItemMatch ⟨ws ++ 'p' :: rest⟩ = none := by
  have h1 : (ws ++ 'p' :: rest).takeWhile isWsChar = ws :=
    takeWhile_append_cons ws 'p' rest hws (by decide)
  simp only [blockItemMatch, h1, drop_append_cons]
  rw [if_neg (by decide)]

theorem joinWithList_chars (sep : List Char) :
    ∀ (xs : List (List Char)) (c : Char), c ∈ joinWithList sep xs → c ∈ sep ∨ ∃ x ∈ xs, c ∈ x := by
  intro xs
  induction xs with
  | nil => intro c hc; cases hc
  | cons x rest IH =>
    intro c hc
    cases rest with
    | nil =>
      rw [show joinWithList sep [x] = x from rfl] at hc
      exact .inr ⟨x, List.mem_singleton_self x, hc⟩
    | cons y r2 =>
      rw [show joinWithList sep (x :: y :: r2) = x ++ sep ++ joinWithList sep (y :: r2) from rfl]
        at hc
      rcases List.mem_append.mp hc with h1 | h2
      · rcases List.mem_append.mp h1 with h3 | h4
        · exact .inr ⟨x, List.mem_cons_self x _, h3⟩
        · exact .inl h4
      · rcases IH c h2 with h5 | ⟨z, hz, hcz⟩
        · exact .inl h5
        · exact .inr ⟨z, List.mem_cons_of_mem x hz, hcz⟩

theorem inline_rewrite_items_wf (key inner : String) :
    ∀ s ∈ ((jsSplitChar ',' inner).map jsTrim).filter (keepInlineItem key),
      jsTrim s = s ∧ ',' ∉ s.data ∧ stripQuotesOnce s ≠ key ∧
        (∀ c ∈ s.data, c ∈ inner.data) := by
  intro s hs
  rcases List.mem_filter.mp hs with ⟨hmem, hkeep⟩
  rcases List.mem_map.mp hmem with ⟨t, htmem, rfl⟩
  rcases List.mem_map.mp htmem with ⟨piece, hpiece, rfl⟩
  have hnosep : ',' ∉ piece := splitCharAux_no_sep_mem ',' inner.data [] piece
    (by intro h; cases h) hpiece
  refine ⟨jsTrim_idem _, ?_, ?_, ?_⟩
  · intro hc
    exact hnosep (trimList_subset piece ',' hc)
  · rcases Bool.and_eq_true_iff.mp hkeep with ⟨_, h2⟩
    exact fun he => absurd (decide_eq_true he) (by
      intro hx
      rw [decide_eq_true_iff] at h2
      exact h2 (of_decide_eq_true hx))
  · intro c hc
    have hcp : c ∈ piece := trimList_subset piece c hc
    rcases splitCharAux_chars ',' inner.data [] piece hpiece c hcp with h1 | h2
    · exact h1
    · cases h2

theorem inline_rewrite_clean (key l pre inner : String) (hkey : key ≠ "")
    (hm : inlinePeriodsMatch l = some (pre, inner)) (items : List String)
    (hitems : items = ((jsSplitChar ',' inner).map jsTrim).filter (keepInlineItem key))
    (newLine : String)
    (hnew : newLine =
      if items.length > 0 then pre ++ "[" ++ joinCommaSp items ++ "]" else pre ++ "[]") :
    isBlockRefLine key newLine = false ∧ inlineHasRef key newLine = false := by
  obtain ⟨ws, sp, hws, hsp, hpre, hinner⟩ := inlinePeriodsMatch_some_struct l pre inner hm
  have hwf : ∀ s ∈ items, jsTrim s = s ∧ ',' ∉ s.data ∧ stripQuotesOnce s ≠ key ∧
      (∀ c ∈ s.data, c ∈ inner.data) := hitems ▸ inline_rewrite_items_wf key inner
  have hperhead : "periods:".data ++ (sp ++ ('[' :: ((joinCommaSp items).data ++ (']' :: [])))) =
      'p' :: ("eriods:".data ++ (sp ++ ('[' :: ((joinCommaSp items).data ++ (']' :: []))))) := rfl
  have hperhead0 : "periods:".data ++ (sp ++ ('[' :: ([] ++ (']' :: [])))) =
      'p' :: ("eriods:".data ++ (sp ++ ('[' :: ([] ++ (']' :: []))))) := rfl
  by_cases hlen : items.length > 0
  · rw [if_pos hlen] at hnew
    have hJ : ']' ∉ (joinCommaSp items).data := by
      intro hc
      rcases joinWithList_chars [',', ' '] (items.map String.data) ']' hc with h1 | ⟨x, hx, hcx⟩
      · simp at h1
      · rcases List.mem_map.mp hx with ⟨s, hsmem, rfl⟩
        exact hinner ((hwf s hsmem).2.2.2 ']' hcx)
    have hdata : newLine.data =
        ws ++ ("periods:".data ++ (sp ++ ('[' :: ((joinCommaSp items).data ++ (']' :: []))))) := by
      rw [hnew]
      simp only [String.data_append, hpre]
      simp [List.append_assoc]
    have hline : newLine = ⟨ws ++ ("periods:".data ++ (sp ++ ('[' ::
        ((joinCommaSp items).data ++ (']' :: [])))))⟩ := congrArg String.mk hdata
    have hmatch := inlinePeriodsMatch_build ws sp (joinCommaSp items).data [] hws hsp hJ
    constructor
    · rw [hline, show (ws ++ ("periods:".data ++ (sp ++ ('[' ::
        ((joinCommaSp items).data ++ (']' :: [])))))) =
        ws ++ ('p' :: ("eriods:".data ++ (sp ++ ('[' ::
          ((joinCommaSp items).data ++ (']' :: [])))))) from by rw [← hperhead]]
      unfold isBlockRefLine
      rw [blockItemMatch_build_p]
      exact hws
    · rw [hline]
      unfold inlineHasRef
      rw [hmatch]
      have hresplit : (jsSplitChar ',' (⟨(joinCommaSp items).data⟩ : String)).map jsTrim = items := by
        have := map_trim_split_join items (by
          intro hni; rw [hni] at hlen; cases hlen)
          (fun s hs => ⟨(hwf s hs).1, (hwf s hs).2.1⟩)
        exact this
      show ((jsSplitChar ',' (⟨(joinCommaSp items).data⟩ : String)).map jsTrim).any
        (fun s => stripQuotesOnce s = key) = false
      rw [hresplit]
      rw [List.any_eq_false]
      intro s hs
      simp only [decide_eq_true_eq]
      exact (hwf s hs).2.2.1
  · rw [if_neg hlen] at hnew
    have hdata : newLine.data =
        ws ++ ("periods:".data ++ (sp ++ ('[' :: ([] ++ (']' :: []))))) := by
      rw [hnew]
      simp only [String.data_append, hpre]
      simp [List.append_assoc]
    have hline : newLine = ⟨ws ++ ("periods:".data ++ (sp ++ ('[' :: ([] ++ (']' :: [])))))⟩ :=
      congrArg String.mk hdata
    have hmatch := inlinePeriodsMatch_build ws sp [] [] hws hsp (by intro h; cases h)
    constructor
    · rw [hline, show (ws ++ ("periods:".data ++ (sp ++ ('[' :: ([] ++ (']' :: [])))))) =
        ws ++ ('p' :: ("eriods:".data ++ (sp ++ ('[' :: ([] ++ (']' :: [])))))) from by
          rw [← hperhead0]]
      unfold isBlockRefLine
      rw [blockItemMatch_build_p]
      exact hws
    · rw [hline]
      unfold inlineHasRef
      rw [hmatch]
      show ((jsSplitChar ',' (⟨[]⟩ : String)).map jsTrim).any (fun s => stripQuotesOnce s = key)
        = false
      rw [show (jsSplitChar ',' (⟨[]⟩ : String)).map jsTrim = [""] from rfl]
      simp only [List.any_cons, List.any_nil, Bool.or_false, decide_eq_true_eq]
      rw [show stripQuotesOnce "" = "" from rfl]
      exact decide_eq_false (fun h => hkey h.symm)

theorem getD_of_get? (lines : List String) (i : Nat) (line : String)
    (h : lines.get? i = some line) : lines.getD i "" = line := by
  rw [List.getD_eq_get?, h]
  rfl

theorem removePeriodLoop_clean (key : String) (hkey : key ≠ "") :
    ∀ (fuel : Nat) (lines : List String) (i dpEnd : Nat),
      lines.length + (dpEnd - i) ≤ fuel →
      (∀ j : Nat, j < i →
        (removePeriodLoop key lines i dpEnd fuel).getD j "" = lines.getD j "") ∧
      (∀ j : Nat, i ≤ j →
        j + lines.length < dpEnd + (removePeriodLoop key lines i dpEnd fuel).length →
        isBlockRefLine key ((removePeriodLoop key lines i dpEnd fuel).getD j "") = false ∧
        inlineHasRef key ((removePeriodLoop key lines i dpEnd fuel).getD j "") = false) := by
  intro fuel
  induction fuel with
  | zero =>
    intro lines i dpEnd hfuel
    refine ⟨fun j hj => rfl, fun j hij hwin => ?_⟩
    rw [show removePeriodLoop key lines i dpEnd 0 = lines from rfl] at hwin
    omega
  | succ fuel IH =>
    intro lines i dpEnd hfuel
    by_cases hid : i < dpEnd
    case neg =>
      have hr : removePeriodLoop key lines i dpEnd (fuel + 1) = lines := by
        rw [removePeriodLoop, if_neg hid]
      rw [hr]
      exact ⟨fun j hj => rfl, fun j hij hwin => absurd hwin (by omega)⟩
    case pos =>
      cases hget : lines.get? i with
      | none =>
        have hlen : lines.length ≤ i := List.get?_eq_none.mp hget
        have hr : removePeriodLoop key lines i dpEnd (fuel + 1) = lines := by
          rw [removePeriodLoop, if_pos hid]
          simp only [hget]
        rw [hr]
        refine ⟨fun j hj => rfl, fun j hij hwin => ?_⟩
        have hd : lines.getD j "" = "" := by
          rw [List.getD_eq_get?, List.get?_eq_none.mpr (by omega)]
          rfl
        rw [hd]
        exact ⟨rfl, rfl⟩
      | some line =>
        have hiln : i < lines.length := by
          rcases List.get?_eq_some.mp hget with ⟨h, _⟩
          exact h
        have hdi : lines.getD i "" = line := getD_of_get? lines i line hget
        by_cases hskip : isSkipLine line = true
        · have hr : removePeriodLoop key lines i dpEnd (fuel + 1) =
              removePeriodLoop key lines (i + 1) dpEnd fuel := by
            rw [removePeriodLoop, if_pos hid]
            simp only [hget]
            rw [if_pos hskip]
          rw [hr]
          have IH' := IH lines (i + 1) dpEnd (by omega)
          refine ⟨fun j hj => IH'.1 j (by omega), fun j hij hwin => ?_⟩
          rcases Nat.eq_or_lt_of_le hij with heq | hlt
          · rw [← heq, IH'.1 i (by omega), hdi]
            unfold isBlockRefLine inlineHasRef
            rw [blockItemMatch_skip line hskip, inlinePeriodsMatch_skip line hskip]
            exact ⟨rfl, rfl⟩
          · exact IH'.2 j hlt hwin
        · by_cases hblock : isBlockRefLine key line = true
          · have hr : removePeriodLoop key lines i dpEnd (fuel + 1) =
                removePeriodLoop key (lines.eraseIdx i) i dpEnd fuel := by
              rw [removePeriodLoop, if_pos hid]
              simp only [hget]
              rw [if_neg hskip, if_pos hblock]
            rw [hr]
            have hlen' : (lines.eraseIdx i).length = lines.length - 1 :=
              List.length_eraseIdx_of_lt hiln
            have IH' := IH (lines.eraseIdx i) i dpEnd (by omega)
            refine ⟨fun j hj => ?_, fun j hij hwin => ?_⟩
            · rw [IH'.1 j hj, List.getD_eq_getElem?_getD, List.getD_eq_getElem?_getD,
                List.getElem?_eraseIdx_of_lt lines i j hj]
            · exact IH'.2 j hij (by omega)
          · cases hinl : inlinePeriodsMatch line with
            | none =>
              have hr : removePeriodLoop key lines i dpEnd (fuel + 1) =
                  removePeriodLoop key lines (i + 1) dpEnd fuel := by
                rw [removePeriodLoop, if_pos hid]
                simp only [hget]
                rw [if_neg hskip, if_neg hblock]
                simp only [hinl]
              rw [hr]
              have IH' := IH lines (i + 1) dpEnd (by omega)
              refine ⟨fun j hj => IH'.1 j (by omega), fun j hij hwin => ?_⟩
              rcases Nat.eq_or_lt_of_le hij with heq | hlt
              · rw [← heq, IH'.1 i (by omega), hdi]
                refine ⟨by simpa using hblock, ?_⟩
                unfold inlineHasRef
                rw [hinl]
              · exact IH'.2 j hlt hwin
            | some pr =>
              obtain ⟨pre, inner⟩ := pr
              have hr : removePeriodLoop key lines i dpEnd (fuel + 1) =
                  removePeriodLoop key
                    (lines.set i
                      (if (((jsSplitChar ',' inner).map jsTrim).filter
                            (keepInlineItem key)).length > 0 then
                        pre ++ "[" ++ joinCommaSp (((jsSplitChar ',' inner).map jsTrim).filter
                          (keepInlineItem key)) ++ "]"
                      else pre ++ "[]"))
                    (i + 1) dpEnd fuel := by
                rw [removePeriodLoop, if_pos hid]
                simp only [hget]
                rw [if_neg hskip, if_neg hblock]
                simp only [hinl]
              rw [hr]
              have hclean := inline_rewrite_clean key line pre inner hkey hinl
                (((jsSplitChar ',' inner).map jsTrim).filter (keepInlineItem key)) rfl
                (if (((jsSplitChar ',' inner).map jsTrim).filter
                      (keepInlineItem key)).length > 0 then
                  pre ++ "[" ++ joinCommaSp (((jsSplitChar ',' inner).map jsTrim).filter
                    (keepInlineItem key)) ++ "]"
                else pre ++ "[]") rfl
              revert hclean
              generalize (if (((jsSplitChar ',' inner).map jsTrim).filter
                    (keepInlineItem key)).length > 0 then
                  pre ++ "[" ++ joinCommaSp (((jsSplitChar ',' inner).map jsTrim).filter
                    (keepInlineItem key)) ++ "]"
                else pre ++ "[]") = NL
              intro hclean
              have IH' := IH (lines.set i NL) (i + 1) dpEnd (by rw [List.length_set]; omega)
              refine ⟨fun j hj => ?_, fun j hij hwin => ?_⟩
              · rw [IH'.1 j (by omega), List.getD_eq_getElem?_getD, List.getD_eq_getElem?_getD,
                  List.getElem?_set_ne (by omega)]
              · rcases Nat.eq_or_lt_of_le hij with heq | hlt
                · rw [← heq, IH'.1 i (by omega)]
                  have hset : (lines.set i NL).getD i "" = NL := by
                    rw [List.getD_eq_getElem?_getD, List.getElem?_set_self (by omega)]
                    rfl
                  rw [hset]
                  exact hclean
                · refine IH'.2 j hlt ?_
                  rw [List.length_set]
                  exact hwin

/-- C6: deleting a named period cascades over the day-plans window.  Part 1
(universal): for every non-empty period key, the scan loop of
`removePeriodFromDayPlans` — run with its actual iteration budget — leaves
every line before the start index byte-identical and leaves no block-list
reference (`- key`) and no inline-list reference (`periods: […key…]`) on any
line of the processed window.  Part 2 (concrete, `deleteTlPeriod` end to
end): deleting period `m1` from a preset whose two day-plans reference it —
one as an inline bracketed list, one as a block list — removes `m1`'s
defining block from the `periods:` section and strips `m1` from both
day-plan lists.  Part 3: no line of the resulting document still references
`m1` in either representation. -/
theorem claim_C6_cascading_delete :
    (∀ (key : String) (lines : List String) (i dpEnd : Nat), key ≠ "" →
      (∀ j : Nat, j < i →
        (removePeriodLoop key lines i dpEnd (lines.length + dpEnd)).getD j "" =
          lines.getD j "") ∧
      (∀ j : Nat, i ≤ j →
        j + lines.length <
          dpEnd + (removePeriodLoop key lines i dpEnd (lines.length + dpEnd)).length →
        isBlockRefLine key
          ((removePeriodLoop key lines i dpEnd (lines.length + dpEnd)).getD j "") = false ∧
        inlineHasRef key
          ((removePeriodLoop key lines i dpEnd (lines.length + dpEnd)).getD j "") = false)) ∧
    deleteTlPeriodCore
      "presets:\n  work:\n    periods:\n      m1:\n        name: A\n      m2:\n        name: B\n    day_plans:\n      d1:\n        periods: [m1, m2]\n      d2:\n        periods:\n          - m1\n          - m2\n    default: x"
      "work" "m1" true =
      "presets:\n  work:\n    periods:\n      m2:\n        name: B\n    day_plans:\n      d1:\n        periods: [m2]\n      d2:\n        periods:\n          - m2\n    default: x" ∧
    ((jsSplitLines (deleteTlPeriodCore
      "presets:\n  work:\n    periods:\n      m1:\n        name: A\n      m2:\n        name: B\n    day_plans:\n      d1:\n        periods: [m1, m2]\n      d2:\n        periods:\n          - m1\n          - m2\n    default: x"
      "work" "m1" true)).all
        (fun l => !isBlockRefLine "m1" l && !inlineHasRef "m1" l)) = true := by
  refine ⟨fun key lines i dpEnd hkey =>
    removePeriodLoop_clean key hkey (lines.length + dpEnd) lines i dpEnd (by omega), ?_, ?_⟩
  · rfl
  · rfl

/-- C6 witness: the universal part of the cascading-delete theorem, applied
to the single inline line `        periods: [m1, m2]` with key `m1`. -/
theorem claim_C6_witness :
    isBlockRefLine "m1"
      ((removePeriodLoop "m1" ["        periods: [m1, m2]"] 0 1
        (["        periods: [m1, m2]"].length + 1)).getD 0 "") = false ∧
    inlineHasRef "m1"
      ((removePeriodLoop "m1" ["        periods: [m1, m2]"] 0 1
        (["        periods: [m1, m2]"].length + 1)).getD 0 "") = false :=
  (claim_C6_cascading_delete.1 "m1" ["        periods: [m1, m2]"] 0 1
    (by decide)).2 0 (by omega) (by decide)

/-- C7 counterexample: mutating an inline bracketed list does NOT preserve
the original comma spacing.  Adding period `c` to the day-plan line
`periods: [a,b]` (no space after the commas) produces `periods: [a, b, c]` —
the items are re-joined with `", "` — and not the spacing-preserving
`periods: [a,b,c]`. -/
theorem claim_C7_counterexample :
    addPeriodToDayPlan
      "presets:\n  work:\n    day_plans:\n      d1:\n        periods: [a,b]\n    default: x"
      "work" "d1" "c" =
      "presets:\n  work:\n    day_plans:\n      d1:\n        periods: [a, b, c]\n    default: x" ∧
    addPeriodToDayPlan
      "presets:\n  work:\n    day_plans:\n      d1:\n        periods: [a,b]\n    default: x"
      "work" "d1" "c" ≠
      "presets:\n  work:\n    day_plans:\n      d1:\n        periods: [a,b,c]\n    default: x" :=
  ⟨rfl, by decide⟩

/-- C7 (amended): an inline bracketed list is rewritten as a single line that
keeps the bracket style but re-joins the items with `", "` (normalizing,
not preserving, the original comma spacing); a block list is spliced
line-by-line and every surviving line is byte-identical, so trailing
comments survive.  Parts 1-2 (universal): a single-line splice
(`spliceInsert lines pos [x]`) leaves every line before `pos` and every line
at or after `pos` byte-identical (the latter shifted down by one).  Part 3
locates the preset of the concrete document used below.  Part 4: adding to
an inline list rewrites just that line, `", "`-joined, brackets kept.
Part 5: removing from an inline list likewise.  Part 6: adding to a block
list splices a new `- item` line and keeps the surviving `- a  # keep` line
(trailing comment included) byte-identical.  Part 7: removing from a block
list deletes only the matching `- m1` line, again keeping `- a  # keep`. -/
theorem claim_C7_list_mutation :
    (∀ (lines : List String) (pos : Nat) (x : String) (j : Nat),
      j < pos → j < lines.length →
      (spliceInsert lines pos [x]).getD j "" = lines.getD j "") ∧
    (∀ (lines : List String) (pos : Nat) (x : String) (j : Nat),
      pos ≤ lines.length → pos ≤ j →
      (spliceInsert lines pos [x]).getD (j + 1) "" = lines.getD j "") ∧
    findPresetSection
      (jsSplitLines "presets:\n  work:\n    day_plans:\n      d1:\n        periods:\n          - a  # keep\n          - m1\n    default: x")
      "work" = some (1, 8, 2) ∧
    addPeriodToDayPlan
      "presets:\n  work:\n    day_plans:\n      d1:\n        periods: [a, b]\n    default: x"
      "work" "d1" "c" =
      "presets:\n  work:\n    day_plans:\n      d1:\n        periods: [a, b, c]\n    default: x" ∧
    removePeriodLoop "m1" ["        periods: [m1, m2]"] 0 1 2 =
      ["        periods: [m2]"] ∧
    addPeriodToDayPlan
      "presets:\n  work:\n    day_plans:\n      d1:\n        periods:\n          - a  # keep\n          - m1\n    default: x"
      "work" "d1" "b" =
      "presets:\n  work:\n    day_plans:\n      d1:\n        periods:\n          - a  # keep\n          - m1\n          - b\n    default: x" ∧
    jsJoinLines (removePeriodFromDayPlans
      (jsSplitLines "presets:\n  work:\n    day_plans:\n      d1:\n        periods:\n          - a  # keep\n          - m1\n    default: x")
      (1, 8, 2) "m1") =
      "presets:\n  work:\n    day_plans:\n      d1:\n        periods:\n          - a  # keep\n    default: x" := by
  refine ⟨?_, ?_, rfl, rfl, rfl, rfl, rfl⟩
  · intro lines pos x j hjp hjl
    rw [spliceInsert, List.getD_eq_getElem?_getD, List.getD_eq_getElem?_getD,
      List.getElem?_append_left (by simp [List.length_append, List.length_take]; omega),
      List.getElem?_append_left (by simp [List.length_take]; omega),
      List.getElem?_take, if_pos hjp]
  · intro lines pos x j hpl hpj
    rw [spliceInsert, List.getD_eq_getElem?_getD, List.getD_eq_getElem?_getD,
      List.getElem?_append_right (by simp [List.length_append, List.length_take]; omega),
      List.getElem?_drop]
    have harith : pos + (j + 1 - (List.take pos lines ++ [x]).length) = j := by
      rw [List.length_append, List.length_take, Nat.min_eq_left hpl]
      simp only [List.length_cons, List.length_nil]
      omega
    rw [harith]

/-- C7 witness: the two universal splice-frame parts of the list-mutation
theorem, applied to the concrete splice of `"x"` into `["p", "q"]` at
position 1. -/
theorem claim_C7_witness :
    (spliceInsert ["p", "q"] 1 ["x"]).getD 0 "" = "p" ∧
    (spliceInsert ["p", "q"] 1 ["x"]).getD 2 "" = "q" :=
  ⟨claim_C7_list_mutation.1 ["p", "q"] 1 "x" 0 (by decide) (by decide),
   claim_C7_list_mutation.2.1 ["p", "q"] 1 "x" 1 (by decide) (by decide)⟩

/-- C5: related-group contiguity.  Part 1: two `keyword => alias` lines
with no blank line between them parse to a single alias-group with two
items and `isRelatedGroup` unset.  Part 2: two single-keyword groups (a
plain keyword directly followed by an alias line, which opens a second
group) separated by zero blank lines and no comments parse to two groups,
both flagged as related with total count 2 and indices 0 and 1.  Part 3:
rebuilding that parse emits the two groups with no blank line between
them. -/
theorem claim_C5_related_contiguity :
    (parseFrequencyText "[GLOBAL_FILTER]\n\n[WORD_GROUPS]\na => A\nb => B\n").wordGroups =
      [{ gtype := GroupType.aliasGroup
         items := [⟨"a", "A"⟩, ⟨"b", "B"⟩]
         startLine := 3 }] ∧
    (parseFrequencyText "[GLOBAL_FILTER]\n\n[WORD_GROUPS]\nfoo\nbar => B\n").wordGroups =
      [{ gtype := GroupType.plain
         keywords := ["foo"]
         startLine := 3
         isRelatedGroup := true
         relatedGroupIndex := some 0
         relatedGroupTotal := some 2 },
       { gtype := GroupType.alias1
         items := [⟨"bar", "B"⟩]
         startLine := 4
         isRelatedGroup := true
         relatedGroupIndex := some 1
         relatedGroupTotal := some 2 }] ∧
    buildFrequencyText
      (parseFrequencyText "[GLOBAL_FILTER]\n\n[WORD_GROUPS]\nfoo\nbar => B\n") =
      "[GLOBAL_FILTER]\n\n[WORD_GROUPS]\nfoo\nbar => B\n" :=
  ⟨rfl, rfl, rfl⟩

theorem pushCur_fresh (st : ParseSt) (h : StFresh st) :
    StFresh (pushCur st) ∧ (pushCur st).wordGroups = st.wordGroups := by
  obtain ⟨hw, hb, hc⟩ := h
  unfold pushCur
  cases hcur : st.currentGroup with
  | none => exact ⟨⟨hw, hb, hc⟩, rfl⟩
  | some g =>
    refine ⟨⟨hw, ?_, ?_⟩, rfl⟩
    · intro g' hg'
      rcases List.mem_append.mp hg' with h1 | h2
      · exact hb g' h1
      · rcases List.mem_singleton.mp h2 with rfl
        exact hc g' hcur
    · intro g' hg'
      exact absurd hg' (by simp)

theorem flushBuf_fresh (st : ParseSt) (h : StFresh st) : StFresh (flushBuf st) := by
  obtain ⟨⟨runs, hruns, hjoin⟩, hb, hc⟩ := h
  unfold flushBuf
  refine ⟨?_, ?_, ?_⟩
  · by_cases hbe : st.buffer = []
    · refine ⟨runs, hruns, ?_⟩
      simp [hbe, markRun, hjoin]
    · refine ⟨runs ++ [st.buffer], ?_, ?_⟩
      · intro r hr
        rcases List.mem_append.mp hr with h1 | h2
        · exact hruns r h1
        · rcases List.mem_singleton.mp h2 with rfl
          exact ⟨hbe, hb⟩
      · simp only [List.map_append, List.join_append, hjoin, List.map_cons,
          List.map_nil, List.join_cons, List.join_nil, List.append_nil]
  · intro g hg
    exact absurd hg (by simp)
  · exact hc

theorem freqStepAP_fresh (st : ParseSt) (t : String) (h : StFresh st) :
    StFresh (freqStepAP st t) := by
  obtain ⟨hw, hb, hc⟩ := h
  unfold freqStepAP
  cases haM : aliasMatch t with
  | some p =>
    obtain ⟨g1, g2⟩ := p
    cases hcur : st.currentGroup with
    | some g =>
      dsimp only
      by_cases hjoin : st.lastLineWasAlias ∧
          (g.gtype = GroupType.alias1 ∨ g.gtype = GroupType.aliasGroup)
      · rw [if_pos hjoin]
        refine ⟨hw, hb, ?_⟩
        intro g' hg'
        obtain rfl := Option.some.inj hg'
        exact hc g hcur
      · rw [if_neg hjoin]
        obtain ⟨⟨hw1, hb1, _⟩, hwg⟩ := pushCur_fresh st ⟨hw, hb, hc⟩
        refine ⟨by rw [hwg] at hw1 ⊢; exact hw1, hb1, ?_⟩
        intro g' hg'
        obtain rfl := Option.some.inj hg'
        exact ⟨rfl, rfl, rfl⟩
    | none =>
      dsimp only
      refine ⟨hw, hb, ?_⟩
      intro g' hg'
      obtain rfl := Option.some.inj hg'
      exact ⟨rfl, rfl, rfl⟩
  | none =>
    cases hcur : st.currentGroup with
    | some g =>
      dsimp only
      by_cases hnew : (g.gtype == GroupType.alias1 || g.gtype == GroupType.aliasGroup) = true
      · simp only [hnew, if_true]
        obtain ⟨⟨hw1, hb1, _⟩, hwg⟩ := pushCur_fresh st ⟨hw, hb, hc⟩
        refine ⟨by rw [hwg] at hw1 ⊢; exact hw1, hb1, ?_⟩
        intro g' hg'
        obtain rfl := Option.some.inj hg'
        exact ⟨rfl, rfl, rfl⟩
      · simp only [Bool.not_eq_true] at hnew
        simp only [hnew, Bool.false_eq_true, if_false, hcur]
        refine ⟨hw, hb, ?_⟩
        intro g' hg'
        obtain rfl := Option.some.inj hg'
        exact hc g hcur
    | none =>
      dsimp only
      simp only [if_true]
      obtain ⟨⟨hw1, hb1, _⟩, hwg⟩ := pushCur_fresh st ⟨hw, hb, hc⟩
      refine ⟨hw1, hb1, ?_⟩
      intro g' hg'
      obtain rfl := Option.some.inj hg'
      exact ⟨rfl, rfl, rfl⟩

theorem freqStep_fresh (st : ParseSt) (line : String) (h : StFresh st) :
    StFresh (freqStep st line) := by
  unfold freqStep
  obtain ⟨hw, hb, hc⟩ := h
  by_cases h1 : strStartsWith (jsTrim line) "#" = true
  · rw [if_pos h1]
    by_cases h2 : st.currentSection = FreqSection.groupsSect
    · rw [if_pos h2]; exact ⟨hw, hb, hc⟩
    · rw [if_neg h2]; exact ⟨hw, hb, hc⟩
  · rw [if_neg h1]
    by_cases h2 : jsTrim line = ""
    · rw [if_pos h2]
      have hfl := flushBuf_fresh (pushCur st) (pushCur_fresh st ⟨hw, hb, hc⟩).1
      obtain ⟨hw1, hb1, hc1⟩ := hfl
      by_cases h3 : (flushBuf (pushCur st)).currentSection = FreqSection.groupsSect
      · rw [if_pos h3]; exact ⟨hw1, hb1, hc1⟩
      · rw [if_neg h3]; exact ⟨hw1, hb1, hc1⟩
    · rw [if_neg h2]
      by_cases h3 : jsTrim line = "[GLOBAL_FILTER]"
      · rw [if_pos h3]; exact ⟨hw, hb, hc⟩
      · rw [if_neg h3]
        by_cases h4 : jsTrim line = "[WORD_GROUPS]"
        · rw [if_pos h4]; exact ⟨hw, hb, hc⟩
        · rw [if_neg h4]
          by_cases h5 : st.currentSection = FreqSection.globalSect
          · rw [if_pos h5]; exact ⟨hw, hb, hc⟩
          · rw [if_neg h5]
            by_cases h6 : st.currentSection = FreqSection.groupsSect
            · rw [if_pos h6]
              cases hlm : labelMatch (jsTrim line) with
              | some nm =>
                dsimp only
                by_cases h7 : nm ≠ "GLOBAL_FILTER" ∧ nm ≠ "WORD_GROUPS"
                · rw [if_pos h7]
                  have hfl := flushBuf_fresh (pushCur st) (pushCur_fresh st ⟨hw, hb, hc⟩).1
                  obtain ⟨hw1, hb1, hc1⟩ := hfl
                  refine ⟨hw1, hb1, ?_⟩
                  intro g' hg'
                  obtain rfl := Option.some.inj hg'
                  exact ⟨rfl, rfl, rfl⟩
                · rw [if_neg h7]
                  exact freqStepAP_fresh st (jsTrim line) ⟨hw, hb, hc⟩
              | none =>
                dsimp only
                exact freqStepAP_fresh st (jsTrim line) ⟨hw, hb, hc⟩
            · rw [if_neg h6]; exact ⟨hw, hb, hc⟩

theorem foldl_freqStep_fresh (ls : List String) :
    ∀ st, StFresh st → StFresh (ls.foldl freqStep st) := by
  induction ls with
  | nil => intro st h; exact h
  | cons l ls IH => intro st h; exact IH _ (freqStep_fresh st l h)

theorem parse_runs (text : String) :
    ∃ runs : List (List WordGroup), RunsOK runs ∧
      (parseFrequencyText text).wordGroups = (runs.map markRun).join := by
  have h0 : StFresh initParseSt := by
    refine ⟨⟨[], ?_, rfl⟩, ?_, ?_⟩
    · intro r hr; cases hr
    · intro g hg; cases hg
    · intro g hg; cases hg
  have h1 := foldl_freqStep_fresh (jsSplitLines text) initParseSt h0
  have h2 := flushBuf_fresh _ (pushCur_fresh _ h1).1
  exact h2.1

theorem markRun_short (gs : List WordGroup) (h : gs.length ≤ 1) : markRun gs = gs := by
  unfold markRun
  rw [if_neg (by omega)]

theorem setFlags_get (total : Nat) :
    ∀ (gs : List WordGroup) (idx i : Nat) (g : WordGroup),
    (setFlags total idx gs).get? i = some g →
    g.isRelatedGroup = true ∧ g.relatedGroupIndex = some (idx + i) ∧
      g.relatedGroupTotal = some total := by
  intro gs
  induction gs with
  | nil => intro idx i g h; cases h
  | cons a as IH =>
    intro idx i g h
    cases i with
    | zero =>
      obtain rfl := Option.some.inj h
      exact ⟨rfl, rfl, rfl⟩
    | succ n =>
      have hr := IH (idx + 1) n g h
      refine ⟨hr.1, ?_, hr.2.2⟩
      rw [hr.2.1]
      congr 1
      omega

theorem markRun_get (gs : List WordGroup) (i : Nat) (g : WordGroup) (hlen : 1 < gs.length)
    (h : (markRun gs).get? i = some g) :
    g.isRelatedGroup = true ∧ g.relatedGroupIndex = some i ∧
      g.relatedGroupTotal = some gs.length := by
  unfold markRun at h
  rw [if_pos hlen] at h
  have hr := setFlags_get gs.length gs 0 i g h
  refine ⟨hr.1, ?_, hr.2.2⟩
  rw [hr.2.1]
  congr 1
  omega

/-- C9: the related-group marking invariant.  Part 1: for every input text
the emitted word-group list decomposes into the flush-time runs — each
non-empty, each made of groups that were unmarked when buffered — with
`markRun` applied to each run.  Part 2: a run of at most one group is left
exactly as it was (no flag, no index, no total), so a group flushed alone
is never flagged.  Part 3: in a run of two or more groups every group is
flagged with `relatedGroupIndex` equal to its position in the run and
`relatedGroupTotal` equal to the run's length, which is at least 2. -/
theorem claim_C9_related_run_invariant :
    (∀ text : String, ∃ runs : List (List WordGroup), RunsOK runs ∧
      (parseFrequencyText text).wordGroups = (runs.map markRun).join) ∧
    (∀ gs : List WordGroup, gs.length ≤ 1 → markRun gs = gs) ∧
    (∀ (gs : List WordGroup) (i : Nat) (g : WordGroup), 1 < gs.length →
      (markRun gs).get? i = some g →
      g.isRelatedGroup = true ∧ g.relatedGroupIndex = some i ∧
        g.relatedGroupTotal = some gs.length ∧ 2 ≤ gs.length) := by
  refine ⟨parse_runs, markRun_short, ?_⟩
  intro gs i g hlen h
  have hr := markRun_get gs i g hlen h
  exact ⟨hr.1, hr.2.1, hr.2.2, by omega⟩

/-- C9 witness: the invariant applied to a one-group text, to a singleton
run, and to position 0 of a marked two-group run. -/
theorem claim_C9_witness :
    (∃ runs : List (List WordGroup), RunsOK runs ∧
      (parseFrequencyText "[WORD_GROUPS]\nfoo\n").wordGroups = (runs.map markRun).join) ∧
    markRun [⟨GroupType.plain, "", ["x"], [], 0, [], false, none, none⟩] =
      [⟨GroupType.plain, "", ["x"], [], 0, [], false, none, none⟩] ∧
    ((⟨GroupType.plain, "", ["x"], [], 0, [], true, some 0, some 2⟩ :
        WordGroup).isRelatedGroup = true ∧
      (⟨GroupType.plain, "", ["x"], [], 0, [], true, some 0, some 2⟩ :
        WordGroup).relatedGroupIndex = some 0 ∧
      (⟨GroupType.plain, "", ["x"], [], 0, [], true, some 0, some 2⟩ :
        WordGroup).relatedGroupTotal = some 2 ∧ 2 ≤ 2) :=
  ⟨claim_C9_related_run_invariant.1 "[WORD_GROUPS]\nfoo\n",
   claim_C9_related_run_invariant.2.1
     [⟨GroupType.plain, "", ["x"], [], 0, [], false, none, none⟩] (by decide),
   by
     have hr := claim_C9_related_run_invariant.2.2
       [⟨GroupType.plain, "", ["x"], [], 0, [], false, none, none⟩,
        ⟨GroupType.plain, "", ["y"], [], 1, [], false, none, none⟩] 0
       ⟨GroupType.plain, "", ["x"], [], 0, [], true, some 0, some 2⟩ (by decide) rfl
     exact hr⟩

theorem labelInner_sound : ∀ (l mid : List Char), labelInner l = some mid →
    l = mid ++ [']'] ∧ ']' ∉ mid := by
  intro l
  induction l with
  | nil => intro mid h; cases h
  | cons c rest IH =>
    intro mid h
    cases rest with
    | nil =>
      unfold labelInner at h
      by_cases hc : c = ']'
      · rw [if_pos hc] at h
        obtain rfl := Option.some.inj h
        subst hc
        exact ⟨rfl, by simp⟩
      · rw [if_neg hc] at h
        cases h
    | cons d rest' =>
      unfold labelInner at h
      by_cases hc : c = ']'
      · rw [if_pos hc] at h; cases h
      · rw [if_neg hc] at h
        cases hli : labelInner (d :: rest') with
        | none => rw [hli] at h; cases h
        | some mid' =>
          rw [hli] at h
          obtain rfl := Option.some.inj h
          obtain ⟨he, hm⟩ := IH mid' hli
          refine ⟨by rw [List.cons_append, ← he], ?_⟩
          intro hmem
          rcases List.mem_cons.mp hmem with h1 | h2
          · exact hc h1.symm
          · exact hm h2

theorem labelInner_build : ∀ (mid : List Char), ']' ∉ mid →
    labelInner (mid ++ [']']) = some mid := by
  intro mid
  induction mid with
  | nil => intro h; rfl
  | cons c mid' IH =>
    intro h
    have hc : ¬ c = ']' := fun he => h (by rw [he]; exact List.mem_cons_self _ _)
    have hm : ']' ∉ mid' := fun hmem => h (List.mem_cons_of_mem _ hmem)
    cases hME : mid' ++ [']'] with
    | nil => exact absurd hME (by simp)
    | cons d rest =>
      show labelInner (c :: (mid' ++ [']'])) = some (c :: mid')
      rw [hME]
      unfold labelInner
      rw [if_neg hc, ← hME, IH hm]
      rfl

theorem labelMatch_sound (t : String) (nm : String) (h : labelMatch t = some nm) :
    t = "[" ++ nm ++ "]" ∧ nm ≠ "" ∧ ']' ∉ nm.data := by
  unfold labelMatch at h
  cases hd : t.data with
  | nil => rw [hd] at h; cases h
  | cons c rest =>
    rw [hd] at h
    dsimp only at h
    by_cases hc : c = '['
    · rw [if_pos hc] at h
      cases hli : labelInner rest with
      | none => rw [hli] at h; cases h
      | some mid =>
        rw [hli] at h
        dsimp only at h
        by_cases hmid : mid = []
        · rw [if_pos hmid] at h; cases h
        · rw [if_neg hmid] at h
          obtain rfl := Option.some.inj h
          obtain ⟨he, hnotin⟩ := labelInner_sound rest mid hli
          refine ⟨?_, ?_, hnotin⟩
          · cases t with
            | mk td =>
              have hd2 : td = '[' :: (mid ++ [']']) := by
                have : td = c :: rest := hd
                rw [this, hc, he]
              rw [show (String.mk td = "[" ++ ⟨mid⟩ ++ "]") =
                (String.mk td = ⟨'[' :: (mid ++ [']'])⟩) from rfl, hd2]
          · intro hcon
            exact hmid (congrArg String.data hcon)
    · rw [if_neg hc] at h; cases h

theorem labelMatch_build (nm : String) (h1 : nm ≠ "") (h2 : ']' ∉ nm.data) :
    labelMatch ("[" ++ nm ++ "]") = some nm := by
  have hd : ("[" ++ nm ++ "]").data = '[' :: (nm.data ++ [']']) := by
    rw [String.data_append, String.data_append]
    rfl
  have hne : ¬ nm.data = [] := by
    intro he
    apply h1
    cases nm with
    | mk d =>
      simp only at he
      rw [he]
  unfold labelMatch
  rw [hd]
  dsimp only
  rw [if_pos rfl, labelInner_build nm.data h2]
  dsimp only
  rw [if_neg hne]

theorem isWs_ne_rb (c : Char) (h : isWsChar c = true) : c ≠ ']' := by
  intro he
  subst he
  exact absurd h (by decide)

theorem isWs_ne_eq (c : Char) (h : isWsChar c = true) : c ≠ '=' := by
  intro he
  subst he
  exact absurd h (by decide)

theorem ne_of_mem_data_not (s t : String) (c : Char) (h1 : c ∈ s.data)
    (h2 : c ∉ t.data) : s ≠ t :=
  fun he => h2 (he ▸ h1)

theorem trimList_eq_self_of (l : List Char)
    (hh : ∀ c, l.head? = some c → isWsChar c = false)
    (hl : ∀ c, l.getLast? = some c → isWsChar c = false) :
    trimList l = l := by
  unfold trimList
  cases l with
  | nil => rfl
  | cons c t =>
    rw [dropWhile_eq_self_cons isWsChar c t (hh c rfl)]
    cases hr : (c :: t).reverse with
    | nil => exact absurd hr (by simp)
    | cons d r =>
      have hd : (c :: t).getLast? = some d := by
        rw [← List.head?_reverse, hr]
        rfl
      rw [dropWhile_eq_self_cons isWsChar d r (hl d hd), ← hr, List.reverse_reverse]

theorem jsTrim_eq_self_of (s : String)
    (hh : ∀ c, s.data.head? = some c → isWsChar c = false)
    (hl : ∀ c, s.data.getLast? = some c → isWsChar c = false) :
    jsTrim s = s := by
  unfold jsTrim
  rw [trimList_eq_self_of s.data hh hl]

theorem trimList_append_ws (d suf : List Char) (h : ∀ c ∈ suf, isWsChar c = true) :
    trimList (d ++ suf) = trimList d := by
  unfold trimList
  cases hdw : d.dropWhile isWsChar with
  | nil =>
    have hall : ∀ c ∈ d, isWsChar c = true := List.dropWhile_eq_nil_iff.mp hdw
    have h2 : (d ++ suf).dropWhile isWsChar = [] := by
      rw [List.dropWhile_eq_nil_iff]
      intro x hx
      rcases List.mem_append.mp hx with h1 | h1
      · exact hall x h1
      · exact h x h1
    rw [h2]
  | cons c t =>
    have h3 : List.dropWhile isWsChar suf.reverse = [] := by
      rw [List.dropWhile_eq_nil_iff]
      intro x hx
      exact h x (List.mem_reverse.mp hx)
    rw [List.dropWhile_append, hdw, if_neg (by simp), List.reverse_append,
      List.dropWhile_append, h3, if_pos (by simp)]

theorem trimList_getLast_not_ws (d : List Char) (c : Char)
    (h : (trimList d).getLast? = some c) : isWsChar c = false := by
  have hrev : (trimList d).reverse = ((d.dropWhile isWsChar).reverse).dropWhile isWsChar := by
    unfold trimList
    rw [List.reverse_reverse]
  have hh : (trimList d).reverse.head? = some c := by
    rw [List.head?_reverse, h]
  rw [hrev] at hh
  cases hcase : ((d.dropWhile isWsChar).reverse).dropWhile isWsChar with
  | nil => rw [hcase] at hh; cases hh
  | cons x xs =>
    rw [hcase] at hh
    obtain rfl := Option.some.inj hh
    exact dropWhile_head_not isWsChar _ _ _ hcase

theorem trim_decomp (d : List Char) (hh : d.dropWhile isWsChar = d) :
    ∃ wsuf, d = trimList d ++ wsuf ∧ ∀ c ∈ wsuf, isWsChar c = true := by
  refine ⟨((d.reverse).takeWhile isWsChar).reverse, ?_, ?_⟩
  · have h1 : trimList d = ((d.reverse).dropWhile isWsChar).reverse := by
      unfold trimList
      rw [hh]
    calc d = d.reverse.reverse := (List.reverse_reverse d).symm
    _ = (List.takeWhile isWsChar d.reverse ++ List.dropWhile isWsChar d.reverse).reverse := by
        rw [List.takeWhile_append_dropWhile]
    _ = (List.dropWhile isWsChar d.reverse).reverse ++
          (List.takeWhile isWsChar d.reverse).reverse := by
        rw [List.reverse_append]
    _ = trimList d ++ (List.takeWhile isWsChar d.reverse).reverse := by rw [h1]
  · intro c hc
    exact List.mem_takeWhile_imp (List.mem_reverse.mp hc)

theorem startsWith_hash_iff (s : String) :
    strStartsWith s "#" = true ↔ ∃ t, s.data = '#' :: t := by
  constructor
  · intro h
    unfold strStartsWith at h
    cases hd : s.data with
    | nil => rw [hd] at h; cases h
    | cons c t =>
      rw [hd] at h
      have h1 : '#' = c := by
        unfold listPrefix at h
        exact (by simpa using h : '#' = c ∧ listPrefix [] t = true).1
      exact ⟨t, by rw [← h1]⟩
  · intro hex
    obtain ⟨t, ht⟩ := hex
    unfold strStartsWith
    rw [ht]
    simp [listPrefix]

theorem aliasSplit_sound : ∀ (d acc g1 g2 : List Char),
    aliasSplit acc d = some (g1, g2) →
    ∃ k : Nat, k < d.length ∧
      g1 = acc ++ d.take (k + 1) ∧
      (∃ tail, isArrowAt ((d.drop (k + 1)).dropWhile isWsChar) = some tail ∧
        g2 = tail.dropWhile isWsChar) ∧
      (∀ j : Nat, j < k → isArrowAt ((d.drop (j + 1)).dropWhile isWsChar) = none) := by
  intro d
  induction d with
  | nil => intro acc g1 g2 h; cases h
  | cons c rest IH =>
    intro acc g1 g2 h
    unfold aliasSplit at h
    cases harr : isArrowAt (rest.dropWhile isWsChar) with
    | some tail =>
      rw [harr] at h
      obtain ⟨h1, h2⟩ := Prod.mk.injEq .. ▸ Option.some.inj h
      refine ⟨0, by simp, by rw [← h1]; rfl, ⟨tail, by simpa using harr, h2.symm⟩, ?_⟩
      intro j hj
      omega
    | none =>
      rw [harr] at h
      obtain ⟨k', hk', hg1, hg2, hmin⟩ := IH (acc ++ [c]) g1 g2 h
      refine ⟨k' + 1, by simpa using Nat.succ_lt_succ hk', ?_, ?_, ?_⟩
      · rw [hg1, List.append_assoc]
        rfl
      · exact hg2
      · intro j hj
        cases j with
        | zero => simpa using harr
        | succ j' => exact hmin j' (by omega)

theorem aliasSplit_build : ∀ (d acc : List Char) (k : Nat) (tail : List Char),
    k < d.length →
    isArrowAt ((d.drop (k + 1)).dropWhile isWsChar) = some tail →
    (∀ j : Nat, j < k → isArrowAt ((d.drop (j + 1)).dropWhile isWsChar) = none) →
    aliasSplit acc d = some (acc ++ d.take (k + 1), tail.dropWhile isWsChar) := by
  intro d
  induction d with
  | nil =>
    intro acc k tail hk _ _
    exact absurd hk (by simp)
  | cons c rest IH =>
    intro acc k tail hk harr hmin
    unfold aliasSplit
    cases k with
    | zero =>
      rw [show ((c :: rest).drop 1) = rest from rfl] at harr
      rw [harr]
      rfl
    | succ k' =>
      have h0 : isArrowAt (rest.dropWhile isWsChar) = none := by
        simpa using hmin 0 (by omega)
      rw [h0]
      have hres := IH (acc ++ [c]) k' tail (by simpa using Nat.lt_of_succ_lt_succ hk)
        (by simpa using harr) (fun j hj => by simpa using hmin (j + 1) (by omega))
      rw [hres, List.append_assoc]
      rfl

theorem isArrowAt_some : ∀ (l tail : List Char), isArrowAt l = some tail →
    l = '=' :: '>' :: tail := by
  intro l tail h
  cases l with
  | nil => cases h
  | cons a l' =>
    cases l' with
    | nil => cases h
    | cons b l'' =>
      unfold isArrowAt at h
      dsimp only at h
      by_cases ha : a = '='
      · rw [if_pos ha] at h
        by_cases hb : b = '>'
        · rw [if_pos hb] at h
          obtain rfl := Option.some.inj h
          rw [ha, hb]
        · rw [if_neg hb] at h; cases h
      · rw [if_neg ha] at h; cases h

theorem getLast_append_right (X Y : List Char) (h : Y ≠ []) :
    (X ++ Y).getLast? = Y.getLast? := by
  rw [List.getLast?_append, List.getLast?_eq_getLast Y h]
  rfl

theorem getLast_drop_of_lt (l : List Char) (n : Nat) (h : n < l.length) :
    (l.drop n).getLast? = l.getLast? := by
  have hne : l.drop n ≠ [] := by
    intro he
    have := congrArg List.length he
    rw [List.length_drop] at this
    simp at this
    omega
  calc (l.drop n).getLast? = (l.take n ++ l.drop n).getLast? :=
        (getLast_append_right _ _ hne).symm
  _ = l.getLast? := by rw [List.take_append_drop]

theorem getLast?_some_mem (l : List Char) (c : Char) (h : l.getLast? = some c) : c ∈ l := by
  cases l with
  | nil => cases h
  | cons a l' =>
    have hne : a :: l' ≠ [] := by simp
    rw [List.getLast?_eq_getLast _ hne] at h
    obtain rfl := Option.some.inj h
    exact List.getLast_mem hne

theorem dropWhile_ne_nil_of_last (x : List Char)
    (hne : x ≠ []) (hl : ∀ c, x.getLast? = some c → isWsChar c = false) :
    x.dropWhile isWsChar ≠ [] := by
  intro he
  have hall := List.dropWhile_eq_nil_iff.mp he
  cases hlast : x.getLast? with
  | none =>
    cases x with
    | nil => exact hne rfl
    | cons a l' => rw [List.getLast?_eq_getLast _ (by simp)] at hlast; cases hlast
  | some c =>
    exact absurd (hall c (getLast?_some_mem x c hlast)) (by rw [hl c hlast]; simp)

theorem dropWhile_append_ne (x A : List Char) (h : x.dropWhile isWsChar ≠ []) :
    (x ++ A).dropWhile isWsChar = x.dropWhile isWsChar ++ A := by
  rw [List.dropWhile_append, if_neg]
  simpa using h


theorem aliasSplit_emitted (kwD pad alD : List Char)
    (hkwne : kwD ≠ [])
    (hkwlast : ∀ c, kwD.getLast? = some c → isWsChar c = false)
    (hpad : ∀ c ∈ pad, isWsChar c = true)
    (halhead : ∀ c, alD.head? = some c → isWsChar c = false)
    (hfree : innerArrowFree kwD) :
    aliasSplit [] (kwD ++ ' ' :: '=' :: '>' :: (pad ++ alD)) = some (kwD, alD) := by
  have hlen : 1 ≤ kwD.length := by
    cases kwD with
    | nil => exact absurd rfl hkwne
    | cons a l => simp
  have hk1 : kwD.length - 1 + 1 = kwD.length := by omega
  have hdropk : (kwD ++ ' ' :: '=' :: '>' :: (pad ++ alD)).drop (kwD.length - 1 + 1) =
      ' ' :: '=' :: '>' :: (pad ++ alD) := by
    rw [hk1, List.drop_left]
  have hdw : (' ' :: '=' :: '>' :: (pad ++ alD)).dropWhile isWsChar =
      '=' :: '>' :: (pad ++ alD) := by
    rw [List.dropWhile_cons, if_pos (by decide), List.dropWhile_cons, if_neg (by decide)]
  have harr : isArrowAt (((kwD ++ ' ' :: '=' :: '>' :: (pad ++ alD)).drop
      (kwD.length - 1 + 1)).dropWhile isWsChar) = some (pad ++ alD) := by
    rw [hdropk, hdw]
    rfl
  have hg2 : (pad ++ alD).dropWhile isWsChar = alD := by
    rw [List.dropWhile_append, if_pos (by
      simp only [List.isEmpty_iff, List.dropWhile_eq_nil_iff]
      exact hpad)]
    cases alD with
    | nil => rfl
    | cons a l => exact dropWhile_eq_self_cons isWsChar a l (halhead a rfl)
  have hmin : ∀ j : Nat, j < kwD.length - 1 →
      isArrowAt (((kwD ++ ' ' :: '=' :: '>' :: (pad ++ alD)).drop (j + 1)).dropWhile
        isWsChar) = none := by
    intro j hj
    have hxne : kwD.drop (j + 1) ≠ [] := by
      intro he
      have := congrArg List.length he
      rw [List.length_drop] at this
      simp at this
      omega
    have hxlast : ∀ c, (kwD.drop (j + 1)).getLast? = some c → isWsChar c = false := by
      intro c hc
      rw [getLast_drop_of_lt kwD (j + 1) (by omega)] at hc
      exact hkwlast c hc
    have hyne : (kwD.drop (j + 1)).dropWhile isWsChar ≠ [] :=
      dropWhile_ne_nil_of_last _ hxne hxlast
    have hsplit : (kwD ++ ' ' :: '=' :: '>' :: (pad ++ alD)).drop (j + 1) =
        kwD.drop (j + 1) ++ ' ' :: '=' :: '>' :: (pad ++ alD) :=
      List.drop_append_of_le_length (by omega)
    rw [hsplit, dropWhile_append_ne _ _ hyne]
    cases hy : (kwD.drop (j + 1)).dropWhile isWsChar with
    | nil => exact absurd hy hyne
    | cons c1 y1 =>
      cases y1 with
      | nil =>
        show isArrowAt (c1 :: ' ' :: '=' :: '>' :: (pad ++ alD)) = none
        unfold isArrowAt
        dsimp only
        by_cases hc1 : c1 = '='
        · rw [if_pos hc1, if_neg (by decide)]
        · rw [if_neg hc1]
      | cons c2 y2 =>
        show isArrowAt (c1 :: c2 :: (y2 ++ ' ' :: '=' :: '>' :: (pad ++ alD))) = none
        unfold isArrowAt
        dsimp only
        by_cases hc1 : c1 = '='
        · rw [if_pos hc1]
          by_cases hc2 : c2 = '>'
          · exfalso
            exact hfree j (by omega) y2 (by rw [hy, hc1, hc2])
          · rw [if_neg hc2]
        · rw [if_neg hc1]
  have hb := aliasSplit_build (kwD ++ ' ' :: '=' :: '>' :: (pad ++ alD)) []
    (kwD.length - 1) (pad ++ alD)
    (by rw [List.length_append]; omega) harr hmin
  rw [hb, hg2, List.nil_append, hk1, List.take_left]

theorem innerArrowFree_of (tD : List Char) (k : Nat) (kwD ws1 : List Char)
    (hk : k < tD.length)
    (hg1 : tD.take (k + 1) = kwD ++ ws1)
    (hws1 : ∀ c ∈ ws1, isWsChar c = true)
    (hmin : ∀ j : Nat, j < k → isArrowAt ((tD.drop (j + 1)).dropWhile isWsChar) = none) :
    innerArrowFree kwD := by
  intro j hj r hy
  have hlen : kwD.length + ws1.length = k + 1 := by
    have := congrArg List.length hg1
    rw [List.length_take, List.length_append] at this
    omega
  have hxne : kwD.drop (j + 1) ≠ [] := by
    intro he
    have := congrArg List.length he
    rw [List.length_drop] at this
    simp at this
    omega
  have hyne : (kwD.drop (j + 1)).dropWhile isWsChar ≠ [] := by
    rw [hy]
    simp
  have hsplit : tD.drop (j + 1) =
      kwD.drop (j + 1) ++ (ws1 ++ tD.drop (k + 1)) := by
    calc tD.drop (j + 1) = (tD.take (k + 1) ++ tD.drop (k + 1)).drop (j + 1) := by
          rw [List.take_append_drop]
    _ = (tD.take (k + 1)).drop (j + 1) ++ tD.drop (k + 1) :=
          List.drop_append_of_le_length (by rw [List.length_take]; omega)
    _ = (kwD ++ ws1).drop (j + 1) ++ tD.drop (k + 1) := by rw [hg1]
    _ = (kwD.drop (j + 1) ++ ws1) ++ tD.drop (k + 1) := by
          rw [List.drop_append_of_le_length (by omega)]
    _ = kwD.drop (j + 1) ++ (ws1 ++ tD.drop (k + 1)) := by rw [List.append_assoc]
  have harrj := hmin j (by omega)
  rw [hsplit, dropWhile_append_ne _ _ hyne, hy] at harrj
  exact absurd harrj (by
    rw [show ('=' :: '>' :: r) ++ (ws1 ++ tD.drop (k + 1)) =
      '=' :: '>' :: (r ++ (ws1 ++ tD.drop (k + 1))) from rfl]
    intro hcon
    cases (show isArrowAt ('=' :: '>' :: (r ++ (ws1 ++ tD.drop (k + 1)))) =
      some (r ++ (ws1 ++ tD.drop (k + 1))) from rfl) ▸ hcon)

theorem wrap_data (nm : String) : ("[" ++ nm ++ "]").data = '[' :: (nm.data ++ [']']) := by
  rw [String.data_append, String.data_append]
  rfl

theorem labelMatch_emitted_short (kwD : List Char) (hkwne : kwD ≠ []) :
    labelMatch ⟨kwD ++ [' ', '=', '>']⟩ = none := by
  cases hlm : labelMatch ⟨kwD ++ [' ', '=', '>']⟩ with
  | none => rfl
  | some nm =>
    exfalso
    obtain ⟨heq, _, _⟩ := labelMatch_sound _ nm hlm
    have hdata : kwD ++ [' ', '=', '>'] = '[' :: (nm.data ++ [']']) := by
      have := congrArg String.data heq
      rwa [wrap_data] at this
    have h1 : (kwD ++ [' ', '=', '>']).getLast? = some '>' := by
      rw [show kwD ++ [' ', '=', '>'] = (kwD ++ [' ', '=']) ++ ['>'] by
        simp [List.append_assoc], List.getLast?_concat]
    rw [hdata] at h1
    rw [show '[' :: (nm.data ++ [']']) = ('[' :: nm.data) ++ [']'] from rfl,
      List.getLast?_concat] at h1
    cases Option.some.inj h1

theorem labelMatch_emitted_none_of (tD kt ws1 wsM wsT alD : List Char) (c0 : Char)
    (hT : tD = (c0 :: kt) ++ (ws1 ++ (wsM ++ ('=' :: '>' :: (wsT ++ alD)))))
    (hws1 : ∀ c ∈ ws1, isWsChar c = true)
    (hwsM : ∀ c ∈ wsM, isWsChar c = true)
    (hwsT : ∀ c ∈ wsT, isWsChar c = true)
    (halne : alD ≠ [])
    (hlabt : labelMatch ⟨tD⟩ = none) :
    labelMatch ⟨(c0 :: kt) ++ ' ' :: '=' :: '>' :: ' ' :: alD⟩ = none := by
  cases hlm : labelMatch ⟨(c0 :: kt) ++ ' ' :: '=' :: '>' :: ' ' :: alD⟩ with
  | none => rfl
  | some nm =>
    exfalso
    obtain ⟨heq, _, hnm⟩ := labelMatch_sound _ nm hlm
    have hdata : (c0 :: kt) ++ ' ' :: '=' :: '>' :: ' ' :: alD =
        '[' :: (nm.data ++ [']']) := by
      have := congrArg String.data heq
      rwa [wrap_data] at this
    have hc0 : c0 = '[' := by
      have := List.head_eq_of_cons_eq (by simpa using hdata)
      exact this
    have hrest : kt ++ ' ' :: '=' :: '>' :: ' ' :: alD = nm.data ++ [']'] := by
      have := List.tail_eq_of_cons_eq (by simpa using hdata)
      exact this
    obtain ⟨aL, hal⟩ : ∃ aL, alD.getLast? = some aL := by
      cases halD : alD with
      | nil => exact absurd halD halne
      | cons a l => exact ⟨(a :: l).getLast (by simp), List.getLast?_eq_getLast _ (by simp)⟩
    have halsplit : alD = alD.dropLast ++ [aL] := (List.dropLast_append_getLast? aL hal).symm
    have hrest2 : (kt ++ ' ' :: '=' :: '>' :: ' ' :: alD.dropLast) ++ [aL] =
        nm.data ++ [']'] := by
      rw [← hrest]
      conv_lhs => rw [List.append_assoc]
      conv_rhs => rw [halsplit]
      simp [List.append_assoc]
    have haL : aL = ']' := by
      have h1 := congrArg List.getLast? hrest2
      rw [List.getLast?_concat, List.getLast?_concat] at h1
      exact Option.some.inj h1
    have hmid : kt ++ ' ' :: '=' :: '>' :: ' ' :: alD.dropLast = nm.data :=
      List.append_cancel_right (haL ▸ hrest2)
    have hktrb : ']' ∉ kt := by
      intro hmem
      exact absurd (hmid ▸ List.mem_append_left _ hmem) hnm
    have halrb : ']' ∉ alD.dropLast := by
      intro hmem
      apply hnm
      rw [← hmid]
      apply List.mem_append_right
      simp [hmem]
    have hmidT : ']' ∉ kt ++ (ws1 ++ (wsM ++ ('=' :: '>' :: (wsT ++ alD.dropLast)))) := by
      intro hmem
      rcases List.mem_append.mp hmem with h | h
      · exact hktrb h
      rcases List.mem_append.mp h with h | h
      · exact absurd rfl (isWs_ne_rb _ (hws1 _ h)).symm
      rcases List.mem_append.mp h with h | h
      · exact absurd rfl (isWs_ne_rb _ (hwsM _ h)).symm
      rcases List.mem_cons.mp h with h | h
      · cases h
      rcases List.mem_cons.mp h with h | h
      · cases h
      rcases List.mem_append.mp h with h | h
      · exact absurd rfl (isWs_ne_rb _ (hwsT _ h)).symm
      · exact halrb h
    have hmidne : kt ++ (ws1 ++ (wsM ++ ('=' :: '>' :: (wsT ++ alD.dropLast)))) ≠ [] := by
      intro he
      have : ('=' : Char) ∈ kt ++ (ws1 ++ (wsM ++ ('=' :: '>' :: (wsT ++ alD.dropLast)))) := by
        apply List.mem_append_right
        apply List.mem_append_right
        apply List.mem_append_right
        exact List.mem_cons_self _ _
      rw [he] at this
      cases this
    have htD : tD = '[' :: ((kt ++ (ws1 ++ (wsM ++ ('=' :: '>' :: (wsT ++ alD.dropLast))))) ++ [']']) := by
      rw [hT, hc0]
      conv_lhs => rw [halsplit, haL]
      simp [List.append_assoc]
    have hbuild := labelMatch_build ⟨kt ++ (ws1 ++ (wsM ++ ('=' :: '>' :: (wsT ++ alD.dropLast))))⟩
      (by
        intro hcon
        exact hmidne (congrArg String.data hcon))
      hmidT
    have hstr : (⟨tD⟩ : String) =
        "[" ++ ⟨kt ++ (ws1 ++ (wsM ++ ('=' :: '>' :: (wsT ++ alD.dropLast))))⟩ ++ "]" := by
      have hdd : tD =
          ("[" ++ ⟨kt ++ (ws1 ++ (wsM ++ ('=' :: '>' :: (wsT ++ alD.dropLast))))⟩ ++ "]").data := by
        rw [wrap_data, htD]
      rw [hdd]
    rw [hstr, hbuild] at hlabt
    cases hlabt

theorem mk_ne_empty_of_ne_nil (l : List Char) (h : l ≠ []) : (⟨l⟩ : String) ≠ "" := by
  intro he
  exact h (congrArg String.data he)

theorem aliasRebuild (t : String) (g1d g2d : List Char)
    (hs : aliasSplit [] t.data = some (g1d, g2d))
    (htr : trimList t.data = t.data)
    (hne : t.data ≠ [])
    (hhash : strStartsWith t "#" = false)
    (hlab : labelMatch t = none) :
    AIOK ⟨⟨trimList g1d⟩, ⟨g2d⟩⟩ ∧ trimList g2d = g2d := by
  obtain ⟨k, hk, hg1, ⟨tail, harrS, hg2⟩, hmin⟩ := aliasSplit_sound t.data [] g1d g2d hs
  rw [List.nil_append] at hg1
  obtain ⟨c0, t0, hd0⟩ : ∃ c0 t0, t.data = c0 :: t0 := by
    cases hcc : t.data with
    | nil => exact absurd hcc hne
    | cons a b => exact ⟨a, b, rfl⟩
  have hc0ws : isWsChar c0 = false := trimList_head_not_ws t.data c0 t0 (by rw [htr]; exact hd0)
  have hc0hash : c0 ≠ '#' := by
    intro he
    rw [(startsWith_hash_iff t).mpr ⟨t0, by rw [hd0, he]⟩] at hhash
    cases hhash
  have hg1cons : g1d = c0 :: t0.take k := by rw [hg1, hd0, List.take_succ_cons]
  have hg1drop : g1d.dropWhile isWsChar = g1d := by
    rw [hg1cons]
    exact dropWhile_eq_self_cons _ _ _ hc0ws
  obtain ⟨ws1, hws1eq, hws1⟩ := trim_decomp g1d hg1drop
  have hkwne : trimList g1d ≠ [] := by
    intro h0
    rw [h0, List.nil_append] at hws1eq
    have hcw : isWsChar c0 = true := hws1 c0 (by rw [← hws1eq, hg1cons]; exact List.mem_cons_self _ _)
    rw [hc0ws] at hcw
    cases hcw
  obtain ⟨kt, hkt⟩ : ∃ kt, trimList g1d = c0 :: kt := by
    cases hkk : trimList g1d with
    | nil => exact absurd hkk hkwne
    | cons c1 kt =>
      refine ⟨kt, ?_⟩
      have hcc : c1 :: (kt ++ ws1) = c0 :: t0.take k := by
        rw [← List.cons_append, ← hkk, ← hws1eq, hg1cons]
      rw [List.head_eq_of_cons_eq hcc]
  have hkwlast : ∀ c, (trimList g1d).getLast? = some c → isWsChar c = false :=
    fun c hc => trimList_getLast_not_ws g1d c hc
  have harr' : (t.data.drop (k + 1)).dropWhile isWsChar = '=' :: '>' :: tail :=
    isArrowAt_some _ _ harrS
  have htake : t.data.take (k + 1) = trimList g1d ++ ws1 := by
    rw [← hg1]
    exact hws1eq
  have hT : t.data = trimList g1d ++ (ws1 ++ ((t.data.drop (k + 1)).takeWhile isWsChar ++
      ('=' :: '>' :: (tail.takeWhile isWsChar ++ g2d)))) := by
    calc t.data = g1d ++ t.data.drop (k + 1) := by
          rw [hg1]
          exact (List.take_append_drop _ _).symm
    _ = (trimList g1d ++ ws1) ++ t.data.drop (k + 1) := by rw [← hws1eq]
    _ = (trimList g1d ++ ws1) ++ ((t.data.drop (k + 1)).takeWhile isWsChar ++
          ((t.data.drop (k + 1)).dropWhile isWsChar)) := by
          rw [List.takeWhile_append_dropWhile]
    _ = (trimList g1d ++ ws1) ++ ((t.data.drop (k + 1)).takeWhile isWsChar ++
          ('=' :: '>' :: tail)) := by rw [harr']
    _ = (trimList g1d ++ ws1) ++ ((t.data.drop (k + 1)).takeWhile isWsChar ++
          ('=' :: '>' :: (tail.takeWhile isWsChar ++ tail.dropWhile isWsChar))) := by
          rw [List.takeWhile_append_dropWhile]
    _ = (trimList g1d ++ ws1) ++ ((t.data.drop (k + 1)).takeWhile isWsChar ++
          ('=' :: '>' :: (tail.takeWhile isWsChar ++ g2d))) := by rw [← hg2]
    _ = _ := by rw [List.append_assoc]
  have hwsM : ∀ c ∈ (t.data.drop (k + 1)).takeWhile isWsChar, isWsChar c = true :=
    fun c hc => List.mem_takeWhile_imp hc
  have hwsT : ∀ c ∈ tail.takeWhile isWsChar, isWsChar c = true :=
    fun c hc => List.mem_takeWhile_imp hc
  have hg2head : ∀ c, g2d.head? = some c → isWsChar c = false := by
    intro c hc
    cases hgg : g2d with
    | nil => rw [hgg] at hc; cases hc
    | cons a l =>
      rw [hgg] at hc
      obtain rfl := Option.some.inj hc
      exact dropWhile_head_not isWsChar tail a l (by rw [← hg2, hgg])
  have hg2last : ∀ c, g2d.getLast? = some c → isWsChar c = false := by
    intro c hc
    have hg2ne : g2d ≠ [] := by
      intro he
      rw [he] at hc
      cases hc
    have hz3 : tail.takeWhile isWsChar ++ g2d ≠ [] := by
      intro he
      rcases List.append_eq_nil.mp he with ⟨_, h2⟩
      exact hg2ne h2
    have h1 : t.data.getLast? = g2d.getLast? := by
      rw [hT]
      rw [getLast_append_right _ _ (by simp)]
      rw [getLast_append_right _ _ (by simp)]
      rw [getLast_append_right _ _ (by simp)]
      rw [show ('=' :: '>' :: (tail.takeWhile isWsChar ++ g2d)) =
        ['=', '>'] ++ (tail.takeWhile isWsChar ++ g2d) from rfl]
      rw [getLast_append_right _ _ hz3]
      rw [getLast_append_right _ _ hg2ne]
    exact trimList_getLast_not_ws t.data c (by rw [htr, h1]; exact hc)
  have hg2trim : trimList g2d = g2d := trimList_eq_self_of g2d hg2head hg2last
  have hfree : innerArrowFree (trimList g1d) := innerArrowFree_of t.data k _ ws1 hk htake hws1 hmin
  have hkwtrim : trimList (trimList g1d) = trimList g1d := trimList_idem g1d
  refine ⟨?_, hg2trim⟩
  by_cases hal : g2d = []
  · -- empty alias value: the emitted line is `kw => ` and trims to `kw =>`
    have heD : ((⟨trimList g1d⟩ : String) ++ " => " ++ ⟨g2d⟩).data =
        (trimList g1d ++ [' ', '=', '>']) ++ [' '] := by
      rw [hal, String.data_append, String.data_append]
      show trimList g1d ++ [' ', '=', '>', ' '] ++ [] = _
      simp [List.append_assoc]
    have htrE : jsTrim ((⟨trimList g1d⟩ : String) ++ " => " ++ ⟨g2d⟩) =
        ⟨trimList g1d ++ [' ', '=', '>']⟩ := by
      unfold jsTrim
      rw [heD, trimList_append_ws _ [' '] (by intro c hc; rcases List.mem_singleton.mp hc with rfl; decide)]
      rw [trimList_eq_self_of (trimList g1d ++ [' ', '=', '>'])
        (by
          intro c hc
          rw [hkt, List.head?_append_of_ne_nil _ (by simp)] at hc
          obtain rfl := Option.some.inj hc
          exact hc0ws)
        (by
          intro c hc
          rw [show trimList g1d ++ [' ', '=', '>'] = (trimList g1d ++ [' ', '=']) ++ ['>'] by
            simp [List.append_assoc], List.getLast?_concat] at hc
          obtain rfl := Option.some.inj hc
          decide)]
    unfold AIOK
    rw [htrE]
    refine ⟨?_, ?_, ?_, ?_, ?_, ?_, ?_, ?_⟩
    · show jsTrim ⟨trimList g1d⟩ = ⟨trimList g1d⟩
      unfold jsTrim
      rw [show (⟨trimList g1d⟩ : String).data = trimList g1d from rfl, hkwtrim]
    · show jsTrim ⟨g2d⟩ = ⟨g2d⟩
      unfold jsTrim
      rw [show (⟨g2d⟩ : String).data = g2d from rfl, hg2trim]
    · exact mk_ne_empty_of_ne_nil _ (by simp)
    · cases hsw : strStartsWith ⟨trimList g1d ++ [' ', '=', '>']⟩ "#" with
      | false => rfl
      | true =>
        exfalso
        obtain ⟨t', ht'⟩ := (startsWith_hash_iff _).mp hsw
        rw [show (⟨trimList g1d ++ [' ', '=', '>']⟩ : String).data =
          trimList g1d ++ [' ', '=', '>'] from rfl, hkt] at ht'
        exact hc0hash (List.head_eq_of_cons_eq ht')
    · exact ne_of_mem_data_not _ _ '='
        (by exact List.mem_append_right _ (by decide)) (by decide)
    · exact ne_of_mem_data_not _ _ '='
        (by exact List.mem_append_right _ (by decide)) (by decide)
    · exact labelMatch_emitted_short _ hkwne
    · show aliasMatch ⟨trimList g1d ++ [' ', '=', '>']⟩ = some (⟨trimList g1d⟩, ⟨g2d⟩)
      unfold aliasMatch
      have hsp := aliasSplit_emitted (trimList g1d) [] [] hkwne hkwlast
        (by intro c hc; cases hc) (by intro c hc; cases hc) hfree
      rw [show trimList g1d ++ ' ' :: '=' :: '>' :: ([] ++ []) =
        trimList g1d ++ [' ', '=', '>'] from rfl] at hsp
      rw [show (⟨trimList g1d ++ [' ', '=', '>']⟩ : String).data =
        trimList g1d ++ [' ', '=', '>'] from rfl, hsp, hal]
  · -- non-empty alias value: the emitted line is already trimmed
    have heD : ((⟨trimList g1d⟩ : String) ++ " => " ++ ⟨g2d⟩).data =
        trimList g1d ++ ' ' :: '=' :: '>' :: ' ' :: g2d := by
      rw [String.data_append, String.data_append]
      show trimList g1d ++ [' ', '=', '>', ' '] ++ g2d = _
      simp [List.append_assoc]
    have htrE : jsTrim ((⟨trimList g1d⟩ : String) ++ " => " ++ ⟨g2d⟩) =
        ⟨trimList g1d ++ ' ' :: '=' :: '>' :: ' ' :: g2d⟩ := by
      unfold jsTrim
      rw [heD]
      rw [trimList_eq_self_of (trimList g1d ++ ' ' :: '=' :: '>' :: ' ' :: g2d)
        (by
          intro c hc
          rw [hkt, List.head?_append_of_ne_nil _ (by simp)] at hc
          obtain rfl := Option.some.inj hc
          exact hc0ws)
        (by
          intro c hc
          rw [show trimList g1d ++ ' ' :: '=' :: '>' :: ' ' :: g2d =
            (trimList g1d ++ [' ', '=', '>', ' ']) ++ g2d by simp [List.append_assoc],
            getLast_append_right _ _ hal] at hc
          exact hg2last c hc)]
    unfold AIOK
    rw [htrE]
    refine ⟨?_, ?_, ?_, ?_, ?_, ?_, ?_, ?_⟩
    · show jsTrim ⟨trimList g1d⟩ = ⟨trimList g1d⟩
      unfold jsTrim
      rw [show (⟨trimList g1d⟩ : String).data = trimList g1d from rfl, hkwtrim]
    · show jsTrim ⟨g2d⟩ = ⟨g2d⟩
      unfold jsTrim
      rw [show (⟨g2d⟩ : String).data = g2d from rfl, hg2trim]
    · exact mk_ne_empty_of_ne_nil _ (by simp)
    · cases hsw : strStartsWith ⟨trimList g1d ++ ' ' :: '=' :: '>' :: ' ' :: g2d⟩ "#" with
      | false => rfl
      | true =>
        exfalso
        obtain ⟨t', ht'⟩ := (startsWith_hash_iff _).mp hsw
        rw [show (⟨trimList g1d ++ ' ' :: '=' :: '>' :: ' ' :: g2d⟩ : String).data =
          trimList g1d ++ ' ' :: '=' :: '>' :: ' ' :: g2d from rfl, hkt] at ht'
        exact hc0hash (List.head_eq_of_cons_eq ht')
    · exact ne_of_mem_data_not _ _ '='
        (by exact List.mem_append_right _ (by simp)) (by decide)
    · exact ne_of_mem_data_not _ _ '='
        (by exact List.mem_append_right _ (by simp)) (by decide)
    · have hres := labelMatch_emitted_none_of t.data kt ws1
        ((t.data.drop (k + 1)).takeWhile isWsChar) (tail.takeWhile isWsChar) g2d c0
        (by rw [← hkt]; exact hT) hws1 hwsM hwsT hal
        (by
          show labelMatch ⟨t.data⟩ = none
          exact hlab)
      rw [← hkt] at hres
      exact hres
    · show aliasMatch ⟨trimList g1d ++ ' ' :: '=' :: '>' :: ' ' :: g2d⟩ =
        some (⟨trimList g1d⟩, ⟨g2d⟩)
      unfold aliasMatch
      have hsp := aliasSplit_emitted (trimList g1d) [' '] g2d hkwne hkwlast
        (by intro c hc; rcases List.mem_singleton.mp hc with rfl; decide) hg2head hfree
      rw [show trimList g1d ++ ' ' :: '=' :: '>' :: ([' '] ++ g2d) =
        trimList g1d ++ ' ' :: '=' :: '>' :: ' ' :: g2d from rfl] at hsp
      rw [show (⟨trimList g1d ++ ' ' :: '=' :: '>' :: ' ' :: g2d⟩ : String).data =
        trimList g1d ++ ' ' :: '=' :: '>' :: ' ' :: g2d from rfl, hsp]

theorem gtype_enum (g : WordGroup) :
    aliasish g ∨ g.gtype = GroupType.plain ∨ g.gtype = GroupType.groupName := by
  rcases hg : g.gtype with h1 | h1 | h1 | h1
  · exact Or.inr (Or.inr rfl)
  · exact Or.inl (Or.inl hg)
  · exact Or.inl (Or.inr hg)
  · exact Or.inr (Or.inl rfl)

theorem chainPair_congr_right (a g ng : WordGroup) (hsk : SameKind g ng)
    (h : ChainPair a g) : ChainPair a ng := by
  obtain ⟨h1, h2, _, _⟩ := hsk
  rcases h with ⟨ha, hb⟩ | ⟨ha, hb⟩
  · exact Or.inl ⟨h1.mp ha, hb⟩
  · exact Or.inr ⟨h2.mp ha, hb⟩

theorem chainPair_congr_left (g ng b : WordGroup) (hsk : SameKind g ng)
    (h : ChainPair g b) : ChainPair ng b := by
  obtain ⟨h1, h2, h3, _⟩ := hsk
  rcases h with ⟨ha, hb⟩ | ⟨ha, hb⟩
  · refine Or.inl ⟨ha, ?_⟩
    rcases hb with hb | hb
    · exact Or.inl (h2.mp hb)
    · exact Or.inr (h3.mp hb)
  · exact Or.inr ⟨ha, h1.mp hb⟩

theorem midOK_congr (g ng : WordGroup) (hsk : SameKind g ng) (h : MidOK g) : MidOK ng := by
  obtain ⟨_, _, h3, h4⟩ := hsk
  refine ⟨fun hc => h.1 (h3.mpr hc), ?_⟩
  rw [← h4]
  exact h.2

theorem boundHead_congr (g ng : WordGroup) (hsk : SameKind g ng) (h : BoundHead g) :
    BoundHead ng := by
  obtain ⟨_, _, h3, h4⟩ := hsk
  rcases h with h | h
  · exact Or.inl (h3.mp h)
  · exact Or.inr (h4 ▸ h)

theorem chainedFrom_update_last : ∀ (buf : List WordGroup) (h g ng : WordGroup),
    SameKind g ng → ChainedFrom h (buf ++ [g]) → ChainedFrom h (buf ++ [ng]) := by
  intro buf
  induction buf with
  | nil =>
    intro h g ng hsk hc
    obtain ⟨h1, h2, _⟩ := hc
    exact ⟨chainPair_congr_right h g ng hsk h1, midOK_congr g ng hsk h2, trivial⟩
  | cons b bs IH =>
    intro h g ng hsk hc
    obtain ⟨h1, h2, h3⟩ := hc
    exact ⟨h1, h2, IH b g ng hsk h3⟩

theorem getLast_append_right' {α : Type} (X Y : List α) (h : Y ≠ []) :
    (X ++ Y).getLast? = Y.getLast? := by
  rw [List.getLast?_append, List.getLast?_eq_getLast Y h]
  rfl

theorem chainedFrom_last : ∀ (t : List WordGroup) (h : WordGroup),
    ChainedFrom h t → ∀ g, (h :: t).getLast? = some g →
    ∀ ng, ChainPair g ng → MidOK ng → ChainedFrom h (t ++ [ng]) := by
  intro t
  induction t with
  | nil =>
    intro h _ g hg ng hcp hmid
    have : g = h := by
      rw [show ([h] : List WordGroup).getLast? = some h from rfl] at hg
      exact (Option.some.inj hg).symm
    subst this
    exact ⟨hcp, hmid, trivial⟩
  | cons b bs IH =>
    intro h hc g hg ng hcp hmid
    obtain ⟨h1, h2, h3⟩ := hc
    refine ⟨h1, h2, IH b h3 g ?_ ng hcp hmid⟩
    rw [← hg]
    rw [show (h :: b :: bs : List WordGroup) = [h] ++ (b :: bs) from rfl]
    exact (getLast_append_right' _ _ (by simp)).symm


theorem partGood_update_last (P : Prop) : ∀ (buf : List WordGroup) (g ng : WordGroup),
    SameKind g ng → PartGood P (buf ++ [g]) → PartGood P (buf ++ [ng]) := by
  intro buf g ng hsk hpg
  cases buf with
  | nil =>
    obtain ⟨_, hb⟩ := hpg
    exact ⟨trivial, fun hp => boundHead_congr g ng hsk (hb hp)⟩
  | cons b bs =>
    obtain ⟨hch, hb⟩ := hpg
    exact ⟨chainedFrom_update_last bs b g ng hsk hch, hb⟩

theorem partGood_snoc (P : Prop) (part : List WordGroup) (ng : WordGroup)
    (hpg : PartGood P part)
    (hcp : ∀ g, part.getLast? = some g → ChainPair g ng)
    (hmid : MidOK ng)
    (hne : part ≠ []) :
    PartGood P (part ++ [ng]) := by
  cases part with
  | nil => exact absurd rfl hne
  | cons h t =>
    obtain ⟨hch, hb⟩ := hpg
    obtain ⟨g, hg⟩ : ∃ g, (h :: t).getLast? = some g :=
      ⟨(h :: t).getLast (by simp), List.getLast?_eq_getLast _ (by simp)⟩
    exact ⟨chainedFrom_last t h hch g hg ng (hcp g hg) hmid, hb⟩

theorem flushAll_eq (st : ParseSt) :
    flushBuf (pushCur st) = { st with
      wordGroups := st.wordGroups ++ markRun (st.buffer ++ curList st.currentGroup)
      buffer := []
      currentGroup := none } := by
  cases st with
  | mk gf wg cs cg la buf pend ln =>
    cases cg with
    | none =>
      show flushBuf (pushCur ⟨gf, wg, cs, none, la, buf, pend, ln⟩) = _
      unfold pushCur flushBuf curList
      dsimp only
      rw [List.append_nil]
    | some g =>
      show flushBuf (pushCur ⟨gf, wg, cs, some g, la, buf, pend, ln⟩) = _
      unfold pushCur flushBuf curList
      dsimp only

theorem runsGood_snoc (runs : List (List WordGroup)) (part : List WordGroup)
    (hrg : RunsGood runs) (hrw : RunWF part) (hhb : runs ≠ [] → headBound part) :
    RunsGood (runs ++ [part]) := by
  obtain ⟨h1, h2⟩ := hrg
  refine ⟨?_, ?_⟩
  · intro r hr
    rcases List.mem_append.mp hr with h | h
    · exact h1 r h
    · rcases List.mem_singleton.mp h with rfl
      exact hrw
  · cases runs with
    | nil =>
      intro r hr
      simp at hr
    | cons x xs =>
      intro r hr
      rw [show ((x :: xs) ++ [part]).drop 1 = xs ++ [part] from rfl] at hr
      rcases List.mem_append.mp hr with h | h
      · exact h2 r h
      · rcases List.mem_singleton.mp h with rfl
        exact hhb (by simp)

theorem join_markRun_snoc (runs : List (List WordGroup)) (part : List WordGroup) :
    ((runs ++ [part]).map markRun).join = (runs.map markRun).join ++ markRun part := by
  simp [List.map_append, List.join_append]

theorem ginv_comment (G0 : List String) (st : ParseSt) (line : String)
    (hInv : GInv G0 st) (hcm : strStartsWith (jsTrim line) "#" = true) :
    GInv G0 { st with pending := st.pending ++ [line], lineNo := st.lineNo + 1 } := by
  obtain ⟨hsect, hgf, hpend, hpendcur, hcurbuf, hlast, runs, hrg, hwg, hbp, hpw, hpg⟩ := hInv
  refine ⟨hsect, hgf, ?_, ?_, hcurbuf, hlast, runs, hrg, hwg, ?_, hpw, hpg⟩
  · intro c hc
    rcases List.mem_append.mp hc with h | h
    · exact hpend c h
    · rcases List.mem_singleton.mp h with rfl
      exact Or.inl hcm
  · intro hmem
    rcases List.mem_append.mp hmem with h | h
    · exact hpendcur h
    · rcases List.mem_singleton.mp h with heq
      rw [← heq] at hcm
      exact absurd hcm (by decide)
  · intro hh
    exact List.mem_append_left _ (hbp hh)

theorem ginv_blank (G0 : List String) (st : ParseSt) (hInv : GInv G0 st) :
    GInv G0 { st with
      wordGroups := st.wordGroups ++ markRun (st.buffer ++ curList st.currentGroup)
      buffer := []
      currentGroup := none
      lastLineWasAlias := false
      pending := st.pending ++ [""]
      lineNo := st.lineNo + 1 } := by
  obtain ⟨hsect, hgf, hpend, hpendcur, hcurbuf, hlast, runs, hrg, hwg, hbp, hpw, hpg⟩ := hInv
  refine ⟨hsect, hgf, ?_, ?_, fun _ => rfl, ?_, ?_⟩
  · intro c hc
    rcases List.mem_append.mp hc with h | h
    · exact hpend c h
    · rcases List.mem_singleton.mp h with rfl
      exact Or.inr rfl
  · intro _
    rfl
  · intro g hg hal
    cases hg
  · by_cases hne : st.buffer ++ curList st.currentGroup = []
    · refine ⟨runs, hrg, ?_, ?_, ?_, ?_⟩
      · show st.wordGroups ++ markRun (st.buffer ++ curList st.currentGroup) = _
        rw [hne, markRun_short [] (by simp), List.append_nil, hwg]
      · intro _
        exact List.mem_append_right _ (List.mem_singleton.mpr rfl)
      · intro x hx
        rw [hne] at hx
        rcases List.mem_append.mp hx with h | h
        · cases h
        · cases h
      · show PartGood _ ([] ++ curList none)
        exact trivial
    · refine ⟨runs ++ [st.buffer ++ curList st.currentGroup], ?_, ?_, ?_, ?_, ?_⟩
      · apply runsGood_snoc runs _ hrg ?_ ?_
        · cases hpart : st.buffer ++ curList st.currentGroup with
          | nil => exact absurd hpart hne
          | cons h t =>
            refine ⟨?_, ?_⟩
            · rw [← hpart]
              exact hpw
            · have := hpg
              rw [hpart] at this
              exact this.1
        · intro hrne
          cases hpart : st.buffer ++ curList st.currentGroup with
          | nil => exact absurd hpart hne
          | cons h t =>
            show BoundHead h
            have := hpg
            rw [hpart] at this
            exact this.2 hrne
      · show st.wordGroups ++ markRun (st.buffer ++ curList st.currentGroup) = _
        rw [join_markRun_snoc, hwg]
      · intro _
        exact List.mem_append_right _ (List.mem_singleton.mpr rfl)
      · intro x hx
        rcases List.mem_append.mp hx with h | h
        · cases h
        · cases h
      · show PartGood _ ([] ++ curList none)
        exact trivial

theorem ginv_label (G0 : List String) (st : ParseSt) (nm : String)
    (hInv : GInv G0 st) (hname : NameOK nm) :
    GInv G0 { st with
      wordGroups := st.wordGroups ++ markRun (st.buffer ++ curList st.currentGroup)
      buffer := []
      currentGroup := some { gtype := GroupType.groupName
                             name := nm
                             startLine := st.lineNo
                             precedingComments := st.pending }
      lastLineWasAlias := false
      pending := []
      lineNo := st.lineNo + 1 } := by
  obtain ⟨hsect, hgf, hpend, hpendcur, hcurbuf, hlast, runs, hrg, hwg, hbp, hpw, hpg⟩ := hInv
  refine ⟨hsect, hgf, fun c hc => absurd hc (by simp), fun h => absurd h (by simp),
    fun h => rfl, ?_, ?_⟩
  · intro g hg hal
    obtain rfl := Option.some.inj hg
    rcases hal with h | h
    · cases h
    · cases h
  · have hngwf : GroupWF (⟨GroupType.groupName, nm, [], [], st.lineNo, st.pending,
        false, none, none⟩ : WordGroup) ∧
        FreshG (⟨GroupType.groupName, nm, [], [], st.lineNo, st.pending,
        false, none, none⟩ : WordGroup) := by
      refine ⟨⟨hpend, Or.inl ⟨rfl, hname, ?_, rfl⟩⟩, rfl, rfl, rfl⟩
      intro w hw
      cases hw
    by_cases hne : st.buffer ++ curList st.currentGroup = []
    · refine ⟨runs, hrg, ?_, ?_, ?_, ?_⟩
      · show st.wordGroups ++ markRun (st.buffer ++ curList st.currentGroup) = _
        rw [hne, markRun_short [] (by simp), List.append_nil, hwg]
      · intro hcon
        exact absurd hcon.1 (by simp)
      · intro x hx
        rcases List.mem_append.mp hx with h | h
        · cases h
        · rcases List.mem_singleton.mp h with rfl
          exact hngwf
      · show PartGood _ ([] ++ curList (some _))
        exact ⟨trivial, fun _ => Or.inl rfl⟩
    · refine ⟨runs ++ [st.buffer ++ curList st.currentGroup], ?_, ?_, ?_, ?_, ?_⟩
      · apply runsGood_snoc runs _ hrg ?_ ?_
        · cases hpart : st.buffer ++ curList st.currentGroup with
          | nil => exact absurd hpart hne
          | cons h t =>
            refine ⟨?_, ?_⟩
            · rw [← hpart]
              exact hpw
            · have := hpg
              rw [hpart] at this
              exact this.1
        · intro hrne
          cases hpart : st.buffer ++ curList st.currentGroup with
          | nil => exact absurd hpart hne
          | cons h t =>
            show BoundHead h
            have := hpg
            rw [hpart] at this
            exact this.2 hrne
      · show st.wordGroups ++ markRun (st.buffer ++ curList st.currentGroup) = _
        rw [join_markRun_snoc, hwg]
      · intro hcon
        exact absurd hcon.1 (by simp)
      · intro x hx
        rcases List.mem_append.mp hx with h | h
        · cases h
        · rcases List.mem_singleton.mp h with rfl
          exact hngwf
      · show PartGood _ ([] ++ curList (some _))
        exact ⟨trivial, fun _ => Or.inl rfl⟩

theorem ginv_alias_join (G0 : List String) (st : ParseSt) (g : WordGroup) (it : AliasItem)
    (hInv : GInv G0 st) (hcur : st.currentGroup = some g)
    (halg : g.gtype = GroupType.alias1 ∨ g.gtype = GroupType.aliasGroup)
    (hit : AIOK it) :
    GInv G0 { st with
      currentGroup := some { g with
        gtype := if g.gtype = GroupType.alias1 then GroupType.aliasGroup else g.gtype
        items := g.items ++ [it] }
      lastLineWasAlias := true
      lineNo := st.lineNo + 1 } := by
  obtain ⟨hsect, hgf, hpend, hpendcur, hcurbuf, hlast, runs, hrg, hwg, hbp, hpw, hpg⟩ := hInv
  have hgmem : g ∈ st.buffer ++ curList st.currentGroup := by
    rw [hcur]
    exact List.mem_append_right _ (List.mem_singleton.mpr rfl)
  obtain ⟨⟨hgc, hgd⟩, hgfr⟩ := hpw g hgmem
  have hngwf : GroupWF { g with
      gtype := if g.gtype = GroupType.alias1 then GroupType.aliasGroup else g.gtype
      items := g.items ++ [it] } := by
    refine ⟨hgc, ?_⟩
    rcases halg with h1 | h1
    · rcases hgd with ⟨h2, _⟩ | ⟨h2, _⟩ | ⟨_, h2, h3, h4, h5⟩ | ⟨h2, _⟩
      · rw [h1] at h2; cases h2
      · rw [h1] at h2; cases h2
      · refine Or.inr (Or.inr (Or.inr ⟨by simp [h1], ?_, ?_, h4, h5⟩))
        · rw [List.length_append, h2]
          simp
        · intro x hx
          rcases List.mem_append.mp hx with h | h
          · exact h3 x h
          · rcases List.mem_singleton.mp h with rfl
            exact hit
      · rw [h1] at h2; cases h2
    · rcases hgd with ⟨h2, _⟩ | ⟨h2, _⟩ | ⟨h2, _⟩ | ⟨_, h2, h3, h4, h5⟩
      · rw [h1] at h2; cases h2
      · rw [h1] at h2; cases h2
      · rw [h1] at h2; cases h2
      · refine Or.inr (Or.inr (Or.inr ⟨?_, ?_, ?_, h4, h5⟩))
        · show (if g.gtype = GroupType.alias1 then GroupType.aliasGroup else g.gtype) =
            GroupType.aliasGroup
          rw [if_neg (by rw [h1]; intro hcc; cases hcc), h1]
        · rw [List.length_append]
          omega
        · intro x hx
          rcases List.mem_append.mp hx with h | h
          · exact h3 x h
          · rcases List.mem_singleton.mp h with rfl
            exact hit
  have hsk : SameKind g { g with
      gtype := if g.gtype = GroupType.alias1 then GroupType.aliasGroup else g.gtype
      items := g.items ++ [it] } := by
    refine ⟨?_, ?_, ?_, rfl⟩
    · constructor
      · intro _
        show (if g.gtype = GroupType.alias1 then GroupType.aliasGroup else g.gtype) =
            GroupType.alias1 ∨ _ = GroupType.aliasGroup
        rcases halg with h1 | h1
        · exact Or.inr (by rw [if_pos h1])
        · exact Or.inr (by rw [if_neg (by rw [h1]; intro hcc; cases hcc), h1])
      · intro _
        exact halg
    · constructor
      · intro h2
        rcases halg with h1 | h1 <;> (rw [h1] at h2; cases h2)
      · intro h2
        exfalso
        rcases halg with h1 | h1
        · rw [show (if g.gtype = GroupType.alias1 then GroupType.aliasGroup else g.gtype) =
            GroupType.aliasGroup by rw [if_pos h1]] at h2
          cases h2
        · rw [show (if g.gtype = GroupType.alias1 then GroupType.aliasGroup else g.gtype) =
            g.gtype by rw [if_neg (by rw [h1]; intro hcc; cases hcc)], h1] at h2
          cases h2
    · constructor
      · intro h2
        rcases halg with h1 | h1 <;> (rw [h1] at h2; cases h2)
      · intro h2
        exfalso
        rcases halg with h1 | h1
        · rw [show (if g.gtype = GroupType.alias1 then GroupType.aliasGroup else g.gtype) =
            GroupType.aliasGroup by rw [if_pos h1]] at h2
          cases h2
        · rw [show (if g.gtype = GroupType.alias1 then GroupType.aliasGroup else g.gtype) =
            g.gtype by rw [if_neg (by rw [h1]; intro hcc; cases hcc)], h1] at h2
          cases h2
  refine ⟨hsect, hgf, hpend, ?_, ?_, ?_, runs, hrg, hwg, ?_, ?_, ?_⟩
  · intro h
    rw [hpendcur h] at hcur
    cases hcur
  · intro h
    cases h
  · intro g' hg' hal
    rfl
  · intro hcon
    obtain ⟨h1, _⟩ := hcon
    cases h1
  · intro x hx
    rcases List.mem_append.mp hx with h | h
    · exact hpw x (List.mem_append_left _ h)
    · rcases List.mem_singleton.mp h with rfl
      exact ⟨hngwf, hgfr⟩
  · have hpg2 : PartGood (runs ≠ []) (st.buffer ++ [g]) := by
      rw [hcur] at hpg
      exact hpg
    exact partGood_update_last _ st.buffer g _ hsk hpg2

theorem pending_no_blank (st : ParseSt) (g : WordGroup)
    (hpc : "" ∈ st.pending → st.currentGroup = none) (hcur : st.currentGroup = some g)
    (hpend : ∀ c ∈ st.pending, CommentOK c) :
    ∀ c ∈ st.pending, strStartsWith (jsTrim c) "#" = true := by
  intro c hc
  rcases hpend c hc with h | h
  · exact h
  · subst h
    rw [hpc hc] at hcur
    cases hcur

theorem ginv_alias_new_some (G0 : List String) (st : ParseSt) (g : WordGroup) (it : AliasItem)
    (hInv : GInv G0 st) (hcur : st.currentGroup = some g)
    (hnal : ¬ aliasish g)
    (hit : AIOK it) :
    GInv G0 { st with
      buffer := st.buffer ++ [g]
      currentGroup := some (⟨GroupType.alias1, "", [], [it], st.lineNo, st.pending,
        false, none, none⟩ : WordGroup)
      pending := []
      lastLineWasAlias := true
      lineNo := st.lineNo + 1 } := by
  obtain ⟨hsect, hgf, hpend, hpendcur, hcurbuf, hlast, runs, hrg, hwg, hbp, hpw, hpg⟩ := hInv
  have hngwf : GroupWF (⟨GroupType.alias1, "", [], [it], st.lineNo, st.pending,
      false, none, none⟩ : WordGroup) := by
    refine ⟨hpend, Or.inr (Or.inr (Or.inl ⟨rfl, rfl, ?_, rfl, rfl⟩))⟩
    intro x hx
    rcases List.mem_singleton.mp hx with rfl
    exact hit
  refine ⟨hsect, hgf, ?_, ?_, ?_, ?_, runs, hrg, hwg, ?_, ?_, ?_⟩
  · intro c hc
    cases hc
  · intro h
    cases h
  · intro h
    cases h
  · intro g' hg' _
    rfl
  · intro hcon
    obtain ⟨h1, _⟩ := hcon
    cases h1
  · intro x hx
    rcases List.mem_append.mp hx with h | h
    · rcases List.mem_append.mp h with h2 | h2
      · exact hpw x (List.mem_append_left _ h2)
      · rcases List.mem_singleton.mp h2 with rfl
        apply hpw
        rw [hcur]
        exact List.mem_append_right _ (List.mem_singleton.mpr rfl)
    · rcases List.mem_singleton.mp h with rfl
      exact ⟨hngwf, rfl, rfl, rfl⟩
  · have hpg2 : PartGood (runs ≠ []) (st.buffer ++ [g]) := by
      rw [hcur] at hpg
      exact hpg
    apply partGood_snoc _ _ _ hpg2 ?_ ?_ (by simp)
    · intro g' hg'
      rw [getLast_append_right' _ _ (by simp)] at hg'
      rw [show ([g] : List WordGroup).getLast? = some g from rfl] at hg'
      obtain rfl := Option.some.inj hg'
      refine Or.inl ⟨Or.inl rfl, ?_⟩
      rcases gtype_enum g with h | h | h
      · exact absurd h hnal
      · exact Or.inl h
      · exact Or.inr h
    · exact ⟨(by intro h; cases h), pending_no_blank st g hpendcur hcur hpend⟩

theorem ginv_alias_new_none (G0 : List String) (st : ParseSt) (it : AliasItem)
    (hInv : GInv G0 st) (hcur : st.currentGroup = none)
    (hit : AIOK it) :
    GInv G0 { st with
      currentGroup := some (⟨GroupType.alias1, "", [], [it], st.lineNo, st.pending,
        false, none, none⟩ : WordGroup)
      pending := []
      lastLineWasAlias := true
      lineNo := st.lineNo + 1 } := by
  obtain ⟨hsect, hgf, hpend, hpendcur, hcurbuf, hlast, runs, hrg, hwg, hbp, hpw, hpg⟩ := hInv
  have hbuf : st.buffer = [] := hcurbuf hcur
  have hngwf : GroupWF (⟨GroupType.alias1, "", [], [it], st.lineNo, st.pending,
      false, none, none⟩ : WordGroup) := by
    refine ⟨hpend, Or.inr (Or.inr (Or.inl ⟨rfl, rfl, ?_, rfl, rfl⟩))⟩
    intro x hx
    rcases List.mem_singleton.mp hx with rfl
    exact hit
  refine ⟨hsect, hgf, ?_, ?_, ?_, ?_, runs, hrg, hwg, ?_, ?_, ?_⟩
  · intro c hc
    cases hc
  · intro h
    cases h
  · intro h
    cases h
  · intro g' hg' _
    rfl
  · intro hcon
    obtain ⟨h1, _⟩ := hcon
    cases h1
  · intro x hx
    rw [hbuf] at hx
    rcases List.mem_singleton.mp hx with rfl
    exact ⟨hngwf, rfl, rfl, rfl⟩
  · show PartGood (runs ≠ []) (st.buffer ++ [_])
    rw [hbuf, List.nil_append]
    refine ⟨trivial, ?_⟩
    intro hrne
    exact Or.inr (hbp ⟨hcur, hrne⟩)

theorem ginv_plain_append (G0 : List String) (st : ParseSt) (g : WordGroup) (w : String)
    (hInv : GInv G0 st) (hcur : st.currentGroup = some g)
    (hgt : g.gtype = GroupType.plain ∨ g.gtype = GroupType.groupName)
    (hkw : KWOK w) :
    GInv G0 { st with
      currentGroup := some { g with keywords := g.keywords ++ [w] }
      lastLineWasAlias := false
      lineNo := st.lineNo + 1 } := by
  obtain ⟨hsect, hgf, hpend, hpendcur, hcurbuf, hlast, runs, hrg, hwg, hbp, hpw, hpg⟩ := hInv
  have hgmem : g ∈ st.buffer ++ curList st.currentGroup := by
    rw [hcur]
    exact List.mem_append_right _ (List.mem_singleton.mpr rfl)
  obtain ⟨⟨hgc, hgd⟩, hgfr⟩ := hpw g hgmem
  have hngwf : GroupWF { g with keywords := g.keywords ++ [w] } := by
    refine ⟨hgc, ?_⟩
    rcases hgt with h1 | h1
    · rcases hgd with ⟨h2, _⟩ | ⟨_, _, h3, h4, h5⟩ | ⟨h2, _⟩ | ⟨h2, _⟩
      · rw [h1] at h2; cases h2
      · refine Or.inr (Or.inl ⟨h1, by simp, ?_, h4, h5⟩)
        intro x hx
        rcases List.mem_append.mp hx with h | h
        · exact h3 x h
        · rcases List.mem_singleton.mp h with rfl
          exact hkw
      · rw [h1] at h2; cases h2
      · rw [h1] at h2; cases h2
    · rcases hgd with ⟨_, h2, h3, h4⟩ | ⟨h2, _⟩ | ⟨h2, _⟩ | ⟨h2, _⟩
      · refine Or.inl ⟨h1, h2, ?_, h4⟩
        intro x hx
        rcases List.mem_append.mp hx with h | h
        · exact h3 x h
        · rcases List.mem_singleton.mp h with rfl
          exact hkw
      · rw [h1] at h2; cases h2
      · rw [h1] at h2; cases h2
      · rw [h1] at h2; cases h2
  have hsk : SameKind g { g with keywords := g.keywords ++ [w] } :=
    ⟨Iff.rfl, Iff.rfl, Iff.rfl, rfl⟩
  refine ⟨hsect, hgf, hpend, ?_, ?_, ?_, runs, hrg, hwg, ?_, ?_, ?_⟩
  · intro h
    rw [hpendcur h] at hcur
    cases hcur
  · intro h
    cases h
  · intro g' hg' hal
    obtain rfl := Option.some.inj hg'
    exfalso
    rcases hal with h | h <;> (rcases hgt with h2 | h2 <;> (rw [h2] at h; cases h))
  · intro hcon
    obtain ⟨h1, _⟩ := hcon
    cases h1
  · intro x hx
    rcases List.mem_append.mp hx with h | h
    · exact hpw x (List.mem_append_left _ h)
    · rcases List.mem_singleton.mp h with rfl
      exact ⟨hngwf, hgfr⟩
  · have hpg2 : PartGood (runs ≠ []) (st.buffer ++ [g]) := by
      rw [hcur] at hpg
      exact hpg
    exact partGood_update_last _ st.buffer g _ hsk hpg2

theorem ginv_plain_new_some (G0 : List String) (st : ParseSt) (g : WordGroup) (w : String)
    (hInv : GInv G0 st) (hcur : st.currentGroup = some g)
    (halg : aliasish g)
    (hkw : KWOK w) :
    GInv G0 { st with
      buffer := st.buffer ++ [g]
      currentGroup := some (⟨GroupType.plain, "", [w], [], st.lineNo, st.pending,
        false, none, none⟩ : WordGroup)
      pending := []
      lastLineWasAlias := false
      lineNo := st.lineNo + 1 } := by
  obtain ⟨hsect, hgf, hpend, hpendcur, hcurbuf, hlast, runs, hrg, hwg, hbp, hpw, hpg⟩ := hInv
  have hngwf : GroupWF (⟨GroupType.plain, "", [w], [], st.lineNo, st.pending,
      false, none, none⟩ : WordGroup) := by
    refine ⟨hpend, Or.inr (Or.inl ⟨rfl, by simp, ?_, rfl, rfl⟩)⟩
    intro x hx
    rcases List.mem_singleton.mp hx with rfl
    exact hkw
  refine ⟨hsect, hgf, ?_, ?_, ?_, ?_, runs, hrg, hwg, ?_, ?_, ?_⟩
  · intro c hc
    cases hc
  · intro h
    cases h
  · intro h
    cases h
  · intro g' hg' hal
    obtain rfl := Option.some.inj hg'
    exfalso
    rcases hal with h | h <;> cases h
  · intro hcon
    obtain ⟨h1, _⟩ := hcon
    cases h1
  · intro x hx
    rcases List.mem_append.mp hx with h | h
    · rcases List.mem_append.mp h with h2 | h2
      · exact hpw x (List.mem_append_left _ h2)
      · rcases List.mem_singleton.mp h2 with rfl
        apply hpw
        rw [hcur]
        exact List.mem_append_right _ (List.mem_singleton.mpr rfl)
    · rcases List.mem_singleton.mp h with rfl
      exact ⟨hngwf, rfl, rfl, rfl⟩
  · have hpg2 : PartGood (runs ≠ []) (st.buffer ++ [g]) := by
      rw [hcur] at hpg
      exact hpg
    apply partGood_snoc _ _ _ hpg2 ?_ ?_ (by simp)
    · intro g' hg'
      rw [getLast_append_right' _ _ (by simp)] at hg'
      rw [show ([g] : List WordGroup).getLast? = some g from rfl] at hg'
      obtain rfl := Option.some.inj hg'
      exact Or.inr ⟨rfl, halg⟩
    · exact ⟨(by intro h; cases h), pending_no_blank st g hpendcur hcur hpend⟩

theorem ginv_plain_new_none (G0 : List String) (st : ParseSt) (w : String)
    (hInv : GInv G0 st) (hcur : st.currentGroup = none)
    (hkw : KWOK w) :
    GInv G0 { st with
      currentGroup := some (⟨GroupType.plain, "", [w], [], st.lineNo, st.pending,
        false, none, none⟩ : WordGroup)
      pending := []
      lastLineWasAlias := false
      lineNo := st.lineNo + 1 } := by
  obtain ⟨hsect, hgf, hpend, hpendcur, hcurbuf, hlast, runs, hrg, hwg, hbp, hpw, hpg⟩ := hInv
  have hbuf : st.buffer = [] := hcurbuf hcur
  have hngwf : GroupWF (⟨GroupType.plain, "", [w], [], st.lineNo, st.pending,
      false, none, none⟩ : WordGroup) := by
    refine ⟨hpend, Or.inr (Or.inl ⟨rfl, by simp, ?_, rfl, rfl⟩)⟩
    intro x hx
    rcases List.mem_singleton.mp hx with rfl
    exact hkw
  refine ⟨hsect, hgf, ?_, ?_, ?_, ?_, runs, hrg, hwg, ?_, ?_, ?_⟩
  · intro c hc
    cases hc
  · intro h
    cases h
  · intro h
    cases h
  · intro g' hg' hal
    obtain rfl := Option.some.inj hg'
    exfalso
    rcases hal with h | h <;> cases h
  · intro hcon
    obtain ⟨h1, _⟩ := hcon
    cases h1
  · intro x hx
    rw [hbuf] at hx
    rcases List.mem_singleton.mp hx with rfl
    exact ⟨hngwf, rfl, rfl, rfl⟩
  · show PartGood (runs ≠ []) (st.buffer ++ [_])
    rw [hbuf, List.nil_append]
    refine ⟨trivial, ?_⟩
    intro hrne
    exact Or.inr (hbp ⟨hcur, hrne⟩)

theorem data_ne_nil_of_ne_empty (t : String) (h : t ≠ "") : t.data ≠ [] := by
  intro hd
  apply h
  cases t with
  | mk d =>
    simp only at hd
    rw [hd]

theorem freqStepAP_ginv (G0 : List String) (st : ParseSt) (t : String)
    (hInv : GInv G0 st)
    (hts : jsTrim t = t) (hne : t ≠ "")
    (hhash : strStartsWith t "#" = false)
    (hm1 : t ≠ "[GLOBAL_FILTER]") (hm2 : t ≠ "[WORD_GROUPS]")
    (hlab : labelMatch t = none) :
    GInv G0 (freqStepAP st t) := by
  unfold freqStepAP
  cases ham : aliasMatch t with
  | some p =>
    obtain ⟨g1, g2⟩ := p
    have hsplit : aliasSplit [] t.data = some (g1.data, g2.data) := by
      unfold aliasMatch at ham
      cases has : aliasSplit [] t.data with
      | none => rw [has] at ham; cases ham
      | some q =>
        obtain ⟨a, b⟩ := q
        rw [has] at ham
        dsimp only at ham
        obtain ⟨h1, h2⟩ := Prod.mk.injEq .. ▸ Option.some.inj ham
        rw [← h1, ← h2]
    obtain ⟨hA, hg2t⟩ := aliasRebuild t g1.data g2.data hsplit
      (congrArg String.data hts) (data_ne_nil_of_ne_empty t hne) hhash hlab
    have hitem : (⟨jsTrim g1, jsTrim g2⟩ : AliasItem) = ⟨⟨trimList g1.data⟩, ⟨g2.data⟩⟩ := by
      show (⟨⟨trimList g1.data⟩, ⟨trimList g2.data⟩⟩ : AliasItem) = _
      rw [hg2t]
    have hAIOK : AIOK ⟨jsTrim g1, jsTrim g2⟩ := by
      rw [hitem]
      exact hA
    cases hcur : st.currentGroup with
    | some g =>
      dsimp only
      by_cases hjoin : st.lastLineWasAlias = true ∧
          (g.gtype = GroupType.alias1 ∨ g.gtype = GroupType.aliasGroup)
      · rw [if_pos hjoin]
        exact ginv_alias_join G0 st g ⟨jsTrim g1, jsTrim g2⟩ hInv hcur hjoin.2 hAIOK
      · rw [if_neg hjoin]
        have hnal : ¬ aliasish g := by
          intro hal
          exact hjoin ⟨hInv.2.2.2.2.2.1 g hcur hal, hal⟩
        have hps : pushCur st = { st with buffer := st.buffer ++ [g], currentGroup := none } := by
          unfold pushCur
          rw [hcur]
        rw [hps]
        exact ginv_alias_new_some G0 st g ⟨jsTrim g1, jsTrim g2⟩ hInv hcur hnal hAIOK
    | none =>
      dsimp only
      exact ginv_alias_new_none G0 st ⟨jsTrim g1, jsTrim g2⟩ hInv hcur hAIOK
  | none =>
    have hkw : KWOK t := ⟨hts, hne, hhash, hm1, hm2, hlab, ham⟩
    cases hcur : st.currentGroup with
    | some g =>
      dsimp only
      by_cases halg : aliasish g
      · have hbool : (g.gtype == GroupType.alias1 || g.gtype == GroupType.aliasGroup) = true := by
          rcases halg with h | h <;> simp [h]
        rw [hbool, if_pos rfl]
        have hps : pushCur st = { st with buffer := st.buffer ++ [g], currentGroup := none } := by
          unfold pushCur
          rw [hcur]
        rw [hps]
        exact ginv_plain_new_some G0 st g t hInv hcur halg hkw
      · have hbool : (g.gtype == GroupType.alias1 || g.gtype == GroupType.aliasGroup) = false := by
          rcases gtype_enum g with h | h | h
          · exact absurd h halg
          · simp [h]
          · simp [h]
        rw [hbool, if_neg (by simp)]
        have hgt : g.gtype = GroupType.plain ∨ g.gtype = GroupType.groupName := by
          rcases gtype_enum g with h | h | h
          · exact absurd h halg
          · exact Or.inl h
          · exact Or.inr h
        exact ginv_plain_append G0 st g t hInv hcur hgt hkw
    | none =>
      rw [if_pos rfl]
      have hps : pushCur st = st := by
        unfold pushCur
        rw [hcur]
      rw [hps]
      exact ginv_plain_new_none G0 st t hInv hcur hkw

theorem freqStep_ginv (G0 : List String) (st : ParseSt) (l : String)
    (hInv : GInv G0 st)
    (hl1 : jsTrim l ≠ "[GLOBAL_FILTER]") (hl2 : jsTrim l ≠ "[WORD_GROUPS]") :
    GInv G0 (freqStep st l) := by
  have hsect := hInv.1
  unfold freqStep
  by_cases h1 : strStartsWith (jsTrim l) "#" = true
  · rw [if_pos h1, if_pos hsect]
    exact ginv_comment G0 st l hInv h1
  · rw [if_neg h1]
    by_cases h2 : jsTrim l = ""
    · rw [if_pos h2]
      rw [flushAll_eq st]
      rw [if_pos (show ({ st with
          wordGroups := st.wordGroups ++ markRun (st.buffer ++ curList st.currentGroup)
          buffer := []
          currentGroup := none } : ParseSt).currentSection = FreqSection.groupsSect from hsect)]
      exact ginv_blank G0 st hInv
    · rw [if_neg h2]
      rw [if_neg hl1, if_neg hl2]
      rw [if_neg (show ¬ st.currentSection = FreqSection.globalSect by
        rw [hsect]; intro hcc; cases hcc)]
      rw [if_pos hsect]
      cases hlm : labelMatch (jsTrim l) with
      | some nm =>
        dsimp only
        obtain ⟨hlval, hnmne, hnmrb⟩ := labelMatch_sound _ nm hlm
        by_cases h7 : nm ≠ "GLOBAL_FILTER" ∧ nm ≠ "WORD_GROUPS"
        · rw [if_pos h7]
          rw [flushAll_eq st]
          exact ginv_label G0 st nm hInv ⟨hnmne, hnmrb, h7.1, h7.2⟩
        · exfalso
          rcases not_and_or.mp h7 with h | h
          · rw [not_ne_iff.mp h] at hlval
            exact hl1 (by rw [hlval]; rfl)
          · rw [not_ne_iff.mp h] at hlval
            exact hl2 (by rw [hlval]; rfl)
      | none =>
        exact freqStepAP_ginv G0 st (jsTrim l) hInv (jsTrim_idem l) h2
          (Bool.not_eq_true _ ▸ h1 : strStartsWith (jsTrim l) "#" = false) hl1 hl2 hlm

theorem ginv_init (G0 : List String) (n : Nat) :
    GInv G0 ⟨G0, [], FreqSection.groupsSect, none, false, [], [], n⟩ := by
  refine ⟨rfl, rfl, ?_, ?_, fun _ => rfl, ?_, [], ⟨?_, ?_⟩, rfl, ?_, ?_, trivial⟩
  · intro c hc
    cases hc
  · intro h
    cases h
  · intro g hg
    cases hg
  · intro r hr
    cases hr
  · intro r hr
    cases hr
  · intro hcon
    exact absurd rfl hcon.2
  · intro x hx
    cases hx

theorem foldl_ginv (G0 : List String) : ∀ (ls : List String) (st : ParseSt),
    GInv G0 st →
    (∀ x ∈ ls, jsTrim x ≠ "[GLOBAL_FILTER]" ∧ jsTrim x ≠ "[WORD_GROUPS]") →
    GInv G0 (ls.foldl freqStep st) := by
  intro ls
  induction ls with
  | nil => intro st h _; exact h
  | cons l ls IH =>
    intro st h hls
    have hl := hls l (List.mem_cons_self _ _)
    exact IH (freqStep st l) (freqStep_ginv G0 st l h hl.1 hl.2)
      (fun x hx => hls x (List.mem_cons_of_mem _ hx))

theorem noSect_step (gf : List String) (n : Nat) (l : String)
    (hl1 : jsTrim l ≠ "[GLOBAL_FILTER]") (hl2 : jsTrim l ≠ "[WORD_GROUPS]") :
    freqStep ⟨gf, [], FreqSection.noSect, none, false, [], [], n⟩ l =
      ⟨gf, [], FreqSection.noSect, none, false, [], [], n + 1⟩ := by
  unfold freqStep
  by_cases h1 : strStartsWith (jsTrim l) "#" = true
  · rw [if_pos h1, if_neg (by intro h; cases h)]
  · rw [if_neg h1]
    by_cases h2 : jsTrim l = ""
    · rw [if_pos h2]
      rfl
    · rw [if_neg h2, if_neg hl1, if_neg hl2, if_neg (by intro h; cases h),
        if_neg (by intro h; cases h)]

theorem noSect_fold : ∀ (ls : List String) (gf : List String) (n : Nat),
    (∀ x ∈ ls, jsTrim x ≠ "[GLOBAL_FILTER]" ∧ jsTrim x ≠ "[WORD_GROUPS]") →
    ls.foldl freqStep ⟨gf, [], FreqSection.noSect, none, false, [], [], n⟩ =
      ⟨gf, [], FreqSection.noSect, none, false, [], [], n + ls.length⟩ := by
  intro ls
  induction ls with
  | nil => intro gf n _; rfl
  | cons l ls IH =>
    intro gf n hls
    have hl := hls l (List.mem_cons_self _ _)
    show List.foldl freqStep (freqStep _ l) ls = _
    rw [noSect_step gf n l hl.1 hl.2, IH gf (n + 1) (fun x hx => hls x (List.mem_cons_of_mem _ hx))]
    congr 1
    rw [List.length_cons]
    omega

theorem globalSect_fold : ∀ (ls : List String) (gf : List String) (n : Nat),
    (∀ x ∈ ls, jsTrim x ≠ "[GLOBAL_FILTER]" ∧ jsTrim x ≠ "[WORD_GROUPS]") →
    ∃ gf2 : List String,
      ls.foldl freqStep ⟨gf, [], FreqSection.globalSect, none, false, [], [], n⟩ =
        ⟨gf ++ gf2, [], FreqSection.globalSect, none, false, [], [], n + ls.length⟩ ∧
      ∀ w ∈ gf2, GfOK w := by
  intro ls
  induction ls with
  | nil =>
    intro gf n _
    refine ⟨[], ?_, ?_⟩
    · rw [List.append_nil]
      rfl
    · intro w hw
      cases hw
  | cons l ls IH =>
    intro gf n hls
    have hl := hls l (List.mem_cons_self _ _)
    show ∃ gf2, List.foldl freqStep (freqStep _ l) ls = _ ∧ _
    by_cases h1 : strStartsWith (jsTrim l) "#" = true
    · have hstep : freqStep ⟨gf, [], FreqSection.globalSect, none, false, [], [], n⟩ l =
          ⟨gf, [], FreqSection.globalSect, none, false, [], [], n + 1⟩ := by
        unfold freqStep
        rw [if_pos h1, if_neg (by intro h; cases h)]
      rw [hstep]
      obtain ⟨gf2, hfold, hok⟩ := IH gf (n + 1) (fun x hx => hls x (List.mem_cons_of_mem _ hx))
      refine ⟨gf2, ?_, hok⟩
      rw [hfold]
      congr 1
      rw [List.length_cons]
      omega
    · by_cases h2 : jsTrim l = ""
      · have hstep : freqStep ⟨gf, [], FreqSection.globalSect, none, false, [], [], n⟩ l =
            ⟨gf, [], FreqSection.globalSect, none, false, [], [], n + 1⟩ := by
          unfold freqStep
          rw [if_neg h1, if_pos h2]
          rfl
        rw [hstep]
        obtain ⟨gf2, hfold, hok⟩ := IH gf (n + 1) (fun x hx => hls x (List.mem_cons_of_mem _ hx))
        refine ⟨gf2, ?_, hok⟩
        rw [hfold]
        congr 1
        rw [List.length_cons]
        omega
      · have hstep : freqStep ⟨gf, [], FreqSection.globalSect, none, false, [], [], n⟩ l =
            ⟨gf ++ [jsTrim l], [], FreqSection.globalSect, none, false, [], [], n + 1⟩ := by
          unfold freqStep
          rw [if_neg h1, if_neg h2, if_neg hl.1, if_neg hl.2, if_pos rfl]
        rw [hstep]
        obtain ⟨gf2, hfold, hok⟩ := IH (gf ++ [jsTrim l]) (n + 1)
          (fun x hx => hls x (List.mem_cons_of_mem _ hx))
        refine ⟨[jsTrim l] ++ gf2, ?_, ?_⟩
        · rw [hfold, ← List.append_assoc]
          congr 1
          rw [List.length_cons]
          omega
        · intro w hw
          rcases List.mem_append.mp hw with h | h
          · rcases List.mem_singleton.mp h with rfl
            exact ⟨jsTrim_idem l, h2, Bool.not_eq_true _ ▸ h1, hl.1, hl.2⟩
          · exact hok w h

theorem gfMarker_step (st : ParseSt) (l : String) (hl : jsTrim l = "[GLOBAL_FILTER]") :
    freqStep st l = { st with currentSection := FreqSection.globalSect
                              lineNo := st.lineNo + 1 } := by
  unfold freqStep
  rw [hl]
  rw [if_neg (by decide), if_neg (by decide), if_pos rfl]

theorem wgMarker_step (st : ParseSt) (l : String) (hl : jsTrim l = "[WORD_GROUPS]") :
    freqStep st l = { st with currentSection := FreqSection.groupsSect
                              lineNo := st.lineNo + 1 } := by
  unfold freqStep
  rw [hl]
  rw [if_neg (by decide), if_neg (by decide), if_neg (by decide), if_pos rfl]

theorem ginv_flush_runs (G0 : List String) (st : ParseSt) (hInv : GInv G0 st) :
    ∃ runs : List (List WordGroup), RunsGood runs ∧
      (flushBuf (pushCur st)).wordGroups = (runs.map markRun).join ∧
      (flushBuf (pushCur st)).globalFilter = G0 := by
  obtain ⟨hsect, hgf, hpend, hpendcur, hcurbuf, hlast, runs, hrg, hwg, hbp, hpw, hpg⟩ := hInv
  rw [flushAll_eq st]
  by_cases hne : st.buffer ++ curList st.currentGroup = []
  · refine ⟨runs, hrg, ?_, hgf⟩
    show st.wordGroups ++ markRun (st.buffer ++ curList st.currentGroup) = _
    rw [hne, markRun_short [] (by simp), List.append_nil, hwg]
  · refine ⟨runs ++ [st.buffer ++ curList st.currentGroup], ?_, ?_, hgf⟩
    · apply runsGood_snoc runs _ hrg ?_ ?_
      · cases hpart : st.buffer ++ curList st.currentGroup with
        | nil => exact absurd hpart hne
        | cons h t =>
          refine ⟨?_, ?_⟩
          · rw [← hpart]
            exact hpw
          · have := hpg
            rw [hpart] at this
            exact this.1
      · intro hrne
        cases hpart : st.buffer ++ curList st.currentGroup with
        | nil => exact absurd hpart hne
        | cons h t =>
          show BoundHead h
          have := hpg
          rw [hpart] at this
          exact this.2 hrne
    · show st.wordGroups ++ markRun (st.buffer ++ curList st.currentGroup) = _
      rw [join_markRun_snoc, hwg]

theorem parse_valid_struct (T : String) (hval : ValidRuleText T) :
    ∃ (G : List String) (runs : List (List WordGroup)),
      (parseFrequencyText T).globalFilter = G ∧
      (∀ w ∈ G, GfOK w) ∧
      RunsGood runs ∧
      (parseFrequencyText T).wordGroups = (runs.map markRun).join := by
  obtain ⟨pre, gfL, gbody, wgL, wbody, hsplit, hgfL, hwgL, hnom⟩ := hval
  have hnomPre : ∀ l ∈ pre, jsTrim l ≠ "[GLOBAL_FILTER]" ∧ jsTrim l ≠ "[WORD_GROUPS]" :=
    fun l hl => hnom l (List.mem_append_left _ (List.mem_append_left _ hl))
  have hnomG : ∀ l ∈ gbody, jsTrim l ≠ "[GLOBAL_FILTER]" ∧ jsTrim l ≠ "[WORD_GROUPS]" :=
    fun l hl => hnom l (List.mem_append_left _ (List.mem_append_right _ hl))
  have hnomW : ∀ l ∈ wbody, jsTrim l ≠ "[GLOBAL_FILTER]" ∧ jsTrim l ≠ "[WORD_GROUPS]" :=
    fun l hl => hnom l (List.mem_append_right _ hl)
  have hstep1 : (jsSplitLines T).foldl freqStep initParseSt =
      wbody.foldl freqStep
        (freqStep
          (gbody.foldl freqStep
            (freqStep (pre.foldl freqStep initParseSt) gfL))
          wgL) := by
    rw [hsplit]
    rw [List.foldl_append, List.foldl_append, List.foldl_append, List.foldl_append]
    rfl
  have h1 : pre.foldl freqStep initParseSt =
      ⟨[], [], FreqSection.noSect, none, false, [], [], 0 + pre.length⟩ :=
    noSect_fold pre [] 0 hnomPre
  have h2 : freqStep (pre.foldl freqStep initParseSt) gfL =
      ⟨[], [], FreqSection.globalSect, none, false, [], [], 0 + pre.length + 1⟩ := by
    rw [h1, gfMarker_step _ gfL hgfL]
  obtain ⟨G2, h3, hG2⟩ := globalSect_fold gbody [] (0 + pre.length + 1) hnomG
  have h4 : freqStep (gbody.foldl freqStep
      (freqStep (pre.foldl freqStep initParseSt) gfL)) wgL =
      ⟨[] ++ G2, [], FreqSection.groupsSect, none, false, [], [],
        0 + pre.length + 1 + gbody.length + 1⟩ := by
    rw [h2, h3, wgMarker_step _ wgL hwgL]
  have hInv : GInv ([] ++ G2) ((jsSplitLines T).foldl freqStep initParseSt) := by
    rw [hstep1, h4]
    exact foldl_ginv ([] ++ G2) wbody _ (ginv_init ([] ++ G2) _) hnomW
  obtain ⟨runs, hrg, hwg, hgf⟩ := ginv_flush_runs ([] ++ G2) _ hInv
  refine ⟨[] ++ G2, runs, hgf, ?_, hrg, hwg⟩
  intro w hw
  exact hG2 w (by simpa using hw)

theorem comment_step_groups (st : ParseSt) (c : String)
    (hsect : st.currentSection = FreqSection.groupsSect)
    (hcm : strStartsWith (jsTrim c) "#" = true) :
    freqStep st c = { st with pending := st.pending ++ [c], lineNo := st.lineNo + 1 } := by
  unfold freqStep
  rw [if_pos hcm, if_pos hsect]

theorem blank_step_groups (st : ParseSt)
    (hsect : st.currentSection = FreqSection.groupsSect) :
    freqStep st "" = { st with
      wordGroups := st.wordGroups ++ markRun (st.buffer ++ curList st.currentGroup)
      buffer := []
      currentGroup := none
      lastLineWasAlias := false
      pending := st.pending ++ [""]
      lineNo := st.lineNo + 1 } := by
  unfold freqStep
  rw [show jsTrim "" = "" from rfl]
  rw [if_neg (by decide), if_pos rfl, flushAll_eq st, if_pos hsect]

theorem comments_fold : ∀ (cs : List String) (st : ParseSt),
    st.currentSection = FreqSection.groupsSect →
    (∀ c ∈ cs, CommentOK c) →
    cs.foldl freqStep st =
      { st with
        wordGroups := if "" ∈ cs then
            st.wordGroups ++ markRun (st.buffer ++ curList st.currentGroup)
          else st.wordGroups
        buffer := if "" ∈ cs then [] else st.buffer
        currentGroup := if "" ∈ cs then none else st.currentGroup
        lastLineWasAlias := if "" ∈ cs then false else st.lastLineWasAlias
        pending := st.pending ++ cs
        lineNo := st.lineNo + cs.length } := by
  intro cs
  induction cs with
  | nil =>
    intro st hsect _
    simp only [List.mem_nil_iff, if_neg (fun h => h)]
    rw [List.append_nil]
    rfl
  | cons c cs IH =>
    intro st hsect hok
    show List.foldl freqStep (freqStep st c) cs = _
    rcases hok c (List.mem_cons_self _ _) with hcm | hbl
    · have hcne : c ≠ "" := by
        intro he
        rw [he] at hcm
        exact absurd hcm (by decide)
      rw [comment_step_groups st c hsect hcm]
      rw [IH { st with pending := st.pending ++ [c], lineNo := st.lineNo + 1 }
        hsect (fun x hx => hok x (List.mem_cons_of_mem _ hx))]
      have hmem : ("" ∈ c :: cs) ↔ ("" ∈ cs) := by
        constructor
        · intro h
          rcases List.mem_cons.mp h with h | h
          · exact absurd h.symm hcne
          · exact h
        · intro h
          exact List.mem_cons_of_mem _ h
      simp only [hmem]
      by_cases hin : "" ∈ cs
      · simp only [if_pos hin, List.append_assoc, List.singleton_append, List.length_cons]
        congr 1
        omega
      · simp only [if_neg hin, List.append_assoc, List.singleton_append, List.length_cons]
        congr 1
        omega
    · subst hbl
      rw [blank_step_groups st hsect]
      rw [IH { st with
        wordGroups := st.wordGroups ++ markRun (st.buffer ++ curList st.currentGroup)
        buffer := []
        currentGroup := none
        lastLineWasAlias := false
        pending := st.pending ++ [""]
        lineNo := st.lineNo + 1 } hsect (fun x hx => hok x (List.mem_cons_of_mem _ hx))]
      have hm1 : ("" ∈ "" :: cs) := List.mem_cons_self _ _
      by_cases hin : "" ∈ cs
      · simp only [if_pos hin, if_pos hm1, List.append_assoc, List.singleton_append,
          List.length_cons]
        rw [show curList (none : Option WordGroup) = [] from rfl, List.append_nil,
          markRun_short [] (by simp), List.append_nil]
        congr 1
        omega
      · simp only [if_pos hm1, if_neg hin, List.append_assoc, List.singleton_append,
          List.length_cons]
        congr 1
        omega

theorem freqStep_to_AP (st : ParseSt) (w : String)
    (hsect : st.currentSection = FreqSection.groupsSect)
    (hts : jsTrim w = w) (hne : w ≠ "") (hhash : strStartsWith w "#" = false)
    (hgf : w ≠ "[GLOBAL_FILTER]") (hwg : w ≠ "[WORD_GROUPS]")
    (hlab : labelMatch w = none) :
    freqStep st w = freqStepAP st w := by
  unfold freqStep
  rw [hts]
  dsimp only
  rw [hhash]
  rw [if_neg (by simp), if_neg hne, if_neg hgf, if_neg hwg,
    if_neg (by rw [hsect]; intro h; cases h), if_pos hsect, hlab]

theorem keyword_step_append (st : ParseSt) (g : WordGroup) (w : String)
    (hsect : st.currentSection = FreqSection.groupsSect)
    (hcur : st.currentGroup = some g)
    (hgt : g.gtype = GroupType.plain ∨ g.gtype = GroupType.groupName)
    (hkw : KWOK w) :
    freqStep st w = { st with
      currentGroup := some { g with keywords := g.keywords ++ [w] }
      lastLineWasAlias := false
      lineNo := st.lineNo + 1 } := by
  obtain ⟨hts, hne, hhash, hgf, hwg, hlab, hal⟩ := hkw
  rw [freqStep_to_AP st w hsect hts hne hhash hgf hwg hlab]
  unfold freqStepAP
  rw [hal]
  dsimp only
  rw [hcur]
  have hb : (g.gtype == GroupType.alias1 || g.gtype == GroupType.aliasGroup) = false := by
    rcases hgt with h | h <;> rw [h] <;> rfl
  dsimp only
  rw [hb, if_neg (by simp)]

theorem keyword_step_push (st : ParseSt) (g : WordGroup) (w : String)
    (hsect : st.currentSection = FreqSection.groupsSect)
    (hcur : st.currentGroup = some g)
    (hgt : g.gtype = GroupType.alias1 ∨ g.gtype = GroupType.aliasGroup)
    (hkw : KWOK w) :
    freqStep st w = { st with
      buffer := st.buffer ++ [g]
      currentGroup := some { gtype := GroupType.plain
                             keywords := [w]
                             startLine := st.lineNo
                             precedingComments := st.pending }
      pending := []
      lastLineWasAlias := false
      lineNo := st.lineNo + 1 } := by
  obtain ⟨hts, hne, hhash, hgf, hwg, hlab, hal⟩ := hkw
  rw [freqStep_to_AP st w hsect hts hne hhash hgf hwg hlab]
  unfold freqStepAP
  rw [hal]
  dsimp only
  rw [hcur]
  have hb : (g.gtype == GroupType.alias1 || g.gtype == GroupType.aliasGroup) = true := by
    rcases hgt with h | h <;> rw [h] <;> rfl
  dsimp only
  rw [hb, if_pos rfl]
  unfold pushCur
  rw [hcur]

theorem keyword_step_new (st : ParseSt) (w : String)
    (hsect : st.currentSection = FreqSection.groupsSect)
    (hcur : st.currentGroup = none)
    (hkw : KWOK w) :
    freqStep st w = { st with
      currentGroup := some { gtype := GroupType.plain
                             keywords := [w]
                             startLine := st.lineNo
                             precedingComments := st.pending }
      pending := []
      lastLineWasAlias := false
      lineNo := st.lineNo + 1 } := by
  obtain ⟨hts, hne, hhash, hgf, hwg, hlab, hal⟩ := hkw
  rw [freqStep_to_AP st w hsect hts hne hhash hgf hwg hlab]
  unfold freqStepAP
  rw [hal]
  dsimp only
  rw [hcur]
  dsimp only
  rw [if_pos rfl]
  unfold pushCur
  rw [hcur]

theorem freqStep_to_AP' (st : ParseSt) (l : String)
    (hsect : st.currentSection = FreqSection.groupsSect)
    (hne : jsTrim l ≠ "") (hhash : strStartsWith (jsTrim l) "#" = false)
    (hgf : jsTrim l ≠ "[GLOBAL_FILTER]") (hwg : jsTrim l ≠ "[WORD_GROUPS]")
    (hlab : labelMatch (jsTrim l) = none) :
    freqStep st l = freqStepAP st (jsTrim l) := by
  unfold freqStep
  dsimp only
  rw [hhash]
  rw [if_neg (by simp), if_neg hne, if_neg hgf, if_neg hwg,
    if_neg (by rw [hsect]; intro h; cases h), if_pos hsect, hlab]

theorem alias_step_join (st : ParseSt) (g : WordGroup) (it : AliasItem)
    (hsect : st.currentSection = FreqSection.groupsSect)
    (hcur : st.currentGroup = some g)
    (hgt : g.gtype = GroupType.alias1 ∨ g.gtype = GroupType.aliasGroup)
    (hla : st.lastLineWasAlias = true)
    (hit : AIOK it) :
    freqStep st (it.keyword ++ " => " ++ it.aliasName) = { st with
      currentGroup := some { g with
        gtype := if g.gtype = GroupType.alias1 then GroupType.aliasGroup else g.gtype
        items := g.items ++ [it] }
      lastLineWasAlias := true
      lineNo := st.lineNo + 1 } := by
  obtain ⟨h1, h2, h3, h4, h5, h6, h7, h8⟩ := hit
  rw [freqStep_to_AP' st _ hsect h3 h4 h5 h6 h7]
  unfold freqStepAP
  rw [h8]
  dsimp only
  rw [hcur]
  dsimp only
  rw [if_pos ⟨hla, hgt⟩, h1, h2]

theorem alias_step_push (st : ParseSt) (g : WordGroup) (it : AliasItem)
    (hsect : st.currentSection = FreqSection.groupsSect)
    (hcur : st.currentGroup = some g)
    (hgt : g.gtype = GroupType.plain ∨ g.gtype = GroupType.groupName)
    (hit : AIOK it) :
    freqStep st (it.keyword ++ " => " ++ it.aliasName) = { st with
      buffer := st.buffer ++ [g]
      currentGroup := some { gtype := GroupType.alias1
                             items := [it]
                             startLine := st.lineNo
                             precedingComments := st.pending }
      pending := []
      lastLineWasAlias := true
      lineNo := st.lineNo + 1 } := by
  obtain ⟨h1, h2, h3, h4, h5, h6, h7, h8⟩ := hit
  rw [freqStep_to_AP' st _ hsect h3 h4 h5 h6 h7]
  unfold freqStepAP
  rw [h8]
  dsimp only
  rw [hcur]
  dsimp only
  have hng : ¬ (st.lastLineWasAlias = true ∧
      (g.gtype = GroupType.alias1 ∨ g.gtype = GroupType.aliasGroup)) := by
    intro hcon
    rcases hgt with h | h <;> rcases hcon.2 with h' | h' <;> rw [h] at h' <;> cases h'
  rw [if_neg hng, h1, h2]
  unfold pushCur
  rw [hcur]

theorem alias_step_new (st : ParseSt) (it : AliasItem)
    (hsect : st.currentSection = FreqSection.groupsSect)
    (hcur : st.currentGroup = none)
    (hit : AIOK it) :
    freqStep st (it.keyword ++ " => " ++ it.aliasName) = { st with
      currentGroup := some { gtype := GroupType.alias1
                             items := [it]
                             startLine := st.lineNo
                             precedingComments := st.pending }
      pending := []
      lastLineWasAlias := true
      lineNo := st.lineNo + 1 } := by
  obtain ⟨h1, h2, h3, h4, h5, h6, h7, h8⟩ := hit
  rw [freqStep_to_AP' st _ hsect h3 h4 h5 h6 h7]
  unfold freqStepAP
  rw [h8]
  dsimp only
  rw [hcur]
  dsimp only
  rw [h1, h2]

theorem label_line_trim (nm : String) (h1 : nm ≠ "") :
    jsTrim ("[" ++ nm ++ "]") = "[" ++ nm ++ "]" := by
  apply jsTrim_eq_self_of
  · intro c hc
    rw [wrap_data] at hc
    obtain rfl := Option.some.inj hc
    rfl
  · intro c hc
    rw [wrap_data] at hc
    have : ('[' :: (nm.data ++ [']'])).getLast? = some ']' := by
      rw [show ('[' :: (nm.data ++ [']'])) = ('[' :: nm.data) ++ [']'] from by
        rw [List.cons_append]]
      rw [List.getLast?_concat]
    rw [this] at hc
    obtain rfl := Option.some.inj hc
    rfl

theorem label_step (st : ParseSt) (nm : String)
    (hsect : st.currentSection = FreqSection.groupsSect)
    (hnm : NameOK nm) :
    freqStep st ("[" ++ nm ++ "]") = { st with
      wordGroups := st.wordGroups ++ markRun (st.buffer ++ curList st.currentGroup)
      buffer := []
      currentGroup := some { gtype := GroupType.groupName
                             name := nm
                             startLine := st.lineNo
                             precedingComments := st.pending }
      pending := []
      lastLineWasAlias := false
      lineNo := st.lineNo + 1 } := by
  obtain ⟨h1, h2, h3, h4⟩ := hnm
  have hlb : labelMatch ("[" ++ nm ++ "]") = some nm := labelMatch_build nm h1 h2
  have hne : ("[" ++ nm ++ "]") ≠ "" := by
    intro h
    have hd := congrArg String.data h
    rw [wrap_data] at hd
    cases hd
  have hhash : strStartsWith ("[" ++ nm ++ "]") "#" = false := by
    rw [Bool.eq_false_iff]
    intro hcon
    obtain ⟨t, ht⟩ := (startsWith_hash_iff _).mp hcon
    rw [wrap_data] at ht
    obtain ⟨hh, _⟩ := List.cons.inj ht
    exact absurd hh (by decide)
  have hgfne : ("[" ++ nm ++ "]") ≠ "[GLOBAL_FILTER]" := by
    intro h
    have hx := hlb
    rw [h] at hx
    rw [show labelMatch "[GLOBAL_FILTER]" = some "GLOBAL_FILTER" from by decide] at hx
    exact h3 (Option.some.inj hx).symm
  have hwgne : ("[" ++ nm ++ "]") ≠ "[WORD_GROUPS]" := by
    intro h
    have hx := hlb
    rw [h] at hx
    rw [show labelMatch "[WORD_GROUPS]" = some "WORD_GROUPS" from by decide] at hx
    exact h4 (Option.some.inj hx).symm
  have hts := label_line_trim nm h1
  unfold freqStep
  rw [hts]
  dsimp only
  rw [hhash]
  rw [if_neg (by simp), if_neg hne, if_neg hgfne, if_neg hwgne,
    if_neg (by rw [hsect]; intro h; cases h), if_pos hsect, hlb]
  dsimp only
  rw [if_pos ⟨h3, h4⟩, flushAll_eq st]

theorem keywords_fold : ∀ (ws : List String) (st : ParseSt) (g : WordGroup),
    st.currentSection = FreqSection.groupsSect →
    st.currentGroup = some g →
    (g.gtype = GroupType.plain ∨ g.gtype = GroupType.groupName) →
    st.lastLineWasAlias = false →
    (∀ w ∈ ws, KWOK w) →
    ws.foldl freqStep st =
      { st with
        currentGroup := some { g with keywords := g.keywords ++ ws }
        lastLineWasAlias := false
        lineNo := st.lineNo + ws.length } := by
  intro ws
  induction ws with
  | nil =>
    intro st g hsect hcur hgt hla hok
    show st = _
    cases st with
    | mk gf wg cs cg la buf pend ln =>
      dsimp only at hcur hla ⊢
      subst hcur
      subst hla
      rw [List.append_nil]
      rfl
  | cons w ws IH =>
    intro st g hsect hcur hgt hla hok
    show List.foldl freqStep (freqStep st w) ws = _
    rw [keyword_step_append st g w hsect hcur hgt (hok w (List.mem_cons_self _ _))]
    rw [IH { st with
        currentGroup := some { g with keywords := g.keywords ++ [w] }
        lastLineWasAlias := false
        lineNo := st.lineNo + 1 }
      { g with keywords := g.keywords ++ [w] } hsect rfl (by exact hgt) rfl
      (fun x hx => hok x (List.mem_cons_of_mem _ hx))]
    simp only [List.append_assoc, List.singleton_append, List.length_cons]
    congr 1
    omega

theorem items_fold : ∀ (its : List AliasItem) (st : ParseSt) (g : WordGroup),
    st.currentSection = FreqSection.groupsSect →
    st.currentGroup = some g →
    (g.gtype = GroupType.alias1 ∨ g.gtype = GroupType.aliasGroup) →
    st.lastLineWasAlias = true →
    (∀ it ∈ its, AIOK it) →
    (its.map (fun it => it.keyword ++ " => " ++ it.aliasName)).foldl freqStep st =
      { st with
        currentGroup := some { g with
          gtype := if its.isEmpty then g.gtype else GroupType.aliasGroup
          items := g.items ++ its }
        lastLineWasAlias := true
        lineNo := st.lineNo + its.length } := by
  intro its
  induction its with
  | nil =>
    intro st g hsect hcur hgt hla hok
    show st = _
    cases st with
    | mk gf wg cs cg la buf pend ln =>
      dsimp only at hcur hla ⊢
      subst hcur
      subst hla
      rw [List.append_nil]
      rfl
  | cons it its IH =>
    intro st g hsect hcur hgt hla hok
    show List.foldl freqStep (freqStep st (it.keyword ++ " => " ++ it.aliasName)) _ = _
    rw [alias_step_join st g it hsect hcur hgt hla (hok it (List.mem_cons_self _ _))]
    have hgt2 : (if g.gtype = GroupType.alias1 then GroupType.aliasGroup else g.gtype) =
        GroupType.alias1 ∨
        (if g.gtype = GroupType.alias1 then GroupType.aliasGroup else g.gtype) =
        GroupType.aliasGroup := by
      rcases hgt with h | h
      · rw [if_pos h]
        exact Or.inr rfl
      · rw [h]
        rw [if_neg (by intro hcon; cases hcon)]
        exact Or.inr rfl
    rw [IH { st with
        currentGroup := some { g with
          gtype := if g.gtype = GroupType.alias1 then GroupType.aliasGroup else g.gtype
          items := g.items ++ [it] }
        lastLineWasAlias := true
        lineNo := st.lineNo + 1 }
      { g with
        gtype := if g.gtype = GroupType.alias1 then GroupType.aliasGroup else g.gtype
        items := g.items ++ [it] } hsect rfl hgt2 rfl
      (fun x hx => hok x (List.mem_cons_of_mem _ hx))]
    have hgg : (if its.isEmpty then
          (if g.gtype = GroupType.alias1 then GroupType.aliasGroup else g.gtype)
        else GroupType.aliasGroup) =
        (if (it :: its).isEmpty then g.gtype else GroupType.aliasGroup) := by
      have hrhs : (if (it :: its).isEmpty then g.gtype else GroupType.aliasGroup) =
          GroupType.aliasGroup := by
        rw [show (it :: its).isEmpty = false from rfl]
        exact if_neg (by simp)
      rw [hrhs]
      cases hemp : its.isEmpty
      · rw [if_neg (by simp)]
      · rw [if_pos rfl]
        rcases hgt with h | h
        · rw [if_pos h]
        · rw [h, if_neg (by intro hcon; cases hcon)]
    rw [hgg]
    simp only [List.append_assoc, List.singleton_append, List.length_cons]
    congr 1
    omega

theorem emitGroupBody_plain (g : WordGroup) (h : g.gtype = GroupType.plain) :
    emitGroupBody g = g.keywords := by
  unfold emitGroupBody
  rw [h]

theorem emitGroupBody_alias1 (g : WordGroup) (h : g.gtype = GroupType.alias1) :
    emitGroupBody g = g.items.map (fun it => it.keyword ++ " => " ++ it.aliasName) := by
  unfold emitGroupBody
  rw [h]

theorem emitGroupBody_aliasGroup (g : WordGroup) (h : g.gtype = GroupType.aliasGroup) :
    emitGroupBody g = g.items.map (fun it => it.keyword ++ " => " ++ it.aliasName) := by
  unfold emitGroupBody
  rw [h]

theorem emitGroupBody_label (g : WordGroup) (h : g.gtype = GroupType.groupName) :
    emitGroupBody g =
      (if g.name ≠ "" then ["[" ++ g.name ++ "]"] else []) ++ g.keywords := by
  unfold emitGroupBody
  rw [h]

theorem comments_fold_nb (cs : List String) (st : ParseSt)
    (hsect : st.currentSection = FreqSection.groupsSect)
    (hcs : ∀ c ∈ cs, strStartsWith (jsTrim c) "#" = true) :
    cs.foldl freqStep st =
      { st with pending := st.pending ++ cs, lineNo := st.lineNo + cs.length } := by
  have hnb : "" ∉ cs := by
    intro hin
    have := hcs "" hin
    exact absurd this (by decide)
  rw [comments_fold cs st hsect (fun c hc => Or.inl (hcs c hc))]
  rw [if_neg hnb, if_neg hnb, if_neg hnb, if_neg hnb]

theorem reparse_group_mid (st : ParseSt) (prevR g : WordGroup)
    (hsect : st.currentSection = FreqSection.groupsSect)
    (hcur : st.currentGroup = some prevR)
    (hwf : GroupWF g)
    (hmid : MidOK g)
    (hcp : ChainPair prevR g) :
    ∃ (gR : WordGroup) (la : Bool) (n : Nat),
      (g.precedingComments ++ emitGroupBody g).foldl freqStep st =
        { st with
          buffer := st.buffer ++ [prevR]
          currentGroup := some gR
          pending := []
          lastLineWasAlias := la
          lineNo := n } ∧
      projG gR = projG g ∧ gR.isRelatedGroup = false := by
  obtain ⟨hcm, hcases⟩ := hwf
  obtain ⟨hnl, hcmts⟩ := hmid
  have hfold1 : (g.precedingComments ++ emitGroupBody g).foldl freqStep st =
      (emitGroupBody g).foldl freqStep
        { st with pending := st.pending ++ g.precedingComments
                  lineNo := st.lineNo + g.precedingComments.length } := by
    rw [List.foldl_append, comments_fold_nb g.precedingComments st hsect hcmts]
  rcases hcases with hlab | hplain | hal1 | halG
  · exact absurd hlab.1 hnl
  · obtain ⟨hgt, hkne, hkws, hitems, hname⟩ := hplain
    have hprevAl : prevR.gtype = GroupType.alias1 ∨ prevR.gtype = GroupType.aliasGroup := by
      rcases hcp with ⟨hag, _⟩ | ⟨_, hap⟩
      · rcases hag with h | h <;> rw [hgt] at h <;> cases h
      · exact hap
    cases hk : g.keywords with
    | nil => exact absurd hk hkne
    | cons w rest =>
      have hwok := hkws
      rw [hk] at hwok
      refine ⟨{ gtype := GroupType.plain
                keywords := [w] ++ rest
                startLine := st.lineNo + g.precedingComments.length
                precedingComments := st.pending ++ g.precedingComments }, false,
              st.lineNo + g.precedingComments.length + 1 + rest.length, ?_, ?_, rfl⟩
      · rw [hfold1, emitGroupBody_plain g hgt, hk]
        show List.foldl freqStep (freqStep _ w) rest = _
        rw [keyword_step_push
          { st with pending := st.pending ++ g.precedingComments
                    lineNo := st.lineNo + g.precedingComments.length }
          prevR w hsect hcur hprevAl (hwok w (List.mem_cons_self _ _))]
        dsimp only
        rw [keywords_fold rest
          ⟨st.globalFilter, st.wordGroups, st.currentSection,
            some { gtype := GroupType.plain
                   keywords := [w]
                   startLine := st.lineNo + g.precedingComments.length
                   precedingComments := st.pending ++ g.precedingComments },
            false, st.buffer ++ [prevR], [], st.lineNo + g.precedingComments.length + 1⟩
          { gtype := GroupType.plain
            keywords := [w]
            startLine := st.lineNo + g.precedingComments.length
            precedingComments := st.pending ++ g.precedingComments }
          hsect rfl (Or.inl rfl) rfl (fun x hx => hwok x (List.mem_cons_of_mem _ hx))]
      · show (GroupType.plain, "", [w] ++ rest, []) = (g.gtype, g.name, g.keywords, g.items)
        rw [hgt, hname, hitems, hk, List.singleton_append]
  · obtain ⟨hgt, hlen, hits, hkws, hname⟩ := hal1
    have hprevPl : prevR.gtype = GroupType.plain ∨ prevR.gtype = GroupType.groupName := by
      rcases hcp with ⟨_, hpv⟩ | ⟨hgp, _⟩
      · exact hpv
      · rw [hgt] at hgp; cases hgp
    cases hi : g.items with
    | nil => rw [hi] at hlen; cases hlen
    | cons it0 rest =>
      have hrest : rest = [] := by
        rw [hi] at hlen
        rw [List.length_cons] at hlen
        cases rest with
        | nil => rfl
        | cons a t => rw [List.length_cons] at hlen; omega
      subst hrest
      have hiok := hits
      rw [hi] at hiok
      refine ⟨{ gtype := GroupType.alias1
                items := [it0]
                startLine := st.lineNo + g.precedingComments.length
                precedingComments := st.pending ++ g.precedingComments }, true,
              st.lineNo + g.precedingComments.length + 1, ?_, ?_, rfl⟩
      · rw [hfold1, emitGroupBody_alias1 g hgt, hi]
        show List.foldl freqStep (freqStep _ (it0.keyword ++ " => " ++ it0.aliasName)) _ = _
        rw [alias_step_push
          { st with pending := st.pending ++ g.precedingComments
                    lineNo := st.lineNo + g.precedingComments.length }
          prevR it0 hsect hcur hprevPl (hiok it0 (List.mem_cons_self _ _))]
        rfl
      · show (GroupType.alias1, "", [], [it0]) = (g.gtype, g.name, g.keywords, g.items)
        rw [hgt, hname, hkws, hi]
  · obtain ⟨hgt, hlen, hits, hkws, hname⟩ := halG
    have hprevPl : prevR.gtype = GroupType.plain ∨ prevR.gtype = GroupType.groupName := by
      rcases hcp with ⟨_, hpv⟩ | ⟨hgp, _⟩
      · exact hpv
      · rw [hgt] at hgp; cases hgp
    cases hi : g.items with
    | nil => rw [hi] at hlen; cases hlen
    | cons it0 rest =>
      have hrne : rest ≠ [] := by
        intro hcon
        rw [hi, hcon] at hlen
        rw [List.length_cons] at hlen
        simp at hlen
      have hiok := hits
      rw [hi] at hiok
      have hemp : rest.isEmpty = false := by
        cases rest with
        | nil => exact absurd rfl hrne
        | cons a t => rfl
      refine ⟨{ gtype := GroupType.aliasGroup
                items := [it0] ++ rest
                startLine := st.lineNo + g.precedingComments.length
                precedingComments := st.pending ++ g.precedingComments }, true,
              st.lineNo + g.precedingComments.length + 1 + rest.length, ?_, ?_, rfl⟩
      · rw [hfold1, emitGroupBody_aliasGroup g hgt, hi]
        show List.foldl freqStep (freqStep _ (it0.keyword ++ " => " ++ it0.aliasName)) _ = _
        rw [alias_step_push
          { st with pending := st.pending ++ g.precedingComments
                    lineNo := st.lineNo + g.precedingComments.length }
          prevR it0 hsect hcur hprevPl (hiok it0 (List.mem_cons_self _ _))]
        dsimp only
        rw [items_fold rest
          ⟨st.globalFilter, st.wordGroups, st.currentSection,
            some { gtype := GroupType.alias1
                   items := [it0]
                   startLine := st.lineNo + g.precedingComments.length
                   precedingComments := st.pending ++ g.precedingComments },
            true, st.buffer ++ [prevR], [], st.lineNo + g.precedingComments.length + 1⟩
          { gtype := GroupType.alias1
            items := [it0]
            startLine := st.lineNo + g.precedingComments.length
            precedingComments := st.pending ++ g.precedingComments }
          hsect rfl (Or.inl rfl) rfl (fun x hx => hiok x (List.mem_cons_of_mem _ hx))]
        rw [hemp]
        rfl
      · show (GroupType.aliasGroup, "", [], [it0] ++ rest) =
          (g.gtype, g.name, g.keywords, g.items)
        rw [hgt, hname, hkws, hi, List.singleton_append]

theorem body_from_clean (st : ParseSt) (g : WordGroup)
    (hsect : st.currentSection = FreqSection.groupsSect)
    (hwf : GroupWF g)
    (hcur : st.currentGroup = none)
    (hbuf : st.buffer = []) :
    ∃ (gR : WordGroup) (la : Bool) (n : Nat),
      (emitGroupBody g).foldl freqStep st =
        { st with
          currentGroup := some gR
          pending := []
          lastLineWasAlias := la
          lineNo := n } ∧
      projG gR = projG g ∧ gR.isRelatedGroup = false := by
  obtain ⟨hcm, hcases⟩ := hwf
  rcases hcases with hlab | hplain | hal1 | halG
  · obtain ⟨hgt, hnm, hkws, hitems⟩ := hlab
    refine ⟨{ gtype := GroupType.groupName
              name := g.name
              keywords := [] ++ g.keywords
              startLine := st.lineNo
              precedingComments := st.pending }, false, st.lineNo + 1 + g.keywords.length,
            ?_, ?_, rfl⟩
    · rw [emitGroupBody_label g hgt, if_pos hnm.1]
      show List.foldl freqStep (freqStep _ ("[" ++ g.name ++ "]")) _ = _
      rw [label_step st g.name hsect hnm, hbuf, hcur]
      have hww : st.wordGroups ++ markRun (([] : List WordGroup) ++ curList none) =
          st.wordGroups := by
        rw [show (([] : List WordGroup) ++ curList none) = [] from rfl,
          markRun_short [] (by simp), List.append_nil]
      rw [hww]
      show List.foldl freqStep _ g.keywords = _
      rw [keywords_fold g.keywords
        ⟨st.globalFilter, st.wordGroups, st.currentSection,
          some { gtype := GroupType.groupName
                 name := g.name
                 startLine := st.lineNo
                 precedingComments := st.pending },
          false, [], [], st.lineNo + 1⟩
        { gtype := GroupType.groupName
          name := g.name
          startLine := st.lineNo
          precedingComments := st.pending }
        hsect rfl (Or.inr rfl) rfl hkws]
    · show (GroupType.groupName, g.name, [] ++ g.keywords, []) =
        (g.gtype, g.name, g.keywords, g.items)
      rw [hgt, hitems, List.nil_append]
  · obtain ⟨hgt, hkne, hkws, hitems, hname⟩ := hplain
    cases hk : g.keywords with
    | nil => exact absurd hk hkne
    | cons w rest =>
      have hwok := hkws
      rw [hk] at hwok
      refine ⟨{ gtype := GroupType.plain
                keywords := [w] ++ rest
                startLine := st.lineNo
                precedingComments := st.pending }, false, st.lineNo + 1 + rest.length,
              ?_, ?_, rfl⟩
      · rw [emitGroupBody_plain g hgt, hk]
        show List.foldl freqStep (freqStep _ w) rest = _
        rw [keyword_step_new st w hsect hcur (hwok w (List.mem_cons_self _ _))]
        rw [keywords_fold rest
          ⟨st.globalFilter, st.wordGroups, st.currentSection,
            some { gtype := GroupType.plain
                   keywords := [w]
                   startLine := st.lineNo
                   precedingComments := st.pending },
            false, st.buffer, [], st.lineNo + 1⟩
          { gtype := GroupType.plain
            keywords := [w]
            startLine := st.lineNo
            precedingComments := st.pending }
          hsect rfl (Or.inl rfl) rfl (fun x hx => hwok x (List.mem_cons_of_mem _ hx))]
      · show (GroupType.plain, "", [w] ++ rest, []) = (g.gtype, g.name, g.keywords, g.items)
        rw [hgt, hname, hitems, hk, List.singleton_append]
  · obtain ⟨hgt, hlen, hits, hkws, hname⟩ := hal1
    cases hi : g.items with
    | nil => rw [hi] at hlen; cases hlen
    | cons it0 rest =>
      have hrest : rest = [] := by
        rw [hi, List.length_cons] at hlen
        cases rest with
        | nil => rfl
        | cons a t => rw [List.length_cons] at hlen; omega
      subst hrest
      have hiok := hits
      rw [hi] at hiok
      refine ⟨{ gtype := GroupType.alias1
                items := [it0]
                startLine := st.lineNo
                precedingComments := st.pending }, true, st.lineNo + 1, ?_, ?_, rfl⟩
      · rw [emitGroupBody_alias1 g hgt, hi]
        show List.foldl freqStep (freqStep _ (it0.keyword ++ " => " ++ it0.aliasName)) _ = _
        rw [alias_step_new st it0 hsect hcur (hiok it0 (List.mem_cons_self _ _))]
        rfl
      · show (GroupType.alias1, "", [], [it0]) = (g.gtype, g.name, g.keywords, g.items)
        rw [hgt, hname, hkws, hi]
  · obtain ⟨hgt, hlen, hits, hkws, hname⟩ := halG
    cases hi : g.items with
    | nil => rw [hi] at hlen; cases hlen
    | cons it0 rest =>
      have hrne : rest ≠ [] := by
        intro hcon
        rw [hi, hcon, List.length_cons] at hlen
        simp at hlen
      have hiok := hits
      rw [hi] at hiok
      have hemp : rest.isEmpty = false := by
        cases rest with
        | nil => exact absurd rfl hrne
        | cons a t => rfl
      refine ⟨{ gtype := GroupType.aliasGroup
                items := [it0] ++ rest
                startLine := st.lineNo
                precedingComments := st.pending }, true, st.lineNo + 1 + rest.length,
              ?_, ?_, rfl⟩
      · rw [emitGroupBody_aliasGroup g hgt, hi]
        show List.foldl freqStep (freqStep _ (it0.keyword ++ " => " ++ it0.aliasName)) _ = _
        rw [alias_step_new st it0 hsect hcur (hiok it0 (List.mem_cons_self _ _))]
        rw [items_fold rest
          ⟨st.globalFilter, st.wordGroups, st.currentSection,
            some { gtype := GroupType.alias1
                   items := [it0]
                   startLine := st.lineNo
                   precedingComments := st.pending },
            true, st.buffer, [], st.lineNo + 1⟩
          { gtype := GroupType.alias1
            items := [it0]
            startLine := st.lineNo
            precedingComments := st.pending }
          hsect rfl (Or.inl rfl) rfl (fun x hx => hiok x (List.mem_cons_of_mem _ hx))]
        rw [hemp]
        rfl
      · show (GroupType.aliasGroup, "", [], [it0] ++ rest) =
          (g.gtype, g.name, g.keywords, g.items)
        rw [hgt, hname, hkws, hi, List.singleton_append]

theorem body_label (st : ParseSt) (g : WordGroup)
    (hsect : st.currentSection = FreqSection.groupsSect)
    (hwf : GroupWF g)
    (hgt : g.gtype = GroupType.groupName) :
    ∃ (gR : WordGroup) (la : Bool) (n : Nat),
      (emitGroupBody g).foldl freqStep st =
        { st with
          wordGroups := st.wordGroups ++ markRun (st.buffer ++ curList st.currentGroup)
          buffer := []
          currentGroup := some gR
          pending := []
          lastLineWasAlias := la
          lineNo := n } ∧
      projG gR = projG g ∧ gR.isRelatedGroup = false := by
  obtain ⟨hcm, hcases⟩ := hwf
  rcases hcases with hlab | hplain | hal1 | halG
  · obtain ⟨_, hnm, hkws, hitems⟩ := hlab
    refine ⟨{ gtype := GroupType.groupName
              name := g.name
              keywords := [] ++ g.keywords
              startLine := st.lineNo
              precedingComments := st.pending }, false, st.lineNo + 1 + g.keywords.length,
            ?_, ?_, rfl⟩
    · rw [emitGroupBody_label g hgt, if_pos hnm.1]
      show List.foldl freqStep (freqStep _ ("[" ++ g.name ++ "]")) _ = _
      rw [label_step st g.name hsect hnm]
      show List.foldl freqStep _ g.keywords = _
      rw [keywords_fold g.keywords
        ⟨st.globalFilter, st.wordGroups ++ markRun (st.buffer ++ curList st.currentGroup),
          st.currentSection,
          some { gtype := GroupType.groupName
                 name := g.name
                 startLine := st.lineNo
                 precedingComments := st.pending },
          false, [], [], st.lineNo + 1⟩
        { gtype := GroupType.groupName
          name := g.name
          startLine := st.lineNo
          precedingComments := st.pending }
        hsect rfl (Or.inr rfl) rfl hkws]
    · show (GroupType.groupName, g.name, [] ++ g.keywords, []) =
        (g.gtype, g.name, g.keywords, g.items)
      rw [hgt, hitems, List.nil_append]
  · exact absurd hplain.1 (by rw [hgt]; intro h; cases h)
  · exact absurd hal1.1 (by rw [hgt]; intro h; cases h)
  · exact absurd halG.1 (by rw [hgt]; intro h; cases h)

theorem reparse_group_first (st : ParseSt) (g : WordGroup)
    (hsect : st.currentSection = FreqSection.groupsSect)
    (hwf : GroupWF g)
    (hflush : (st.currentGroup = none ∧ st.buffer = []) ∨ BoundHead g) :
    ∃ (gR : WordGroup) (la : Bool) (n : Nat),
      (g.precedingComments ++ emitGroupBody g).foldl freqStep st =
        { st with
          wordGroups := st.wordGroups ++ markRun (st.buffer ++ curList st.currentGroup)
          buffer := []
          currentGroup := some gR
          pending := []
          lastLineWasAlias := la
          lineNo := n } ∧
      projG gR = projG g ∧ gR.isRelatedGroup = false := by
  have hsplit : (g.precedingComments ++ emitGroupBody g).foldl freqStep st =
      (emitGroupBody g).foldl freqStep (g.precedingComments.foldl freqStep st) :=
    List.foldl_append _ _ _ _
  by_cases hin : "" ∈ g.precedingComments
  · have hcf := comments_fold g.precedingComments st hsect hwf.1
    rw [if_pos hin, if_pos hin, if_pos hin, if_pos hin] at hcf
    obtain ⟨gR, la, n, hfold, hproj, hflag⟩ := body_from_clean
      ⟨st.globalFilter, st.wordGroups ++ markRun (st.buffer ++ curList st.currentGroup),
        st.currentSection, none, false, [],
        st.pending ++ g.precedingComments, st.lineNo + g.precedingComments.length⟩
      g hsect hwf rfl rfl
    refine ⟨gR, la, n, ?_, hproj, hflag⟩
    rw [hsplit, hcf, hfold]
  · rcases hflush with ⟨hcur, hbuf⟩ | hb
    · have hcf := comments_fold g.precedingComments st hsect hwf.1
      rw [if_neg hin, if_neg hin, if_neg hin, if_neg hin] at hcf
      obtain ⟨gR, la, n, hfold, hproj, hflag⟩ := body_from_clean
        ⟨st.globalFilter, st.wordGroups, st.currentSection, st.currentGroup,
          st.lastLineWasAlias, st.buffer,
          st.pending ++ g.precedingComments, st.lineNo + g.precedingComments.length⟩
        g hsect hwf hcur hbuf
      refine ⟨gR, la, n, ?_, hproj, hflag⟩
      rw [hsplit, hcf, hfold, hcur, hbuf]
      have hww : st.wordGroups ++ markRun (([] : List WordGroup) ++ curList none) =
          st.wordGroups := by
        rw [show (([] : List WordGroup) ++ curList none) = [] from rfl,
          markRun_short [] (by simp), List.append_nil]
      rw [hww]
    · have hlab : g.gtype = GroupType.groupName := by
        rcases hb with h | h
        · exact h
        · exact absurd h hin
      have hcf := comments_fold g.precedingComments st hsect hwf.1
      rw [if_neg hin, if_neg hin, if_neg hin, if_neg hin] at hcf
      obtain ⟨gR, la, n, hfold, hproj, hflag⟩ := body_label
        ⟨st.globalFilter, st.wordGroups, st.currentSection, st.currentGroup,
          st.lastLineWasAlias, st.buffer,
          st.pending ++ g.precedingComments, st.lineNo + g.precedingComments.length⟩
        g hsect hwf hlab
      refine ⟨gR, la, n, ?_, hproj, hflag⟩
      rw [hsplit, hcf, hfold]

theorem projG_gtype (a b : WordGroup) (h : projG a = projG b) : a.gtype = b.gtype :=
  congrArg Prod.fst h

theorem chainPair_of_proj (a a' b : WordGroup) (h : projG a' = projG a)
    (hcp : ChainPair a b) : ChainPair a' b := by
  have hg : a'.gtype = a.gtype := projG_gtype a' a h
  rcases hcp with ⟨hb, ha⟩ | ⟨hb, ha⟩
  · refine Or.inl ⟨hb, ?_⟩
    rw [hg]
    exact ha
  · refine Or.inr ⟨hb, ?_⟩
    unfold aliasish at ha ⊢
    rw [hg]
    exact ha

theorem reparse_run_tail : ∀ (gs : List WordGroup) (st : ParseSt) (prevO prevR : WordGroup),
    st.currentSection = FreqSection.groupsSect →
    st.currentGroup = some prevR →
    st.pending = [] →
    projG prevR = projG prevO →
    (∀ g ∈ gs, GroupWF g) →
    ChainedFrom prevO gs →
    ∃ (gsR : List WordGroup) (la : Bool) (n : Nat),
      ((gs.map (fun g => g.precedingComments ++ emitGroupBody g)).join).foldl freqStep st =
        { st with
          buffer := st.buffer ++ (prevR :: gsR).dropLast
          currentGroup := some ((prevR :: gsR).getLast (List.cons_ne_nil _ _))
          pending := []
          lastLineWasAlias := la
          lineNo := n } ∧
      gsR.map projG = gs.map projG ∧ (∀ x ∈ gsR, x.isRelatedGroup = false) := by
  intro gs
  induction gs with
  | nil =>
    intro st prevO prevR hsect hcur hpend hproj hwf hchain
    refine ⟨[], st.lastLineWasAlias, st.lineNo, ?_, rfl, fun x hx => absurd hx (by simp)⟩
    show st = _
    cases st with
    | mk gf wg cs cg la buf pend ln =>
      dsimp only at hcur hpend ⊢
      subst hcur
      subst hpend
      rw [show (prevR :: ([] : List WordGroup)).dropLast = [] from rfl, List.append_nil]
      rfl
  | cons g gs IH =>
    intro st prevO prevR hsect hcur hpend hproj hwf hchain
    obtain ⟨hcp, hmid, hchain2⟩ := hchain
    obtain ⟨gR, la1, n1, hstep, hprojm, hflagm⟩ := reparse_group_mid st prevR g hsect hcur
      (hwf g (List.mem_cons_self _ _)) hmid (chainPair_of_proj prevO prevR g hproj hcp)
    obtain ⟨gsR, la, n, hfold2, hmap, hflags⟩ := IH
      { st with
        buffer := st.buffer ++ [prevR]
        currentGroup := some gR
        pending := []
        lastLineWasAlias := la1
        lineNo := n1 }
      g gR hsect rfl rfl hprojm
      (fun x hx => hwf x (List.mem_cons_of_mem _ hx)) hchain2
    refine ⟨gR :: gsR, la, n, ?_, ?_, ?_⟩
    · show (((g.precedingComments ++ emitGroupBody g) ::
          gs.map (fun x => x.precedingComments ++ emitGroupBody x)).join).foldl freqStep st = _
      rw [show ((g.precedingComments ++ emitGroupBody g) ::
          gs.map (fun x => x.precedingComments ++ emitGroupBody x)).join =
          (g.precedingComments ++ emitGroupBody g) ++
          (gs.map (fun x => x.precedingComments ++ emitGroupBody x)).join from rfl]
      rw [List.foldl_append, hstep, hfold2]
      rw [show (prevR :: gR :: gsR).dropLast = prevR :: (gR :: gsR).dropLast from rfl]
      rw [show (prevR :: gR :: gsR).getLast (List.cons_ne_nil _ _) =
          (gR :: gsR).getLast (List.cons_ne_nil _ _) from rfl]
      dsimp only
      rw [List.append_assoc]
      rfl
    · rw [List.map_cons, List.map_cons, hprojm, hmap]
    · intro x hx
      rcases List.mem_cons.mp hx with h | h
      · rw [h]; exact hflagm
      · exact hflags x h

theorem sepAfter_cases (g : WordGroup) (next : Option WordGroup) :
    sepAfter g next = [""] ∨ sepAfter g next = [] := by
  cases next with
  | none => exact Or.inl rfl
  | some g2 =>
    unfold sepAfter
    dsimp only
    by_cases h1 : g.isRelatedGroup = true ∧ g2.isRelatedGroup = true
    · rw [if_pos h1]
      exact Or.inr rfl
    · rw [if_neg h1]
      by_cases h2 : g2.precedingComments ≠ []
      · rw [if_pos h2]
        exact Or.inr rfl
      · rw [if_neg h2]
        exact Or.inl rfl

theorem setFlags_cons (g : WordGroup) (gs : List WordGroup) (total idx : Nat) :
    setFlags total idx (g :: gs) = flagG g idx total :: setFlags total (idx + 1) gs := rfl

theorem emitGroupBody_flag (g : WordGroup) (i t : Nat) :
    emitGroupBody (flagG g i t) = emitGroupBody g := by
  cases hgt : g.gtype
  · rw [emitGroupBody_label (flagG g i t) hgt, emitGroupBody_label g hgt]
    rfl
  · rw [emitGroupBody_alias1 (flagG g i t) hgt, emitGroupBody_alias1 g hgt]
    rfl
  · rw [emitGroupBody_aliasGroup (flagG g i t) hgt, emitGroupBody_aliasGroup g hgt]
    rfl
  · rw [emitGroupBody_plain (flagG g i t) hgt, emitGroupBody_plain g hgt]
    rfl

theorem emitGroups_append : ∀ (a b : List WordGroup), a ≠ [] →
    emitGroups (a ++ b) = emitRunLines a b.head? ++ emitGroups b := by
  intro a
  induction a with
  | nil => intro b h; exact absurd rfl h
  | cons g t IH =>
    intro b _
    cases t with
    | nil =>
      cases b with
      | nil => rfl
      | cons b0 bs => rfl
    | cons g2 t2 =>
      show ((g.precedingComments ++ emitGroupBody g) ++ sepAfter g (some g2)) ++
          emitGroups ((g2 :: t2) ++ b) = _
      rw [IH b (by intro h; cases h), ← List.append_assoc]
      rfl

theorem emitRunLines_setFlags : ∀ (r : List WordGroup) (total idx : Nat)
    (next : Option WordGroup), r ≠ [] →
    ∃ gl : WordGroup,
      emitRunLines (setFlags total idx r) next =
        (r.map (fun g => g.precedingComments ++ emitGroupBody g)).join ++ sepAfter gl next := by
  intro r
  induction r with
  | nil => intro total idx next h; exact absurd rfl h
  | cons g t IH =>
    intro total idx next _
    cases t with
    | nil =>
      refine ⟨flagG g idx total, ?_⟩
      rw [setFlags_cons]
      show (g.precedingComments ++ emitGroupBody (flagG g idx total)) ++
        sepAfter (flagG g idx total) next = _
      rw [emitGroupBody_flag g idx total]
      rw [show (([g].map (fun x => x.precedingComments ++ emitGroupBody x)).join :
        List String) = (g.precedingComments ++ emitGroupBody g) ++ [] from rfl]
      rw [List.append_nil]
    | cons g2 t2 =>
      obtain ⟨gl, hgl⟩ := IH total (idx + 1) next (by intro h; cases h)
      refine ⟨gl, ?_⟩
      rw [setFlags_cons]
      have h3 : emitRunLines (flagG g idx total :: setFlags total (idx + 1) (g2 :: t2)) next =
          ((g.precedingComments ++ emitGroupBody (flagG g idx total)) ++
          sepAfter (flagG g idx total) (some (flagG g2 (idx + 1) total))) ++
          emitRunLines (setFlags total (idx + 1) (g2 :: t2)) next := rfl
      rw [h3, emitGroupBody_flag g idx total]
      have h4 : sepAfter (flagG g idx total) (some (flagG g2 (idx + 1) total)) = [] := by
        unfold sepAfter
        dsimp only
        rw [if_pos ⟨rfl, rfl⟩]
      rw [h4, List.append_nil, hgl]
      rw [show (((g :: g2 :: t2).map (fun x => x.precedingComments ++ emitGroupBody x)).join :
        List String) = (g.precedingComments ++ emitGroupBody g) ++
        ((g2 :: t2).map (fun x => x.precedingComments ++ emitGroupBody x)).join from rfl]
      rw [← List.append_assoc]

theorem emitRunLines_marked (r : List WordGroup) (next : Option WordGroup) (hne : r ≠ []) :
    ∃ sep : List String,
      emitRunLines (markRun r) next =
        (r.map (fun g => g.precedingComments ++ emitGroupBody g)).join ++ sep ∧
      (sep = [""] ∨ sep = []) ∧ (next = none → sep = [""]) := by
  unfold markRun
  by_cases hlen : r.length > 1
  · rw [if_pos hlen]
    obtain ⟨gl, hgl⟩ := emitRunLines_setFlags r r.length 0 next hne
    refine ⟨sepAfter gl next, hgl, sepAfter_cases gl next, ?_⟩
    intro h
    rw [h]
    rfl
  · rw [if_neg hlen]
    cases r with
    | nil => exact absurd rfl hne
    | cons g t =>
      cases t with
      | nil =>
        refine ⟨sepAfter g next, ?_, sepAfter_cases g next, ?_⟩
        · show (g.precedingComments ++ emitGroupBody g) ++ sepAfter g next = _
          rw [show (([g].map (fun x => x.precedingComments ++ emitGroupBody x)).join :
            List String) = (g.precedingComments ++ emitGroupBody g) ++ [] from rfl]
          rw [List.append_nil]
        · intro h
          rw [h]
          rfl
      | cons g2 t2 =>
        exact absurd (by rw [List.length_cons, List.length_cons]; omega) hlen

theorem reparse_run (r : List WordGroup) (next : Option WordGroup) (st : ParseSt)
    (hsect : st.currentSection = FreqSection.groupsSect)
    (hwf : RunWF r)
    (hflush : (st.currentGroup = none ∧ st.buffer = []) ∨ headBound r) :
    ∃ (rR : List WordGroup) (stE : ParseSt),
      (emitRunLines (markRun r) next).foldl freqStep st = stE ∧
      rR.map projG = r.map projG ∧
      (∀ x ∈ rR, x.isRelatedGroup = false) ∧
      stE.currentSection = FreqSection.groupsSect ∧
      stE.globalFilter = st.globalFilter ∧
      ((stE.currentGroup = none ∧ stE.buffer = [] ∧
        stE.wordGroups = st.wordGroups ++ markRun (st.buffer ++ curList st.currentGroup)
          ++ markRun rR) ∨
       (stE.buffer ++ curList stE.currentGroup = rR ∧
        stE.wordGroups = st.wordGroups ++ markRun (st.buffer ++ curList st.currentGroup))) := by
  cases r with
  | nil => cases hwf
  | cons h tg =>
    obtain ⟨hall, hchain⟩ := hwf
    obtain ⟨sep, hemit, hsepcase, hsepnone⟩ :=
      emitRunLines_marked (h :: tg) next (List.cons_ne_nil _ _)
    obtain ⟨gR0, la1, n1, hst1, hproj0, hflag0⟩ := reparse_group_first st h hsect
      (hall h (List.mem_cons_self _ _)).1
      (by
        rcases hflush with hcl | hb
        · exact Or.inl hcl
        · exact Or.inr hb)
    obtain ⟨gsR, la2, n2, hfold2, hmap2, hflags2⟩ := reparse_run_tail tg
      { st with
        wordGroups := st.wordGroups ++ markRun (st.buffer ++ curList st.currentGroup)
        buffer := []
        currentGroup := some gR0
        pending := []
        lastLineWasAlias := la1
        lineNo := n1 }
      h gR0 hsect rfl rfl hproj0
      (fun x hx => (hall x (List.mem_cons_of_mem _ hx)).1) hchain
    have e2 : (emitRunLines (markRun (h :: tg)) next).foldl freqStep st =
        sep.foldl freqStep
          { st with
            wordGroups := st.wordGroups ++ markRun (st.buffer ++ curList st.currentGroup)
            buffer := [] ++ (gR0 :: gsR).dropLast
            currentGroup := some ((gR0 :: gsR).getLast (List.cons_ne_nil _ _))
            pending := []
            lastLineWasAlias := la2
            lineNo := n2 } := by
      rw [hemit, List.foldl_append]
      rw [show (((h :: tg).map (fun g => g.precedingComments ++ emitGroupBody g)).join :
        List String) = (h.precedingComments ++ emitGroupBody h) ++
        (tg.map (fun g => g.precedingComments ++ emitGroupBody g)).join from rfl]
      rw [List.foldl_append, hst1, hfold2]
    have hbc : (([] : List WordGroup) ++ (gR0 :: gsR).dropLast) ++
        curList (some ((gR0 :: gsR).getLast (List.cons_ne_nil _ _))) = gR0 :: gsR := by
      rw [List.nil_append]
      exact List.dropLast_append_getLast _
    have hmapc : (gR0 :: gsR).map projG = (h :: tg).map projG := by
      rw [List.map_cons, List.map_cons, hproj0, hmap2]
    have hflagc : ∀ x ∈ gR0 :: gsR, x.isRelatedGroup = false := by
      intro x hx
      rcases List.mem_cons.mp hx with hx | hx
      · rw [hx]; exact hflag0
      · exact hflags2 x hx
    rcases hsepcase with hsep | hsep
    · subst hsep
      have estep : ([""] : List String).foldl freqStep
          { st with
            wordGroups := st.wordGroups ++ markRun (st.buffer ++ curList st.currentGroup)
            buffer := [] ++ (gR0 :: gsR).dropLast
            currentGroup := some ((gR0 :: gsR).getLast (List.cons_ne_nil _ _))
            pending := []
            lastLineWasAlias := la2
            lineNo := n2 } = freqStep
          { st with
            wordGroups := st.wordGroups ++ markRun (st.buffer ++ curList st.currentGroup)
            buffer := [] ++ (gR0 :: gsR).dropLast
            currentGroup := some ((gR0 :: gsR).getLast (List.cons_ne_nil _ _))
            pending := []
            lastLineWasAlias := la2
            lineNo := n2 } "" := rfl
      have efin := e2.trans (estep.trans (blank_step_groups
          { st with
            wordGroups := st.wordGroups ++ markRun (st.buffer ++ curList st.currentGroup)
            buffer := [] ++ (gR0 :: gsR).dropLast
            currentGroup := some ((gR0 :: gsR).getLast (List.cons_ne_nil _ _))
            pending := []
            lastLineWasAlias := la2
            lineNo := n2 } hsect))
      refine ⟨gR0 :: gsR, _, efin, hmapc, hflagc, hsect, rfl, Or.inl ⟨rfl, rfl, ?_⟩⟩
      show (st.wordGroups ++ markRun (st.buffer ++ curList st.currentGroup)) ++
          markRun ((([] : List WordGroup) ++ (gR0 :: gsR).dropLast) ++
            curList (some ((gR0 :: gsR).getLast (List.cons_ne_nil _ _)))) = _
      rw [hbc]
    · subst hsep
      refine ⟨gR0 :: gsR, _, e2, hmapc, hflagc, hsect, rfl, Or.inr ⟨?_, rfl⟩⟩
      exact hbc

theorem markRun_ne_nil (r : List WordGroup) (h : r ≠ []) : markRun r ≠ [] := by
  unfold markRun
  cases r with
  | nil => exact absurd rfl h
  | cons a t =>
    by_cases hlen : (a :: t).length > 1
    · rw [if_pos hlen, setFlags_cons]
      intro hc
      cases hc
    · rw [if_neg hlen]
      intro hc
      cases hc

theorem reparse_runs : ∀ (runs : List (List WordGroup)) (st : ParseSt),
    st.currentSection = FreqSection.groupsSect →
    (∀ r ∈ runs, RunWF r) →
    (∀ r ∈ runs.drop 1, headBound r) →
    ((st.currentGroup = none ∧ st.buffer = []) ∨ (∀ r0 ∈ runs.take 1, headBound r0)) →
    ∃ (runsR : List (List WordGroup)) (stE : ParseSt),
      (emitGroups ((runs.map markRun).join)).foldl freqStep st = stE ∧
      runsR.map (List.map projG) = runs.map (List.map projG) ∧
      (∀ rr ∈ runsR, ∀ x ∈ rr, x.isRelatedGroup = false) ∧
      (flushBuf (pushCur stE)).wordGroups =
        st.wordGroups ++ markRun (st.buffer ++ curList st.currentGroup) ++
          (runsR.map markRun).join := by
  intro runs
  induction runs with
  | nil =>
    intro st hsect _ _ _
    refine ⟨[], st, rfl, rfl, fun rr hrr => absurd hrr (by simp), ?_⟩
    rw [flushAll_eq st]
    show st.wordGroups ++ markRun (st.buffer ++ curList st.currentGroup) = _
    rw [show ((List.map markRun ([] : List (List WordGroup))).join : List WordGroup) = []
      from rfl, List.append_nil]
  | cons r rest IH =>
    intro st hsect hwf hhb hfl
    have hrne : r ≠ [] := by
      intro hc
      have := hwf r (List.mem_cons_self _ _)
      rw [hc] at this
      cases this
    have hrestb : ∀ x ∈ rest, headBound x := by
      intro x hx
      exact hhb x (by rw [List.drop_one, List.tail_cons]; exact hx)
    obtain ⟨rR, stE1, hfold1, hmapr, hflagr, hsect1, hgf1, hexit⟩ :=
      reparse_run r (((rest.map markRun).join).head?) st hsect
        (hwf r (List.mem_cons_self _ _))
        (by
          rcases hfl with hcl | hb
          · exact Or.inl hcl
          · cases r with
            | nil => exact absurd rfl hrne
            | cons h0 t0 => exact Or.inr (hb (h0 :: t0) (by simp)))
    obtain ⟨runsR, stE, hfold2, hmap2, hflags2, hflush2⟩ := IH stE1 hsect1
      (fun x hx => hwf x (List.mem_cons_of_mem _ hx))
      (fun x hx => hrestb x (List.mem_of_mem_drop hx))
      (Or.inr (fun x hx => hrestb x (List.mem_of_mem_take hx)))
    refine ⟨rR :: runsR, stE, ?_, ?_, ?_, ?_⟩
    · rw [show (((r :: rest).map markRun).join : List WordGroup) =
        markRun r ++ (rest.map markRun).join from rfl]
      rw [emitGroups_append (markRun r) ((rest.map markRun).join) (markRun_ne_nil r hrne)]
      rw [List.foldl_append, hfold1, hfold2]
    · rw [List.map_cons, List.map_cons, hmapr, hmap2]
    · intro rr hrr
      rcases List.mem_cons.mp hrr with h | h
      · rw [h]; exact hflagr
      · exact hflags2 rr h
    · rw [hflush2]
      rw [show (((rR :: runsR).map markRun).join : List WordGroup) =
        markRun rR ++ (runsR.map markRun).join from rfl]
      rcases hexit with ⟨hcurE, hbufE, hwgE⟩ | ⟨hbcE, hwgE⟩
      · rw [hcurE, hbufE, hwgE]
        rw [show (([] : List WordGroup) ++ curList none) = [] from rfl,
          markRun_short [] (by simp), List.append_nil]
        rw [List.append_assoc (st.wordGroups ++ markRun (st.buffer ++ curList st.currentGroup))
          (markRun rR) ((runsR.map markRun).join)]
      · rw [hbcE, hwgE]
        rw [List.append_assoc (st.wordGroups ++ markRun (st.buffer ++ curList st.currentGroup))
          (markRun rR) ((runsR.map markRun).join)]

theorem projG_parts (a b : WordGroup) (h : projG a = projG b) :
    a.gtype = b.gtype ∧ a.name = b.name ∧ a.keywords = b.keywords ∧ a.items = b.items := by
  unfold projG at h
  simp only [Prod.mk.injEq] at h
  exact h

theorem setFlags_key : ∀ (r1 r2 : List WordGroup) (total idx : Nat),
    r1.map projG = r2.map projG →
    (setFlags total idx r1).map groupKey = (setFlags total idx r2).map groupKey := by
  intro r1
  induction r1 with
  | nil =>
    intro r2 total idx h
    have : r2 = [] := by
      cases r2 with
      | nil => rfl
      | cons b t => cases h
    rw [this]
  | cons a t IH =>
    intro r2 total idx h
    cases r2 with
    | nil => cases h
    | cons b t2 =>
      rw [List.map_cons, List.map_cons] at h
      obtain ⟨hab, ht⟩ := List.cons.inj h
      obtain ⟨h1, h2, h3, h4⟩ := projG_parts a b hab
      rw [setFlags_cons, setFlags_cons, List.map_cons, List.map_cons, IH t2 total (idx + 1) ht]
      congr 1
      show (a.gtype, a.name, a.keywords, a.items, true) =
        (b.gtype, b.name, b.keywords, b.items, true)
      rw [h1, h2, h3, h4]

theorem map_key_of_proj_flags : ∀ (r1 r2 : List WordGroup),
    r1.map projG = r2.map projG →
    (∀ x ∈ r1, x.isRelatedGroup = false) → (∀ x ∈ r2, x.isRelatedGroup = false) →
    r1.map groupKey = r2.map groupKey := by
  intro r1
  induction r1 with
  | nil =>
    intro r2 h _ _
    cases r2 with
    | nil => rfl
    | cons b t => cases h
  | cons a t IH =>
    intro r2 h hf1 hf2
    cases r2 with
    | nil => cases h
    | cons b t2 =>
      rw [List.map_cons, List.map_cons] at h
      obtain ⟨hab, ht⟩ := List.cons.inj h
      obtain ⟨h1, h2, h3, h4⟩ := projG_parts a b hab
      rw [List.map_cons, List.map_cons,
        IH t2 ht (fun x hx => hf1 x (List.mem_cons_of_mem _ hx))
          (fun x hx => hf2 x (List.mem_cons_of_mem _ hx))]
      congr 1
      show (a.gtype, a.name, a.keywords, a.items, a.isRelatedGroup) =
        (b.gtype, b.name, b.keywords, b.items, b.isRelatedGroup)
      rw [h1, h2, h3, h4, hf1 a (List.mem_cons_self _ _), hf2 b (List.mem_cons_self _ _)]

theorem markRun_key_congr (r1 r2 : List WordGroup)
    (hp : r1.map projG = r2.map projG)
    (hf1 : ∀ x ∈ r1, x.isRelatedGroup = false)
    (hf2 : ∀ x ∈ r2, x.isRelatedGroup = false) :
    (markRun r1).map groupKey = (markRun r2).map groupKey := by
  have hlen : r1.length = r2.length := by
    have h := congrArg List.length hp
    rw [List.length_map, List.length_map] at h
    exact h
  unfold markRun
  rw [hlen]
  by_cases h : r2.length > 1
  · rw [if_pos h, if_pos h]
    exact setFlags_key r1 r2 r2.length 0 hp
  · rw [if_neg h, if_neg h]
    exact map_key_of_proj_flags r1 r2 hp hf1 hf2

theorem join_key_congr : ∀ (rs1 rs2 : List (List WordGroup)),
    rs1.map (List.map projG) = rs2.map (List.map projG) →
    (∀ r ∈ rs1, ∀ x ∈ r, x.isRelatedGroup = false) →
    (∀ r ∈ rs2, ∀ x ∈ r, x.isRelatedGroup = false) →
    ((rs1.map markRun).join).map groupKey = ((rs2.map markRun).join).map groupKey := by
  intro rs1
  induction rs1 with
  | nil =>
    intro rs2 h _ _
    cases rs2 with
    | nil => rfl
    | cons b t => cases h
  | cons a t IH =>
    intro rs2 h hf1 hf2
    cases rs2 with
    | nil => cases h
    | cons b t2 =>
      rw [List.map_cons, List.map_cons] at h
      obtain ⟨hab, ht⟩ := List.cons.inj h
      rw [show (((a :: t).map markRun).join : List WordGroup) =
        markRun a ++ ((t.map markRun).join) from rfl]
      rw [show (((b :: t2).map markRun).join : List WordGroup) =
        markRun b ++ ((t2.map markRun).join) from rfl]
      rw [List.map_append, List.map_append]
      rw [markRun_key_congr a b hab (hf1 a (List.mem_cons_self _ _))
        (hf2 b (List.mem_cons_self _ _))]
      rw [IH t2 ht (fun r hr => hf1 r (List.mem_cons_of_mem _ hr))
        (fun r hr => hf2 r (List.mem_cons_of_mem _ hr))]

theorem mem_trimList (d : List Char) (c : Char) (h : c ∈ trimList d) : c ∈ d := by
  unfold trimList at h
  have h1 := List.mem_reverse.mp h
  have h2 := (List.dropWhile_sublist _).subset h1
  have h3 := List.mem_reverse.mp h2
  exact (List.dropWhile_sublist _).subset h3

theorem noNl_trim (s : String) (h : NoNl s) : NoNl (jsTrim s) := by
  intro hc
  exact h (mem_trimList s.data _ hc)

theorem jsSplitLines_no_nl (s : String) : ∀ l ∈ jsSplitLines s, NoNl l := by
  intro l hl
  unfold jsSplitLines jsSplitChar at hl
  obtain ⟨x, hx, hlx⟩ := List.mem_map.mp hl
  rw [← hlx]
  exact splitCharAux_no_sep_mem '\n' s.data [] x (by simp) hx

theorem markRun_nl (r : List WordGroup) (h : ∀ g ∈ r, NlG g) :
    ∀ g ∈ markRun r, NlG g := by
  unfold markRun
  by_cases hlen : r.length > 1
  · rw [if_pos hlen]
    clear hlen
    have : ∀ (total idx : Nat) (r : List WordGroup), (∀ g ∈ r, NlG g) →
        ∀ g ∈ setFlags total idx r, NlG g := by
      intro total
      intro idx r
      induction r generalizing idx with
      | nil => intro _ g hg; cases hg
      | cons a t IH =>
        intro hr g hg
        rw [setFlags_cons] at hg
        rcases List.mem_cons.mp hg with h1 | h1
        · rw [h1]
          exact hr a (List.mem_cons_self _ _)
        · exact IH (idx + 1) (fun x hx => hr x (List.mem_cons_of_mem _ hx)) g h1
    exact this r.length 0 r h
  · rw [if_neg hlen]
    exact h

theorem nlSt_flushAll (st : ParseSt) (h : NlSt st) : NlSt (flushBuf (pushCur st)) := by
  obtain ⟨h1, h2, h3, h4, h5⟩ := h
  rw [flushAll_eq st]
  refine ⟨h1, ?_, ?_, ?_, h5⟩
  · intro g hg
    rcases List.mem_append.mp hg with hh | hh
    · exact h2 g hh
    · refine markRun_nl _ ?_ g hh
      intro x hx
      rcases List.mem_append.mp hx with hb | hc
      · exact h3 x hb
      · cases hcur : st.currentGroup with
        | none => rw [hcur] at hc; cases hc
        | some g0 =>
          rw [hcur] at hc
          rcases List.mem_singleton.mp hc with rfl
          exact h4 _ hcur
  · intro g hg
    cases hg
  · intro g hg
    cases hg

theorem noNl_label (t nm : String) (ht : NoNl t) (h : labelMatch t = some nm) : NoNl nm := by
  obtain ⟨he, _, _⟩ := labelMatch_sound t nm h
  intro hc
  apply ht
  rw [he, wrap_data]
  exact List.mem_cons_of_mem _ (List.mem_append_left _ hc)

theorem noNl_alias (t g1 g2 : String) (ht : NoNl t) (h : aliasMatch t = some (g1, g2)) :
    NoNl g1 ∧ NoNl g2 := by
  unfold aliasMatch at h
  cases hs : aliasSplit [] t.data with
  | none => rw [hs] at h; cases h
  | some p =>
    rw [hs] at h
    obtain ⟨pa, pb⟩ := p
    dsimp only at h
    have hpair := Option.some.inj h
    have hga : (⟨pa⟩ : String) = g1 := congrArg Prod.fst hpair
    have hgb : (⟨pb⟩ : String) = g2 := congrArg Prod.snd hpair
    subst hga
    subst hgb
    obtain ⟨k, hk, hg1, ⟨tail, harr, hg2⟩, _⟩ := aliasSplit_sound t.data [] pa pb hs
    constructor
    · intro hc
      apply ht
      show ('\n' : Char) ∈ t.data
      have h0 : ('\n' : Char) ∈ pa := hc
      rw [hg1, List.nil_append] at h0
      exact (List.take_sublist _ _).subset h0
    · intro hc
      apply ht
      show ('\n' : Char) ∈ t.data
      have hb1 : ('\n' : Char) ∈ pb := hc
      rw [hg2] at hb1
      have hb2 := (List.dropWhile_sublist _).subset hb1
      have hb3 : ('\n' : Char) ∈ (t.data.drop (k + 1)).dropWhile isWsChar := by
        rw [isArrowAt_some _ _ harr]
        exact List.mem_cons_of_mem _ (List.mem_cons_of_mem _ hb2)
      have hb4 := (List.dropWhile_sublist _).subset hb3
      exact (List.drop_sublist _ _).subset hb4

theorem nlG_new_alias (g1 g2 : String) (p : List String) (n : Nat)
    (hn1 : NoNl g1) (hn2 : NoNl g2) (hp : ∀ c ∈ p, NoNl c) :
    NlG { gtype := GroupType.alias1
          items := [⟨jsTrim g1, jsTrim g2⟩]
          startLine := n
          precedingComments := p } := by
  refine ⟨?_, ?_, ?_, ?_⟩
  · intro hc
    cases hc
  · intro w hw
    cases hw
  · intro it hit
    rcases List.mem_singleton.mp hit with rfl
    exact ⟨noNl_trim g1 hn1, noNl_trim g2 hn2⟩
  · exact hp

theorem nlG_new_plain (t : String) (p : List String) (n : Nat)
    (ht : NoNl t) (hp : ∀ c ∈ p, NoNl c) :
    NlG { gtype := GroupType.plain
          keywords := [t]
          startLine := n
          precedingComments := p } := by
  refine ⟨?_, ?_, ?_, ?_⟩
  · intro hc
    cases hc
  · intro w hw
    rcases List.mem_singleton.mp hw with rfl
    exact ht
  · intro it hit
    cases hit
  · exact hp

theorem nlSt_push_new (st : ParseSt) (ng : WordGroup) (hst : NlSt st) (hng : NlG ng)
    (la : Bool) (n : Nat) :
    NlSt { st with
      buffer := st.buffer ++ curList st.currentGroup
      currentGroup := some ng
      pending := []
      lastLineWasAlias := la
      lineNo := n } := by
  obtain ⟨h1, h2, h3, h4, h5⟩ := hst
  refine ⟨h1, h2, ?_, ?_, ?_⟩
  · intro x hx
    rcases List.mem_append.mp hx with hh | hh
    · exact h3 x hh
    · cases hcur : st.currentGroup with
      | none => rw [hcur] at hh; cases hh
      | some g0 =>
        rw [hcur] at hh
        rcases List.mem_singleton.mp hh with rfl
        exact h4 _ hcur
  · intro g' hg'
    obtain rfl := Option.some.inj hg'
    exact hng
  · intro c hc
    cases hc

theorem freqStepAP_nl (st : ParseSt) (t : String) (hst : NlSt st) (ht : NoNl t) :
    NlSt (freqStepAP st t) := by
  have hstk := hst
  obtain ⟨h1, h2, h3, h4, h5⟩ := hstk
  unfold freqStepAP
  cases hal : aliasMatch t with
  | some p =>
    obtain ⟨g1, g2⟩ := p
    obtain ⟨hn1, hn2⟩ := noNl_alias t g1 g2 ht hal
    dsimp only
    cases hcur : st.currentGroup with
    | some g =>
      dsimp only
      by_cases hjoin : st.lastLineWasAlias = true ∧
          (g.gtype = GroupType.alias1 ∨ g.gtype = GroupType.aliasGroup)
      · rw [if_pos hjoin]
        obtain ⟨hgn, hgk, hgi, hgc⟩ := h4 g hcur
        refine ⟨h1, h2, h3, ?_, h5⟩
        intro g' hg'
        obtain rfl := Option.some.inj hg'
        refine ⟨hgn, hgk, ?_, hgc⟩
        intro it hit
        rcases List.mem_append.mp hit with hh | hh
        · exact hgi it hh
        · rcases List.mem_singleton.mp hh with rfl
          exact ⟨noNl_trim g1 hn1, noNl_trim g2 hn2⟩
      · rw [if_neg hjoin]
        unfold pushCur
        rw [hcur]
        have := nlSt_push_new st _ hst
          (nlG_new_alias g1 g2 st.pending st.lineNo hn1 hn2 h5) true (st.lineNo + 1)
        rw [hcur] at this
        exact this
    | none =>
      dsimp only
      have := nlSt_push_new st _ hst
        (nlG_new_alias g1 g2 st.pending st.lineNo hn1 hn2 h5) true (st.lineNo + 1)
      rw [hcur] at this
      obtain ⟨k1, k2, k3, k4, k5⟩ := this
      exact ⟨k1, k2, fun x hx => k3 x (List.mem_append_left _ hx), k4, k5⟩
  | none =>
    dsimp only
    cases hcur : st.currentGroup with
    | none =>
      dsimp only
      rw [if_pos rfl]
      unfold pushCur
      rw [hcur]
      have := nlSt_push_new st _ hst
        (nlG_new_plain t st.pending st.lineNo ht h5) false (st.lineNo + 1)
      rw [hcur] at this
      obtain ⟨k1, k2, k3, k4, k5⟩ := this
      exact ⟨k1, k2, fun x hx => k3 x (List.mem_append_left _ hx), k4, k5⟩
    | some g =>
      dsimp only
      cases hb : (g.gtype == GroupType.alias1 || g.gtype == GroupType.aliasGroup) with
      | true =>
        rw [if_pos rfl]
        unfold pushCur
        rw [hcur]
        have := nlSt_push_new st _ hst
          (nlG_new_plain t st.pending st.lineNo ht h5) false (st.lineNo + 1)
        rw [hcur] at this
        exact this
      | false =>
        rw [if_neg (by simp)]
        obtain ⟨hgn, hgk, hgi, hgc⟩ := h4 g hcur
        refine ⟨h1, h2, h3, ?_, h5⟩
        intro g' hg'
        obtain rfl := Option.some.inj hg'
        refine ⟨hgn, ?_, hgi, hgc⟩
        intro w hw
        rcases List.mem_append.mp hw with hh | hh
        · exact hgk w hh
        · rcases List.mem_singleton.mp hh with rfl
          exact ht

theorem nlG_new_label (nm : String) (p : List String) (n : Nat)
    (hnm : NoNl nm) (hp : ∀ c ∈ p, NoNl c) :
    NlG { gtype := GroupType.groupName
          name := nm
          startLine := n
          precedingComments := p } := by
  refine ⟨hnm, ?_, ?_, hp⟩
  · intro w hw
    cases hw
  · intro it hit
    cases hit

theorem freqStep_nl (st : ParseSt) (l : String) (hst : NlSt st) (hl : NoNl l) :
    NlSt (freqStep st l) := by
  have hstk := hst
  obtain ⟨h1, h2, h3, h4, h5⟩ := hstk
  unfold freqStep
  by_cases hc1 : strStartsWith (jsTrim l) "#" = true
  · rw [if_pos hc1]
    by_cases hc2 : st.currentSection = FreqSection.groupsSect
    · rw [if_pos hc2]
      refine ⟨h1, h2, h3, h4, ?_⟩
      intro c hc
      rcases List.mem_append.mp hc with hh | hh
      · exact h5 c hh
      · rcases List.mem_singleton.mp hh with rfl
        exact hl
    · rw [if_neg hc2]
      exact ⟨h1, h2, h3, h4, h5⟩
  · rw [if_neg hc1]
    by_cases hc2 : jsTrim l = ""
    · rw [if_pos hc2]
      obtain ⟨k1, k2, k3, k4, k5⟩ := nlSt_flushAll st hst
      by_cases hc3 : (flushBuf (pushCur st)).currentSection = FreqSection.groupsSect
      · rw [if_pos hc3]
        refine ⟨k1, k2, k3, k4, ?_⟩
        intro c hc
        rcases List.mem_append.mp hc with hh | hh
        · exact k5 c hh
        · rcases List.mem_singleton.mp hh with rfl
          intro hx
          cases hx
      · rw [if_neg hc3]
        exact ⟨k1, k2, k3, k4, k5⟩
    · rw [if_neg hc2]
      by_cases hc3 : jsTrim l = "[GLOBAL_FILTER]"
      · rw [if_pos hc3]
        exact ⟨h1, h2, h3, h4, h5⟩
      · rw [if_neg hc3]
        by_cases hc4 : jsTrim l = "[WORD_GROUPS]"
        · rw [if_pos hc4]
          exact ⟨h1, h2, h3, h4, h5⟩
        · rw [if_neg hc4]
          by_cases hc5 : st.currentSection = FreqSection.globalSect
          · rw [if_pos hc5]
            refine ⟨?_, h2, h3, h4, h5⟩
            intro w hw
            rcases List.mem_append.mp hw with hh | hh
            · exact h1 w hh
            · rcases List.mem_singleton.mp hh with rfl
              exact noNl_trim l hl
          · rw [if_neg hc5]
            by_cases hc6 : st.currentSection = FreqSection.groupsSect
            · rw [if_pos hc6]
              cases hlabm : labelMatch (jsTrim l) with
              | none => exact freqStepAP_nl st (jsTrim l) hst (noNl_trim l hl)
              | some nm =>
                dsimp only
                by_cases hc7 : nm ≠ "GLOBAL_FILTER" ∧ nm ≠ "WORD_GROUPS"
                · rw [if_pos hc7]
                  obtain ⟨k1, k2, k3, k4, k5⟩ := nlSt_flushAll st hst
                  refine ⟨k1, k2, k3, ?_, ?_⟩
                  · intro g' hg'
                    obtain rfl := Option.some.inj hg'
                    exact nlG_new_label nm st.pending st.lineNo
                      (noNl_label (jsTrim l) nm (noNl_trim l hl) hlabm) h5
                  · intro c hc
                    cases hc
                · rw [if_neg hc7]
                  exact freqStepAP_nl st (jsTrim l) hst (noNl_trim l hl)
            · rw [if_neg hc6]
              exact ⟨h1, h2, h3, h4, h5⟩

theorem foldl_nl : ∀ (ls : List String) (st : ParseSt),
    NlSt st → (∀ l ∈ ls, NoNl l) →
    NlSt (ls.foldl freqStep st) := by
  intro ls
  induction ls with
  | nil => intro st h _; exact h
  | cons l ls IH =>
    intro st h hls
    exact IH (freqStep st l) (freqStep_nl st l h (hls l (List.mem_cons_self _ _)))
      (fun x hx => hls x (List.mem_cons_of_mem _ hx))

theorem parse_nl (T : String) :
    (∀ w ∈ (parseFrequencyText T).globalFilter, NoNl w) ∧
    (∀ g ∈ (parseFrequencyText T).wordGroups, NlG g) := by
  have hinit : NlSt initParseSt := by
    refine ⟨?_, ?_, ?_, ?_, ?_⟩
    · intro w hw; cases hw
    · intro g hg; cases hg
    · intro g hg; cases hg
    · intro g hg; cases hg
    · intro c hc; cases hc
  have hfold := foldl_nl (jsSplitLines T) initParseSt hinit (jsSplitLines_no_nl T)
  have hfin := nlSt_flushAll _ hfold
  exact ⟨hfin.1, hfin.2.1⟩

theorem jsSplit_join : ∀ (ls : List String), ls ≠ [] → (∀ l ∈ ls, NoNl l) →
    jsSplitLines (jsJoinLines ls) = ls := by
  intro ls
  induction ls with
  | nil => intro h _; exact absurd rfl h
  | cons x rest IH =>
    intro _ hnl
    cases rest with
    | nil =>
      show (splitCharAux '\n' (joinWithList ['\n'] [x.data]) []).map String.mk = [x]
      rw [show joinWithList ['\n'] [x.data] = x.data from rfl]
      rw [splitCharAux_nosep '\n' x.data [] (hnl x (List.mem_cons_self _ _))]
      rw [List.map_singleton]
      rfl
    | cons y rest2 =>
      show (splitCharAux '\n'
        (joinWithList ['\n'] (x.data :: (y :: rest2).map String.data)) []).map String.mk = _
      rw [show joinWithList ['\n'] (x.data :: (y :: rest2).map String.data) =
        x.data ++ ['\n'] ++ joinWithList ['\n'] ((y :: rest2).map String.data) from rfl]
      rw [List.append_assoc]
      rw [splitCharAux_append_nosep '\n' x.data _ [] (hnl x (List.mem_cons_self _ _))]
      rw [show (['\n'] ++ joinWithList ['\n'] ((y :: rest2).map String.data) :
        List Char) = '\n' :: joinWithList ['\n'] ((y :: rest2).map String.data) from rfl]
      rw [splitCharAux_sep_cons]
      rw [List.map_cons]
      have hx : ((x.data.reverse ++ []).reverse : List Char) = x.data := by
        rw [List.append_nil, List.reverse_reverse]
      rw [hx]
      have hIH := IH (by intro h; cases h)
        (fun l hl => hnl l (List.mem_cons_of_mem _ hl))
      show String.mk x.data :: _ = _
      rw [show (String.mk x.data : String) = x from rfl]
      rw [show (splitCharAux '\n' (joinWithList ['\n'] ((y :: rest2).map String.data))
        []).map String.mk = jsSplitLines (jsJoinLines (y :: rest2)) from rfl]
      rw [hIH]

theorem takeWhile_append_falsy {α : Type} (p : α → Bool) :
    ∀ (xs : List α) (b : α) (ys : List α), p b = false →
    (xs ++ b :: ys).takeWhile p = xs.takeWhile p := by
  intro xs
  induction xs with
  | nil =>
    intro b ys hb
    rw [List.nil_append]
    show (b :: ys).takeWhile p = []
    rw [List.takeWhile_cons, hb]
    rw [if_neg (by simp)]
  | cons a t IH =>
    intro b ys hb
    rw [List.cons_append, List.takeWhile_cons, List.takeWhile_cons]
    cases hpa : p a
    · rw [if_neg (by simp), if_neg (by simp)]
    · rw [if_pos rfl, if_pos rfl, IH b ys hb]

theorem dropWhile_append_falsy {α : Type} (p : α → Bool) :
    ∀ (xs : List α) (b : α) (ys : List α), p b = false →
    (xs ++ b :: ys).dropWhile p = xs.dropWhile p ++ b :: ys := by
  intro xs
  induction xs with
  | nil =>
    intro b ys hb
    rw [List.nil_append]
    show (b :: ys).dropWhile p = [] ++ b :: ys
    rw [List.dropWhile_cons, hb, List.nil_append]
    rw [if_neg (by simp)]
  | cons a t IH =>
    intro b ys hb
    rw [List.cons_append, List.dropWhile_cons, List.dropWhile_cons]
    cases hpa : p a
    · rw [if_neg (by simp), if_neg (by simp)]
      rfl
    · rw [if_pos rfl, if_pos rfl, IH b ys hb]

theorem globalCB_step (gf : List String) (n : Nat) (l : String)
    (hl : isCommentOrBlank l = true) :
    freqStep ⟨gf, [], FreqSection.globalSect, none, false, [], [], n⟩ l =
      ⟨gf, [], FreqSection.globalSect, none, false, [], [], n + 1⟩ := by
  unfold isCommentOrBlank at hl
  by_cases hc : strStartsWith (jsTrim l) "#" = true
  · unfold freqStep
    rw [if_pos hc, if_neg (by intro h; cases h)]
  · have hbl : jsTrim l = "" := by
      rcases Bool.or_eq_true_iff.mp hl with h | h
      · exact absurd h hc
      · exact of_decide_eq_true h
    unfold freqStep
    rw [if_neg hc, if_pos hbl]
    rfl

theorem globalCB_fold : ∀ (ls : List String) (gf : List String) (n : Nat),
    (∀ l ∈ ls, isCommentOrBlank l = true) →
    ls.foldl freqStep ⟨gf, [], FreqSection.globalSect, none, false, [], [], n⟩ =
      ⟨gf, [], FreqSection.globalSect, none, false, [], [], n + ls.length⟩ := by
  intro ls
  induction ls with
  | nil => intro gf n _; rfl
  | cons l ls IH =>
    intro gf n hls
    show List.foldl freqStep (freqStep _ l) ls = _
    rw [globalCB_step gf n l (hls l (List.mem_cons_self _ _)),
      IH gf (n + 1) (fun x hx => hls x (List.mem_cons_of_mem _ hx))]
    congr 1
    rw [List.length_cons]
    omega

theorem globalGf_step (gf : List String) (n : Nat) (w : String) (hw : GfOK w) :
    freqStep ⟨gf, [], FreqSection.globalSect, none, false, [], [], n⟩ w =
      ⟨gf ++ [w], [], FreqSection.globalSect, none, false, [], [], n + 1⟩ := by
  obtain ⟨hts, hne, hhash, hgf, hwg⟩ := hw
  unfold freqStep
  rw [hts]
  dsimp only
  rw [hhash]
  rw [if_neg (by simp), if_neg hne, if_neg hgf, if_neg hwg, if_pos rfl]

theorem globalGf_fold : ∀ (ws : List String) (gf : List String) (n : Nat),
    (∀ w ∈ ws, GfOK w) →
    ws.foldl freqStep ⟨gf, [], FreqSection.globalSect, none, false, [], [], n⟩ =
      ⟨gf ++ ws, [], FreqSection.globalSect, none, false, [], [], n + ws.length⟩ := by
  intro ws
  induction ws with
  | nil =>
    intro gf n _
    rw [List.append_nil]
    rfl
  | cons w ws IH =>
    intro gf n hws
    show List.foldl freqStep (freqStep _ w) ws = _
    rw [globalGf_step gf n w (hws w (List.mem_cons_self _ _)),
      IH (gf ++ [w]) (n + 1) (fun x hx => hws x (List.mem_cons_of_mem _ hx))]
    rw [List.append_assoc, List.singleton_append, List.length_cons]
    congr 1
    omega

theorem noNl_strAppend (a b : String) (ha : NoNl a) (hb : NoNl b) : NoNl (a ++ b) := by
  intro hc
  rw [String.data_append] at hc
  rcases List.mem_append.mp hc with h | h
  · exact ha h
  · exact hb h

theorem emitGroupBody_nl (g : WordGroup) (h : NlG g) : ∀ l ∈ emitGroupBody g, NoNl l := by
  obtain ⟨hn, hk, hi, _⟩ := h
  intro l hl
  cases hgt : g.gtype
  · rw [emitGroupBody_label g hgt] at hl
    rcases List.mem_append.mp hl with hh | hh
    · by_cases hne : g.name ≠ ""
      · rw [if_pos hne] at hh
        rcases List.mem_singleton.mp hh with rfl
        exact noNl_strAppend ("[" ++ g.name) "]"
          (noNl_strAppend "[" g.name (by unfold NoNl; decide) hn) (by unfold NoNl; decide)
      · rw [if_neg hne] at hh
        cases hh
    · exact hk l hh
  · rw [emitGroupBody_alias1 g hgt] at hl
    obtain ⟨it, hit, hlit⟩ := List.mem_map.mp hl
    rw [← hlit]
    obtain ⟨ha, hb⟩ := hi it hit
    exact noNl_strAppend (it.keyword ++ " => ") it.aliasName
      (noNl_strAppend it.keyword " => " ha (by unfold NoNl; decide)) hb
  · rw [emitGroupBody_aliasGroup g hgt] at hl
    obtain ⟨it, hit, hlit⟩ := List.mem_map.mp hl
    rw [← hlit]
    obtain ⟨ha, hb⟩ := hi it hit
    exact noNl_strAppend (it.keyword ++ " => ") it.aliasName
      (noNl_strAppend it.keyword " => " ha (by unfold NoNl; decide)) hb
  · rw [emitGroupBody_plain g hgt] at hl
    exact hk l hl

theorem emitGroups_nl : ∀ (gs : List WordGroup), (∀ g ∈ gs, NlG g) →
    ∀ l ∈ emitGroups gs, NoNl l := by
  intro gs
  induction gs with
  | nil =>
    intro _ l hl
    cases hl
  | cons g t IH =>
    intro h l hl
    show NoNl l
    have hdec : emitGroups (g :: t) =
        ((g.precedingComments ++ emitGroupBody g) ++ sepAfter g t.head?) ++ emitGroups t := rfl
    rw [hdec] at hl
    rcases List.mem_append.mp hl with hh | hh
    · rcases List.mem_append.mp hh with hh2 | hh2
      · rcases List.mem_append.mp hh2 with hh3 | hh3
        · exact (h g (List.mem_cons_self _ _)).2.2.2 l hh3
        · exact emitGroupBody_nl g (h g (List.mem_cons_self _ _)) l hh3
      · rcases sepAfter_cases g t.head? with hs | hs
        · rw [hs] at hh2
          rcases List.mem_singleton.mp hh2 with rfl
          intro hc
          cases hc
        · rw [hs] at hh2
          cases hh2
    · exact IH (fun x hx => h x (List.mem_cons_of_mem _ hx)) l hh

theorem built_lines (T : String) (pre gbody wbody : List String) (gfL wgL : String)
    (hsplit : jsSplitLines T = pre ++ [gfL] ++ gbody ++ [wgL] ++ wbody)
    (hgfL : jsTrim gfL = "[GLOBAL_FILTER]") (hwgL : jsTrim wgL = "[WORD_GROUPS]")
    (hnom : ∀ l ∈ pre ++ gbody ++ wbody,
      jsTrim l ≠ "[GLOBAL_FILTER]" ∧ jsTrim l ≠ "[WORD_GROUPS]")
    (hTne : T ≠ "")
    (data : FreqResult) (hdata : data.originalText = T) :
    buildFrequencyText data = jsJoinLines
      (pre ++ ["[GLOBAL_FILTER]"] ++ gbody.takeWhile isCommentOrBlank ++ data.globalFilter ++
        (gbody.dropWhile isCommentOrBlank).filter isCommentOrBlank ++ ["[WORD_GROUPS]"] ++
        emitGroups data.wordGroups) := by
  have hwgCB : isCommentOrBlank wgL = false := by
    unfold isCommentOrBlank
    rw [hwgL]
    decide
  have hp1gf : (fun l => decide (jsTrim l ≠ "[GLOBAL_FILTER]")) gfL = false := by
    show decide (jsTrim gfL ≠ "[GLOBAL_FILTER]") = false
    rw [hgfL]
    decide
  have hp2wg : (fun l => decide (jsTrim l ≠ "[WORD_GROUPS]")) wgL = false := by
    show decide (jsTrim wgL ≠ "[WORD_GROUPS]") = false
    rw [hwgL]
    decide
  have hLassoc : pre ++ [gfL] ++ gbody ++ [wgL] ++ wbody =
      pre ++ gfL :: (gbody ++ wgL :: wbody) := by
    simp only [List.append_assoc, List.singleton_append, List.cons_append]
    rw [List.nil_append, List.nil_append]
  unfold buildFrequencyText
  rw [hdata, if_pos hTne]
  dsimp only
  rw [hsplit, hLassoc]
  rw [takeWhile_append_falsy _ pre gfL _ hp1gf]
  rw [List.takeWhile_eq_self_iff.mpr
    (fun l hl => decide_eq_true (hnom l (List.mem_append_left _ (List.mem_append_left _ hl))).1)]
  rw [dropWhile_append_falsy _ pre gfL _ hp1gf]
  rw [List.dropWhile_eq_nil_iff.mpr
    (fun l hl => decide_eq_true (hnom l (List.mem_append_left _ (List.mem_append_left _ hl))).1)]
  rw [List.nil_append]
  rw [show (gfL :: (gbody ++ wgL :: wbody)).drop 1 = gbody ++ wgL :: wbody from rfl]
  rw [takeWhile_append_falsy isCommentOrBlank gbody wgL wbody hwgCB]
  rw [dropWhile_append_falsy isCommentOrBlank gbody wgL wbody hwgCB]
  rw [takeWhile_append_falsy _ (gbody.dropWhile isCommentOrBlank) wgL wbody hp2wg]
  rw [List.takeWhile_eq_self_iff.mpr
    (fun l hl => decide_eq_true
      (hnom l (List.mem_append_left _ (List.mem_append_right _
        ((List.dropWhile_sublist _).subset hl)))).2)]

theorem built_reparse (G : List String) (pre part2 part3 : List String)
    (runs : List (List WordGroup))
    (hGok : ∀ w ∈ G, GfOK w)
    (hpre : ∀ l ∈ pre, jsTrim l ≠ "[GLOBAL_FILTER]" ∧ jsTrim l ≠ "[WORD_GROUPS]")
    (h2 : ∀ l ∈ part2, isCommentOrBlank l = true)
    (h3 : ∀ l ∈ part3, isCommentOrBlank l = true)
    (hruns : RunsGood runs) :
    ∃ (runsR : List (List WordGroup)) (stE : ParseSt),
      (pre ++ ["[GLOBAL_FILTER]"] ++ part2 ++ G ++ part3 ++ ["[WORD_GROUPS]"] ++
        emitGroups ((runs.map markRun).join)).foldl freqStep initParseSt = stE ∧
      runsR.map (List.map projG) = runs.map (List.map projG) ∧
      (∀ rr ∈ runsR, ∀ x ∈ rr, x.isRelatedGroup = false) ∧
      (flushBuf (pushCur stE)).wordGroups = (runsR.map markRun).join := by
  have e1 : pre.foldl freqStep initParseSt =
      ⟨[], [], FreqSection.noSect, none, false, [], [], 0 + pre.length⟩ :=
    noSect_fold pre [] 0 hpre
  have e2 : (pre ++ ["[GLOBAL_FILTER]"]).foldl freqStep initParseSt =
      ⟨[], [], FreqSection.globalSect, none, false, [], [], 0 + pre.length + 1⟩ := by
    rw [List.foldl_append, e1]
    show freqStep _ "[GLOBAL_FILTER]" = _
    rw [gfMarker_step _ "[GLOBAL_FILTER]" (by decide)]
  have e3 : (pre ++ ["[GLOBAL_FILTER]"] ++ part2).foldl freqStep initParseSt =
      ⟨[], [], FreqSection.globalSect, none, false, [], [],
        0 + pre.length + 1 + part2.length⟩ := by
    rw [List.foldl_append, e2, globalCB_fold part2 [] _ h2]
  have e4 : (pre ++ ["[GLOBAL_FILTER]"] ++ part2 ++ G).foldl freqStep initParseSt =
      ⟨[] ++ G, [], FreqSection.globalSect, none, false, [], [],
        0 + pre.length + 1 + part2.length + G.length⟩ := by
    rw [List.foldl_append, e3, globalGf_fold G [] _ hGok]
  have e5 : (pre ++ ["[GLOBAL_FILTER]"] ++ part2 ++ G ++ part3).foldl freqStep initParseSt =
      ⟨[] ++ G, [], FreqSection.globalSect, none, false, [], [],
        0 + pre.length + 1 + part2.length + G.length + part3.length⟩ := by
    rw [List.foldl_append, e4, globalCB_fold part3 ([] ++ G) _ h3]
  have e6 : (pre ++ ["[GLOBAL_FILTER]"] ++ part2 ++ G ++ part3 ++
      ["[WORD_GROUPS]"]).foldl freqStep initParseSt =
      ⟨[] ++ G, [], FreqSection.groupsSect, none, false, [], [],
        0 + pre.length + 1 + part2.length + G.length + part3.length + 1⟩ := by
    rw [List.foldl_append, e5]
    show freqStep _ "[WORD_GROUPS]" = _
    rw [wgMarker_step _ "[WORD_GROUPS]" (by decide)]
  obtain ⟨runsR, stE, hfold, hmap, hflags, hflush⟩ := reparse_runs runs
    ⟨[] ++ G, [], FreqSection.groupsSect, none, false, [], [],
      0 + pre.length + 1 + part2.length + G.length + part3.length + 1⟩
    rfl hruns.1 hruns.2 (Or.inl ⟨rfl, rfl⟩)
  refine ⟨runsR, stE, ?_, hmap, hflags, ?_⟩
  · rw [List.foldl_append, e6, hfold]
  · rw [hflush]
    show ([] : List WordGroup) ++ markRun ([] ++ curList none) ++ (runsR.map markRun).join = _
    rw [show (([] : List WordGroup) ++ curList none) = [] from rfl,
      markRun_short [] (by simp), List.append_nil, List.nil_append]

theorem parse_wordGroups_eq (t : String) :
    (parseFrequencyText t).wordGroups =
      (flushBuf (pushCur ((jsSplitLines t).foldl freqStep initParseSt))).wordGroups := rfl

/-- C1: for every valid rule-file text `T` (its line sequence carries one
`[GLOBAL_FILTER]` marker followed later by one `[WORD_GROUPS]` marker and no
other line trims to either marker), parsing the text rebuilt by
`buildFrequencyText` from `parseFrequencyText T` yields a word-group list
structurally equal to that of `parseFrequencyText T`: the same group types,
in the same order, with the same name, keyword and keyword-to-alias
contents and the same `isRelatedGroup` flags. -/
theorem claim_C1_round_trip (T : String) (hval : ValidRuleText T) :
    ((parseFrequencyText (buildFrequencyText (parseFrequencyText T))).wordGroups).map groupKey =
      ((parseFrequencyText T).wordGroups).map groupKey := by
  obtain ⟨pre, gfL, gbody, wgL, wbody, hsplit, hgfL, hwgL, hnom⟩ := hval
  obtain ⟨G, runs, hG, hGok, hruns, hwg⟩ := parse_valid_struct T
    ⟨pre, gfL, gbody, wgL, wbody, hsplit, hgfL, hwgL, hnom⟩
  obtain ⟨hGnl0, hWnl⟩ := parse_nl T
  have hTne : T ≠ "" := by
    intro h
    rw [h] at hsplit
    have hlen := congrArg List.length hsplit
    rw [show (jsSplitLines "").length = 1 from rfl] at hlen
    rw [List.length_append, List.length_append, List.length_append, List.length_append] at hlen
    rw [List.length_singleton, List.length_singleton] at hlen
    omega
  have hbl := built_lines T pre gbody wbody gfL wgL hsplit hgfL hwgL hnom hTne
    (parseFrequencyText T) rfl
  have hprenl : ∀ l ∈ pre, NoNl l := by
    intro l hl
    refine jsSplitLines_no_nl T l ?_
    rw [hsplit]
    exact List.mem_append_left _ (List.mem_append_left _ (List.mem_append_left _
      (List.mem_append_left _ hl)))
  have hgbnl : ∀ l ∈ gbody, NoNl l := by
    intro l hl
    refine jsSplitLines_no_nl T l ?_
    rw [hsplit]
    exact List.mem_append_left _ (List.mem_append_left _ (List.mem_append_right _ hl))
  have hmemnl : ∀ l ∈ pre ++ ["[GLOBAL_FILTER]"] ++ gbody.takeWhile isCommentOrBlank ++
      (parseFrequencyText T).globalFilter ++
      (gbody.dropWhile isCommentOrBlank).filter isCommentOrBlank ++ ["[WORD_GROUPS]"] ++
      emitGroups (parseFrequencyText T).wordGroups, NoNl l := by
    intro l hl
    rcases List.mem_append.mp hl with h6 | h6
    · rcases List.mem_append.mp h6 with h5 | h5
      · rcases List.mem_append.mp h5 with h4 | h4
        · rcases List.mem_append.mp h4 with h3 | h3
          · rcases List.mem_append.mp h3 with h2 | h2
            · rcases List.mem_append.mp h2 with h1 | h1
              · exact hprenl l h1
              · rcases List.mem_singleton.mp h1 with rfl
                unfold NoNl
                decide
            · exact hgbnl l ((List.takeWhile_sublist _).subset h2)
          · exact hGnl0 l h3
        · exact hgbnl l ((List.dropWhile_sublist _).subset ((List.filter_sublist _).subset h4))
      · rcases List.mem_singleton.mp h5 with rfl
        unfold NoNl
        decide
    · exact emitGroups_nl _ hWnl l h6
  have hsplitb : jsSplitLines (buildFrequencyText (parseFrequencyText T)) =
      pre ++ ["[GLOBAL_FILTER]"] ++ gbody.takeWhile isCommentOrBlank ++
      (parseFrequencyText T).globalFilter ++
      (gbody.dropWhile isCommentOrBlank).filter isCommentOrBlank ++ ["[WORD_GROUPS]"] ++
      emitGroups (parseFrequencyText T).wordGroups := by
    rw [hbl]
    exact jsSplit_join _ (by simp) hmemnl
  obtain ⟨runsR, stE, hfold, hmap, hflags, hflush⟩ := built_reparse
    ((parseFrequencyText T).globalFilter) pre (gbody.takeWhile isCommentOrBlank)
    ((gbody.dropWhile isCommentOrBlank).filter isCommentOrBlank) runs
    (by rw [hG]; exact hGok)
    (fun l hl => hnom l (List.mem_append_left _ (List.mem_append_left _ hl)))
    (fun l hl => List.mem_takeWhile_imp hl)
    (fun l hl => List.of_mem_filter hl)
    hruns
  rw [← hwg] at hfold
  have horigflags : ∀ r ∈ runs, ∀ x ∈ r, x.isRelatedGroup = false := by
    intro r hr x hx
    have hRW := hruns.1 r hr
    cases r with
    | nil => cases hRW
    | cons h0 t0 => exact ((hRW.1 x hx).2).1
  rw [parse_wordGroups_eq (buildFrequencyText (parseFrequencyText T)), hsplitb, hfold, hflush]
  rw [join_key_congr runsR runs hmap hflags horigflags, ← hwg]

theorem claim_C1_witness :
    ValidRuleText "[GLOBAL_FILTER]\n[WORD_GROUPS]\nfoo" ∧
    ((parseFrequencyText (buildFrequencyText
        (parseFrequencyText "[GLOBAL_FILTER]\n[WORD_GROUPS]\nfoo"))).wordGroups).map groupKey =
      ((parseFrequencyText "[GLOBAL_FILTER]\n[WORD_GROUPS]\nfoo").wordGroups).map groupKey := by
  have hval : ValidRuleText "[GLOBAL_FILTER]\n[WORD_GROUPS]\nfoo" :=
    ⟨[], "[GLOBAL_FILTER]", [], "[WORD_GROUPS]", ["foo"], by decide, by decide, by decide,
      by decide⟩
  exact ⟨hval, claim_C1_round_trip _ hval⟩
